import Mathlib

/-!
Verification of the QR-code generator (`generateQR` / `createQRCode` and helpers).

The TypeScript source is shallowly embedded:
* a JS string is its sequence of UTF-16 code units, `List Nat`;
* a `number[][]` matrix is a `List (List Nat)`, read with `mget` (out-of-range
  reads default to 0, which the source never relies on) and written with `mset`
  (out-of-range writes are dropped, the source never performs any);
* in-place mutation becomes explicit state passing, `throw` becomes `Except`;
* JS numbers are `Nat` (all arithmetic in the source is on small non-negative
  integers; the one floating-point computation, penalty rule 4, is exact on
  integers in the relevant range and is embedded with exact arithmetic).

Definitions are translated from the source.  Definitions whose doc comment
says "Standard reader model" form the decoder used as the round-trip oracle:
they are written from the ISO/IEC 18004 reading rules, not from the encoder.
-/

/-- Read cell (r, c) of a matrix; JS `matrix[r][c]`. -/
def mget (m : List (List Nat)) (r c : Nat) : Nat := (m.getD r []).getD c 0

/-- Write cell (r, c) of a matrix; JS `matrix[r][c] = v`. -/
def mset (m : List (List Nat)) (r c v : Nat) : List (List Nat) :=
  m.set r ((m.getD r []).set c v)

/-- The step of the GF table loop: `x <<= 1; if (x & 0x100) x ^= 0x11d`. -/
def gfStep (x : Nat) : Nat :=
  let y := x <<< 1
  if y &&& 0x100 ≠ 0 then y ^^^ 0x11d else y

/-- Unfolding of the `initGF` loop: the successive values of `x`. -/
def gfTableGo : Nat → Nat → List Nat
  | 0, _ => []
  | n + 1, x => x :: gfTableGo n (gfStep x)

/-- The 255 values written into `GF_EXP[0..254]` by `initGF`. -/
def gfTable : List Nat := gfTableGo 255 1

/-- The `GF_EXP` table: entries 255..511 replicate entries 0..256. -/
def GF_EXP (i : Nat) : Nat :=
  if i < 255 then gfTable.getD i 0 else gfTable.getD (i - 255) 0

/-- The `GF_LOG` table: `initGF` runs `GF_LOG[x] = i` for i = 0..254 in order,
so a later write wins; unwritten entries (JS `undefined`) default to 0. -/
def GF_LOG (x : Nat) : Nat :=
  ((List.range 255).foldl (fun f i => fun y => if y = gfTable.getD i 0 then i else f y)
    (fun _ => 0)) x

/-- Multiply in GF(2^8) (`gfMul`). -/
def gfMul (a b : Nat) : Nat :=
  if a = 0 ∨ b = 0 then 0 else GF_EXP (GF_LOG a + GF_LOG b)

/-- One iteration of the `rsGeneratorPoly` loop.  The source allocates
`newPoly` of length `poly.length + 1` and runs, for each j,
`newPoly[j] ^= poly[j]; newPoly[j+1] ^= gfMul(poly[j], GF_EXP[i])`;
so `newPoly = (poly ++ [0]) xor (0 :: poly.map (gfMul . expi))` entrywise. -/
def rsGenStep (poly : List Nat) (expi : Nat) : List Nat :=
  List.zipWith (fun a b => a ^^^ b) (poly ++ [0]) (0 :: poly.map fun p => gfMul p expi)

/-- Generate the Reed-Solomon generator polynomial (`rsGeneratorPoly`). -/
def rsGeneratorPoly (numEcc : Nat) : List Nat :=
  (List.range numEcc).foldl (fun poly i => rsGenStep poly (GF_EXP i)) [1]

/-- One iteration of the `rsEncode` loop over a data byte:
`coef = byte ^ result[0]; result.shift(); result.push(0);
 for i < numEcc: result[i] ^= gfMul(gen[i+1], coef)`. -/
def rsEncodeStep (gen : List Nat) (result : List Nat) (byte : Nat) : List Nat :=
  let coef := byte ^^^ result.headD 0
  List.zipWith (fun a b => a ^^^ b) (result.tail ++ [0]) ((gen.drop 1).map fun g => gfMul g coef)

/-- Compute Reed-Solomon error correction codewords (`rsEncode`). -/
def rsEncode (data : List Nat) (numEcc : Nat) : List Nat :=
  data.foldl (rsEncodeStep (rsGeneratorPoly numEcc)) (List.replicate numEcc 0)

/-- Version information record (`VersionInfo`). -/
structure VersionInfo where
  totalCodewords : Nat
  ecL : List Nat

/-- The `VERSION_INFO` table.
`ecL` format: [totalCW, totalDataCW, ecCWperBlock, numBlocks, dataCWperBlock, 0, 0]. -/
def VERSION_INFO : List (Option VersionInfo) :=
  [none,
   some ⟨26, [26, 19, 7, 1, 19, 0, 0]⟩,
   some ⟨44, [44, 34, 10, 1, 34, 0, 0]⟩,
   some ⟨70, [70, 55, 15, 1, 55, 0, 0]⟩,
   some ⟨100, [100, 80, 20, 1, 80, 0, 0]⟩,
   some ⟨134, [134, 108, 26, 1, 108, 0, 0]⟩,
   some ⟨172, [172, 136, 18, 2, 68, 0, 0]⟩]

/-- Pre-computed format info strings (`FORMAT_INFO`, L level, masks 0-7). -/
def FORMAT_INFO : List Nat :=
  [0x77c4, 0x72f3, 0x7daa, 0x789d, 0x662f, 0x6318, 0x6c41, 0x6976]

/-- Alignment pattern positions by version (`ALIGNMENT_POSITIONS`). -/
def ALIGNMENT_POSITIONS : List (Option (List Nat)) :=
  [none, some [], some [6, 18], some [6, 22], some [6, 26], some [6, 30], some [6, 34]]

/-- Encode a JS string (UTF-16 code units) to a byte array (`encodeByteMode`).
Each code unit is encoded independently (CESU-8 style for surrogates). -/
def encodeByteMode (str : List Nat) : List Nat :=
  str.flatMap fun code =>
    if code < 128 then [code]
    else if code < 2048 then [0xc0 ||| (code >>> 6), 0x80 ||| (code &&& 0x3f)]
    else [0xe0 ||| (code >>> 12), 0x80 ||| ((code >>> 6) &&& 0x3f), 0x80 ||| (code &&& 0x3f)]

/-- Byte mode capacities for L level (local table of `getMinVersion`). -/
def capacities : List Nat := [0, 17, 32, 53, 78, 106, 134]

/-- Get minimum version for byte count (`getMinVersion`): the loop scans
versions 1..6 in order and returns the first whose capacity suffices. -/
def getMinVersion (byteCount : Nat) : Option Nat :=
  (List.range' 1 6).find? fun v => decide (byteCount ≤ capacities.getD v 0)

/-- ECMA-262 white space and line terminator code units, the set removed
by `String.prototype.trim`. -/
def jsIsWhitespace (u : Nat) : Bool :=
  u = 0x9 || u = 0xA || u = 0xB || u = 0xC || u = 0xD || u = 0x20 || u = 0xA0 ||
  u = 0x1680 || (decide (0x2000 ≤ u) && decide (u ≤ 0x200A)) || u = 0x2028 ||
  u = 0x2029 || u = 0x202F || u = 0x205F || u = 0x3000 || u = 0xFEFF

/-- JS `String.prototype.trim`: drop leading and trailing white space. -/
def jsTrim (units : List Nat) : List Nat :=
  ((units.dropWhile jsIsWhitespace).reverse.dropWhile jsIsWhitespace).reverse

/-- Big-endian bit expansion: `for (i = w-1; i >= 0; i--) push((v >> i) & 1)`,
the pattern used for the character count, the data bytes, the pad bytes,
codewords and the format info bits. -/
def natBitsMSB (w v : Nat) : List Nat :=
  (List.range w).map fun k => v >>> (w - 1 - k) &&& 1

/-- Pack 8 bits into a codeword: `for j < 8: cw = (cw << 1) | bits[i+j]`. -/
def bitsToByte (bits : List Nat) : Nat :=
  bits.foldl (fun cw b => (cw <<< 1) ||| b) 0

/-- Structural-fuel form of the codeword conversion loop; `bitsToCodewords`
supplies `bits.length` as fuel, which the unfolding lemma shows is always
sufficient, so the kernel can evaluate it. -/
def bitsToCodewordsF : Nat → List Nat → List Nat
  | 0, _ => []
  | _, [] => []
  | fuel + 1, b :: rest =>
    bitsToByte ((b :: rest).take 8) :: bitsToCodewordsF fuel ((b :: rest).drop 8)

/-- Convert the bit list to codewords, 8 bits at a time (`// Convert to codewords`). -/
def bitsToCodewords (bits : List Nat) : List Nat := bitsToCodewordsF bits.length bits

/-- The terminator loop: `for (i = 0; i < 4 && bits.length < maxBits; i++) push(0)`. -/
def termLoop : Nat → List Nat → Nat → List Nat
  | 0, bits, _ => bits
  | k + 1, bits, maxBits =>
    if bits.length < maxBits then termLoop k (bits ++ [0]) maxBits else bits

/-- Structural-fuel form of the byte-boundary padding loop; `padToByte`
supplies the loop variant `maxBits - bits.length` as fuel (when the fuel is
spent the loop guard is false, so the two agree). -/
def padToByteF : Nat → List Nat → Nat → List Nat
  | 0, bits, _ => bits
  | fuel + 1, bits, maxBits =>
    if bits.length % 8 ≠ 0 ∧ bits.length < maxBits then padToByteF fuel (bits ++ [0]) maxBits
    else bits

/-- Pad to byte boundary: `while (bits.length % 8 !== 0 && bits.length < maxBits) push(0)`. -/
def padToByte (bits : List Nat) (maxBits : Nat) : List Nat :=
  padToByteF (maxBits - bits.length) bits maxBits

/-- Structural-fuel form of the pad-codeword loop; `padLoop` supplies the
loop variant `maxBits - bits.length` as fuel (when the fuel is spent the
loop guard is false, so the two agree). -/
def padLoopF : Nat → List Nat → Nat → Nat → List Nat
  | 0, bits, _, _ => bits
  | fuel + 1, bits, maxBits, padIdx =>
    if bits.length < maxBits then
      padLoopF fuel (bits ++ natBitsMSB 8 (if padIdx = 0 then 0xec else 0x11)) maxBits
        ((padIdx + 1) % 2)
    else bits

/-- Pad-codeword loop: `while (bits.length < maxBits) { push the 8 bits of
padBytes[padIdx]; padIdx = (padIdx + 1) % 2 }` with `padBytes = [0xec, 0x11]`. -/
def padLoop (bits : List Nat) (maxBits padIdx : Nat) : List Nat :=
  padLoopF (maxBits - bits.length) bits maxBits padIdx

/-- The data bit stream built by `createQRCode` before Reed-Solomon coding:
mode indicator, character count, data bytes, terminator, byte-boundary
padding, pad codewords. -/
def buildBits (version : Nat) (dataBytes : List Nat) (totalDataCodewords : Nat) : List Nat :=
  let charCountBits := if version < 10 then 8 else 16
  let bits := [0, 1, 0, 0] ++ natBitsMSB charCountBits dataBytes.length ++
    dataBytes.flatMap (natBitsMSB 8)
  let maxBits := totalDataCodewords * 8
  padLoop (padToByte (termLoop 4 bits maxBits) maxBits) maxBits 0

/-- Split the data codewords into blocks: block b is
`dataCodewords.slice(b * dataCodewordsPerBlock, (b+1) * dataCodewordsPerBlock)`. -/
def splitBlocks (dataCodewords : List Nat) (numBlocks dataCodewordsPerBlock : Nat) :
    List (List Nat) :=
  (List.range numBlocks).map fun b =>
    (dataCodewords.drop (b * dataCodewordsPerBlock)).take dataCodewordsPerBlock

/-- Interleave data codewords: for each index below the longest block length,
push each block's codeword at that index if present. -/
def interleaveData (blocks : List (List Nat)) : List Nat :=
  let maxDataLen := (blocks.map List.length).foldl max 0
  (List.range maxDataLen).flatMap fun i =>
    blocks.flatMap fun block => if i < block.length then [block.getD i 0] else []

/-- Interleave EC codewords: for each index below `ecCodewordsPerBlock`,
push each block's EC codeword at that index. -/
def interleaveEC (ecBlocks : List (List Nat)) (ecCodewordsPerBlock : Nat) : List Nat :=
  (List.range ecCodewordsPerBlock).flatMap fun i => ecBlocks.map fun ec => ec.getD i 0

/-- Create an empty size x size matrix of zeros (`createEmptyMatrix`). -/
def createEmptyMatrix (size : Nat) : List (List Nat) :=
  List.replicate size (List.replicate size 0)

/-- Matrix-and-reserved pair: the source threads `matrix` and `reserved` together. -/
abbrev MR := List (List Nat) × List (List Nat)

/-- Stamp one 7x7 finder pattern at (row, col) and mark it reserved. -/
def stampFinderAt (mr : MR) (row col : Nat) : MR :=
  (List.range 7).foldl (fun mr1 r =>
    (List.range 7).foldl (fun mr2 c =>
      let isEdge := r = 0 ∨ r = 6 ∨ c = 0 ∨ c = 6
      let isInner := 2 ≤ r ∧ r ≤ 4 ∧ 2 ≤ c ∧ c ≤ 4
      (mset mr2.1 (row + r) (col + c) (if isEdge ∨ isInner then 1 else 0),
       mset mr2.2 (row + r) (col + c) 1)) mr1) mr

/-- Iteration i of the separator loop of `addFinderPatterns`.  The guards
mirror the source; the JS test `row - 1 >= 0` is always true at
`row = size - 7` and is dropped. -/
def sepStepAt (size row col : Nat) (mr : MR) (i : Nat) : MR :=
  let mr1 :=
    if row = 0 ∧ col + i < size then
      (if row + 7 < size then
        (mset mr.1 (row + 7) (col + i) 0, mset mr.2 (row + 7) (col + i) 1)
       else mr)
    else if row = size - 7 then
      (if col + i < size then
        (mset mr.1 (row - 1) (col + i) 0, mset mr.2 (row - 1) (col + i) 1)
       else mr)
    else mr
  if col = 0 ∧ row + i < size then
    (if col + 7 < size then
      (mset mr1.1 (row + i) (col + 7) 0, mset mr1.2 (row + i) (col + 7) 1)
     else mr1)
  else if col = size - 7 then
    (if row + i < size then
      (mset mr1.1 (row + i) (col - 1) 0, mset mr1.2 (row + i) (col - 1) 1)
     else mr1)
  else mr1

/-- Add finder patterns and separators (`addFinderPatterns`). -/
def addFinderPatterns (mr : MR) (size : Nat) : MR :=
  [(0, 0), (0, size - 7), (size - 7, 0)].foldl (fun mr0 pos =>
    (List.range 8).foldl (sepStepAt size pos.1 pos.2) (stampFinderAt mr0 pos.1 pos.2)) mr

/-- Add alignment patterns (`addAlignmentPatterns`).  The source loops
`r, c in -2..2`; here `dr, dc in 0..4` stand for `r + 2, c + 2`, so the
edge test `|r| = 2` becomes `dr = 0 or dr = 4` and the center is `dr = dc = 2`. -/
def addAlignmentPatterns (mr : MR) (version size : Nat) : MR :=
  if version < 2 then mr else
  match ALIGNMENT_POSITIONS.getD version none with
  | none => mr
  | some positions =>
    positions.foldl (fun mr0 row =>
      positions.foldl (fun mr1 col =>
        if (row < 9 ∧ col < 9) ∨ (row < 9 ∧ size - 10 < col) ∨
            (size - 10 < row ∧ col < 9) then
          mr1
        else
          (List.range 5).foldl (fun mr2 dr =>
            (List.range 5).foldl (fun mr3 dc =>
              let isEdge := dr = 0 ∨ dr = 4 ∨ dc = 0 ∨ dc = 4
              let isCenter := dr = 2 ∧ dc = 2
              (mset mr3.1 (row - 2 + dr) (col - 2 + dc) (if isEdge ∨ isCenter then 1 else 0),
               mset mr3.2 (row - 2 + dr) (col - 2 + dc) 1)) mr2) mr1) mr0) mr

/-- Add timing patterns (`addTimingPatterns`): `for (i = 8; i < size - 8; i++)`. -/
def addTimingPatterns (mr : MR) (size : Nat) : MR :=
  (List.range' 8 (size - 16)).foldl (fun mr0 i =>
    let v := (i + 1) % 2
    (mset (mset mr0.1 6 i v) i 6 v, mset (mset mr0.2 6 i 1) i 6 1)) mr

/-- Add the dark module (`addDarkModule`) at `(4 * version + 9, 8)`. -/
def addDarkModule (mr : MR) (version : Nat) : MR :=
  let row := 4 * version + 9
  (mset mr.1 row 8 1, mset mr.2 row 8 1)

/-- Reserve format information areas (`reserveFormatAreas`). -/
def reserveFormatAreas (res : List (List Nat)) (size : Nat) : List (List Nat) :=
  let r1 := (List.range 9).foldl (fun r i => mset (mset r 8 i 1) i 8 1) res
  let r2 := (List.range 8).foldl (fun r i => mset r 8 (size - 1 - i) 1) r1
  (List.range 8).foldl (fun r i => mset r (size - 1 - i) 8 1) r2

/-- The function-pattern phase of `createQRCode`: finder, alignment, timing,
dark module and format-area reservation, in source order, starting from
empty matrices. -/
def patternsMR (version : Nat) : MR :=
  let size := version * 4 + 17
  let mr1 := addFinderPatterns (createEmptyMatrix size, createEmptyMatrix size) size
  let mr2 := addAlignmentPatterns mr1 version size
  let mr3 := addTimingPatterns mr2 size
  let mr4 := addDarkModule mr3 version
  (mr4.1, reserveFormatAreas mr4.2 size)

/-- One 2-column pass of the zig-zag scan of `placeDataBits`: rows in the
current vertical direction, columns `right` then `right - 1`. -/
def travPass (size right : Nat) (upward : Bool) : List (Nat × Nat) :=
  (List.range size).flatMap fun i =>
    let row := if upward then size - 1 - i else i
    [(row, right), (row, right - 1)]

/-- Structural-fuel form of the zig-zag column loop; `travGo` supplies
`right` itself as fuel (the column index strictly decreases, so the fuel is
always sufficient, as the unfolding lemma shows). -/
def travGoF (size : Nat) : Nat → Nat → Bool → List (Nat × Nat)
  | 0, _, _ => []
  | fuel + 1, right, upward =>
    if right < 1 then [] else
    let r := if right = 6 then 5 else right
    travPass size r upward ++ travGoF size fuel (r - 2) (!upward)

/-- The zig-zag scan order of `placeDataBits`: the `while (right >= 1)` loop,
skipping the timing column (`if (right === 6) right--`). -/
def travGo (size right : Nat) (upward : Bool) : List (Nat × Nat) :=
  travGoF size right right upward

/-- The full zig-zag cell order, starting at the right edge moving upward. -/
def traversal (size : Nat) : List (Nat × Nat) := travGo size (size - 1) true

/-- Write a value sequence along a cell sequence; when the values are
exhausted, write 0 (`bitIdx < bits.length ? bits[bitIdx++] : 0`). -/
def writeSeq : List (List Nat) → List (Nat × Nat) → List Nat → List (List Nat)
  | m, [], _ => m
  | m, p :: ps, bits => writeSeq (mset m p.1 p.2 (bits.headD 0)) ps bits.tail

/-- Place data bits in the matrix (`placeDataBits`): expand the codewords
MSB-first and write them along the non-reserved cells of the zig-zag order
(cells with `reserved[row][col]` truthy are skipped without consuming a bit). -/
def placeDataBits (matrix reserved : List (List Nat)) (codewords : List Nat) (size : Nat) :
    List (List Nat) :=
  let bits := codewords.flatMap (natBitsMSB 8)
  writeSeq matrix ((traversal size).filter fun p => mget reserved p.1 p.2 = 0) bits

/-- The mask condition table of `applyMask` (`switch (mask)`); the `default`
case leaves `invert = false`. -/
def maskInvert (mask row col : Nat) : Bool :=
  match mask with
  | 0 => decide ((row + col) % 2 = 0)
  | 1 => decide (row % 2 = 0)
  | 2 => decide (col % 3 = 0)
  | 3 => decide ((row + col) % 3 = 0)
  | 4 => decide ((row / 2 + col / 3) % 2 = 0)
  | 5 => decide ((row * col) % 2 + (row * col) % 3 = 0)
  | 6 => decide (((row * col) % 2 + (row * col) % 3) % 2 = 0)
  | 7 => decide (((row + col) % 2 + (row * col) % 3) % 2 = 0)
  | _ => false

/-- Row-major enumeration of the size x size grid, the order of the
`for (row) for (col)` loops. -/
def gridPositions (size : Nat) : List (Nat × Nat) :=
  (List.range size).flatMap fun r => (List.range size).map fun c => (r, c)

/-- The loop body of `applyMask` at one cell: `if (reserved[row][col]) continue;
... if (invert) matrix[row][col] ^= 1`. -/
def amStep (reserved : List (List Nat)) (mask : Nat) (m : List (List Nat)) (p : Nat × Nat) :
    List (List Nat) :=
  if mget reserved p.1 p.2 ≠ 0 then m
  else if maskInvert mask p.1 p.2 then mset m p.1 p.2 (mget m p.1 p.2 ^^^ 1)
  else m

/-- Apply a mask pattern (`applyMask`): every non-reserved cell whose mask
condition holds is XOR-ed with 1. -/
def applyMask (matrix reserved : List (List Nat)) (mask size : Nat) : List (List Nat) :=
  (gridPositions size).foldl (amStep reserved mask) matrix

/-- Penalty rule 1 run-length scoring of one line (row or column) of the
matrix, given as a function from index to cell value. -/
def penaltyLine (line : Nat → Nat) (size : Nat) : Nat :=
  let cp := (List.range' 1 (size - 1)).foldl (fun (cp : Nat × Nat) idx =>
    if line idx = line (idx - 1) then (cp.1 + 1, cp.2)
    else (1, cp.2 + if 5 ≤ cp.1 then 3 + (cp.1 - 5) else 0)) (1, 0)
  cp.2 + if 5 ≤ cp.1 then 3 + (cp.1 - 5) else 0

/-- Penalty rule 3 patterns (`pattern1`, `pattern2`). -/
def PATTERN1 : List Nat := [1, 0, 1, 1, 1, 0, 1, 0, 0, 0, 0]

/-- Penalty rule 3 reversed pattern. -/
def PATTERN2 : List Nat := [0, 0, 0, 0, 1, 0, 1, 1, 1, 0, 1]

/-- Evaluate the mask penalty score (`evaluatePenalty`).  Rule 4 is embedded
with exact integer arithmetic: `prevFive = floor(percent / 5) * 5` with
`percent = darkCount * 100 / size^2` equals `darkCount * 100 / size^2 / 5 * 5`
in natural division (the JS doubles are exact at these magnitudes), and the
added score `min(|prevFive - 50|, |nextFive - 50|) / 5 * 10` is an integer
because both absolute differences are multiples of 5. -/
def evaluatePenalty (matrix : List (List Nat)) (size : Nat) : Nat :=
  let rule1Rows := (List.range size).foldl
    (fun acc row => acc + penaltyLine (fun c => mget matrix row c) size) 0
  let rule1Cols := (List.range size).foldl
    (fun acc col => acc + penaltyLine (fun r => mget matrix r col) size) 0
  let rule2 := (List.range (size - 1)).foldl (fun acc row =>
    (List.range (size - 1)).foldl (fun acc2 col =>
      let val := mget matrix row col
      if val = mget matrix row (col + 1) ∧ val = mget matrix (row + 1) col ∧
          val = mget matrix (row + 1) (col + 1) then acc2 + 3
      else acc2) acc) 0
  let rule3Rows := (List.range size).foldl (fun acc row =>
    (List.range (size - 10)).foldl (fun acc2 col =>
      let match1 := (List.range 11).all fun i =>
        decide (mget matrix row (col + i) = PATTERN1.getD i 0)
      let match2 := (List.range 11).all fun i =>
        decide (mget matrix row (col + i) = PATTERN2.getD i 0)
      if match1 || match2 then acc2 + 40 else acc2) acc) 0
  let rule3Cols := (List.range size).foldl (fun acc col =>
    (List.range (size - 10)).foldl (fun acc2 row =>
      let match1 := (List.range 11).all fun i =>
        decide (mget matrix (row + i) col = PATTERN1.getD i 0)
      let match2 := (List.range 11).all fun i =>
        decide (mget matrix (row + i) col = PATTERN2.getD i 0)
      if match1 || match2 then acc2 + 40 else acc2) acc) 0
  let darkCount := (List.range size).foldl (fun acc row =>
    (List.range size).foldl (fun acc2 col =>
      if mget matrix row col ≠ 0 then acc2 + 1 else acc2) acc) 0
  let prevFive := darkCount * 100 / (size * size) / 5 * 5
  let nextFive := prevFive + 5
  let rule4 := min (((prevFive : Int) - 50).natAbs / 5) (((nextFive : Int) - 50).natAbs / 5) * 10
  rule1Rows + rule1Cols + rule2 + rule3Rows + rule3Cols + rule4

/-- The mask-selection loop of `createQRCode`: masks 0..7 in order, keeping
the first strictly smaller score.  `none` models the initial
`bestScore = Infinity` state, which every score beats; the scratch copy
`matrix.map(row => [...row])` is the identity in this functional model. -/
def maskLoop (matrix reserved : List (List Nat)) (size : Nat) : Option (Nat × Nat) :=
  (List.range 8).foldl (fun best mask =>
    let score := evaluatePenalty (applyMask matrix reserved mask size) size
    match best with
    | none => some (mask, score)
    | some bs => if score < bs.2 then some (mask, score) else some bs) none

/-- The selected mask id (`bestMask` after the loop; 0 is unreachable
since the loop body runs at least once). -/
def selectMask (matrix reserved : List (List Nat)) (size : Nat) : Nat :=
  ((maskLoop matrix reserved size).map Prod.fst).getD 0

/-- Format info positions along row 8 of the top-left finder (`topLeftH`). -/
def topLeftH : List (Nat × Nat) :=
  [(8, 0), (8, 1), (8, 2), (8, 3), (8, 4), (8, 5), (8, 7), (8, 8)]

/-- Format info positions along column 8 of the top-left finder (`topLeftV`). -/
def topLeftV : List (Nat × Nat) :=
  [(7, 8), (5, 8), (4, 8), (3, 8), (2, 8), (1, 8), (0, 8)]

/-- Second-copy format cells along row 8 at the top-right finder:
`matrix[8][size - 1 - i]` for i = 0..7. -/
def topRightH (size : Nat) : List (Nat × Nat) :=
  (List.range 8).map fun i => (8, size - 1 - i)

/-- Second-copy format cells along column 8 at the bottom-left finder:
`matrix[size - 7 + i][8]` for i = 0..6. -/
def bottomLeftV (size : Nat) : List (Nat × Nat) :=
  (List.range 7).map fun i => (size - 7 + i, 8)

/-- Add format information (`addFormatInfo`): the 15 bits of
`FORMAT_INFO[mask]`, MSB first, written to the four cell runs in source
order (bits 0-7 to `topLeftH`, bits 8-14 to `topLeftV`, then the second
copy: bits 0-7 to `topRightH`, bits 8-14 to `bottomLeftV`). -/
def addFormatInfo (matrix : List (List Nat)) (mask size : Nat) : List (List Nat) :=
  let bits := natBitsMSB 15 (FORMAT_INFO.getD mask 0)
  let m1 := writeSeq matrix topLeftH (bits.take 8)
  let m2 := writeSeq m1 topLeftV (bits.drop 8)
  let m3 := writeSeq m2 (topRightH size) (bits.take 8)
  writeSeq m3 (bottomLeftV size) (bits.drop 8)

/-- Create a complete QR code matrix (`createQRCode`). -/
def createQRCode (data : List Nat) : Except String (List (List Nat)) :=
  let dataBytes := encodeByteMode data
  match getMinVersion dataBytes.length with
  | none => .error "Data too long for QR code"
  | some version =>
    match VERSION_INFO.getD version none with
    | none => .error "Invalid QR version"
    | some vInfo =>
      let ecInfo := vInfo.ecL
      let totalDataCodewords := ecInfo.getD 1 0
      let ecCodewordsPerBlock := ecInfo.getD 2 0
      let numBlocks := ecInfo.getD 3 0
      let dataCodewordsPerBlock := ecInfo.getD 4 0
      let bits := buildBits version dataBytes totalDataCodewords
      let dataCodewords := bitsToCodewords bits
      let blocks := splitBlocks dataCodewords numBlocks dataCodewordsPerBlock
      let ecBlocks := blocks.map fun b => rsEncode b ecCodewordsPerBlock
      let interleaved := interleaveData blocks ++ interleaveEC ecBlocks ecCodewordsPerBlock
      let size := version * 4 + 17
      let mr := patternsMR version
      let matrix1 := placeDataBits mr.1 mr.2 interleaved size
      let bestMask := selectMask matrix1 mr.2 size
      let matrix2 := applyMask matrix1 mr.2 bestMask size
      .ok (addFormatInfo matrix2 bestMask size)

/-- The opening `<svg ...>` part. -/
def svgOpen (sizePx : Nat) : String :=
  "<svg xmlns=\"http://www.w3.org/2000/svg\" width=\"" ++ toString sizePx ++
  "\" height=\"" ++ toString sizePx ++ "\" viewBox=\"0 0 " ++ toString sizePx ++
  " " ++ toString sizePx ++ "\">"

/-- The background rectangle part. -/
def bgRect (lightColor : String) : String :=
  "<rect width=\"100%\" height=\"100%\" fill=\"" ++ lightColor ++ "\"/>"

/-- One module rectangle part. -/
def moduleRect (xPos yPos moduleSize : Nat) (darkColor : String) : String :=
  "<rect x=\"" ++ toString xPos ++ "\" y=\"" ++ toString yPos ++ "\" width=\"" ++
  toString moduleSize ++ "\" height=\"" ++ toString moduleSize ++ "\" fill=\"" ++
  darkColor ++ "\"/>"

/-- The (x, y) pixel coordinates of the emitted module rectangles, in the
order of the rendering loops of `generateQR` (one entry per truthy cell). -/
def moduleRectCoords (matrix : List (List Nat)) (moduleSize margin : Nat) : List (Nat × Nat) :=
  (List.range matrix.length).flatMap fun y =>
    (List.range (matrix.getD y []).length).filterMap fun x =>
      if mget matrix y x ≠ 0 then some (margin + x * moduleSize, margin + y * moduleSize)
      else none

/-- The module (foreground) color: `dark ? "#fff" : "#000"` (`darkColor`). -/
def darkColorOf (dark : Bool) : String := if dark then "#fff" else "#000"

/-- The background color: `dark ? "#00000000" : "#fff"` (`lightColor`). -/
def lightColorOf (dark : Bool) : String := if dark then "#00000000" else "#fff"

/-- Generate a QR-code SVG (`generateQR`).  The input is a JS string as its
UTF-16 code units; `null`/`undefined` inputs are excluded by typing and the
corresponding throw is unreachable in this model. -/
def generateQR (text : List Nat) (dark : Bool) : Except String String :=
  let str := jsTrim text
  if str.length = 0 then .error "QR text cannot be empty"
  else
    match createQRCode str with
    | .error e => .error e
    | .ok matrix =>
      let moduleSize := 8
      let margin := 4 * moduleSize
      let sizePx := matrix.length * moduleSize + 2 * margin
      let parts := [svgOpen sizePx, bgRect (lightColorOf dark)] ++
        (moduleRectCoords matrix moduleSize margin).map
          (fun p => moduleRect p.1 p.2 moduleSize (darkColorOf dark)) ++ ["</svg>"]
      .ok (String.join parts)

/-- The module rectangles (pixel coordinates and fill color) a call
`generateQR text dark` emits, in emission order; `none` when encoding fails. -/
def svgRectData (text : List Nat) (dark : Bool) : Option (List ((Nat × Nat) × String)) :=
  match createQRCode (jsTrim text) with
  | .error _ => none
  | .ok matrix => some ((moduleRectCoords matrix 8 32).map fun p => (p, darkColorOf dark))

/-- The color-swap reading of the dark-mode contract: the two calls emit
module rectangles at identical coordinates, and the foreground and
background fill strings are exchanged between the two calls. -/
def svgColorSwapClaim (text : List Nat) : Prop :=
  (svgRectData text true).map (List.map Prod.fst) =
    (svgRectData text false).map (List.map Prod.fst) ∧
  darkColorOf true = lightColorOf false ∧ lightColorOf true = darkColorOf false

/-- Standard reader model: alignment pattern center coordinate for
versions 2-6 (ISO/IEC 18004 Annex E; the single pattern sits at (p, p)). -/
def alignCenter : Nat → Nat
  | 2 => 18
  | 3 => 22
  | 4 => 26
  | 5 => 30
  | 6 => 34
  | _ => 0

/-- Standard reader model: the function-pattern and format region of a
version 1-6 symbol - the three 9x9/9x8/8x9 corner blocks (finder, separator,
format information, dark module), the two timing lines, and the alignment
pattern of versions 2-6.  Every other cell is an encoding-region cell. -/
def stdReserved (version size r c : Nat) : Bool :=
  decide (r ≤ 8) && decide (c ≤ 8) ||
  decide (r ≤ 8) && decide (size - 8 ≤ c) ||
  decide (size - 8 ≤ r) && decide (c ≤ 8) ||
  decide (r = 6) || decide (c = 6) ||
  (decide (2 ≤ version) &&
    (decide (alignCenter version - 2 ≤ r) && decide (r ≤ alignCenter version + 2) &&
     decide (alignCenter version - 2 ≤ c) && decide (c ≤ alignCenter version + 2)))

/-- Standard reader model: `stdReserved` as a 0/1 grid, for comparison with
the reserved matrix built by the pattern-drawing phases. -/
def stdGrid (version : Nat) : List (List Nat) :=
  let size := version * 4 + 17
  (List.range size).map fun r => (List.range size).map fun c =>
    if stdReserved version size r c then 1 else 0

/-- Standard reader model: big-endian bit accumulation. -/
def bitsToNat (bits : List Nat) : Nat :=
  bits.foldl (fun acc b => acc * 2 + b) 0

/-- Standard reader model: the 15 cells of format information copy 1 around
the top-left finder, most significant bit first (ISO/IEC 18004 Figure 25). -/
def fmtPositions : List (Nat × Nat) :=
  [(8, 0), (8, 1), (8, 2), (8, 3), (8, 4), (8, 5), (8, 7), (8, 8),
   (7, 8), (5, 8), (4, 8), (3, 8), (2, 8), (1, 8), (0, 8)]

/-- Standard reader model: read format copy 1 and identify the mask by
exact lookup among the eight level-L format codewords (an error-free read
of a BCH-protected field is an exact table match). -/
def decodeFormat (matrix : List (List Nat)) : Option Nat :=
  let v := bitsToNat (fmtPositions.map fun p => mget matrix p.1 p.2)
  (List.range 8).find? fun m => decide (FORMAT_INFO.getD m 0 = v)

/-- Standard reader model: read the encoding region in zig-zag order,
undoing the mask on the way (reserved cells per the standard geometry are
skipped). -/
def readDataBits (matrix : List (List Nat)) (version size mask : Nat) : List Nat :=
  ((traversal size).filter fun p => !stdReserved version size p.1 p.2).map fun p =>
    if maskInvert mask p.1 p.2 then mget matrix p.1 p.2 ^^^ 1 else mget matrix p.1 p.2

/-- Standard reader model: elements at even positions. -/
def evens : List Nat → List Nat
  | [] => []
  | [a] => [a]
  | a :: _ :: rest => a :: evens rest

/-- Standard reader model: elements at odd positions. -/
def odds (l : List Nat) : List Nat := evens l.tail

/-- Standard reader model: data codeword count per version (level L). -/
def stdTotalDataCodewords : Nat → Nat
  | 1 => 19
  | 2 => 34
  | 3 => 55
  | 4 => 80
  | 5 => 108
  | 6 => 136
  | _ => 0

/-- Standard reader model: recover the data codewords from the interleaved
codeword sequence.  Versions 1-5 are a single block; version 6 is two
interleaved 68-codeword blocks. -/
def stdDataCodewords (version : Nat) (codewords : List Nat) : List Nat :=
  if version = 6 then evens (codewords.take 136) ++ odds (codewords.take 136)
  else codewords.take (stdTotalDataCodewords version)

/-- Structural-fuel form of the byte grouping; `chunk8` supplies
`bits.length` as fuel. -/
def chunk8F : Nat → List Nat → List Nat
  | 0, _ => []
  | _, [] => []
  | fuel + 1, b :: rest => bitsToNat ((b :: rest).take 8) :: chunk8F fuel ((b :: rest).drop 8)

/-- Standard reader model: group a bit list into bytes, 8 bits at a time. -/
def chunk8 (bits : List Nat) : List Nat := chunk8F bits.length bits

/-- Standard reader model: parse a byte-mode segment with an 8-bit
character count (versions 1-9): mode indicator 0100, count, payload. -/
def parseByteMode (bits : List Nat) : Option (List Nat) :=
  if bits.take 4 = [0, 1, 0, 0] then
    let n := bitsToNat ((bits.drop 4).take 8)
    let payload := (bits.drop 12).take (8 * n)
    if payload.length = 8 * n then some (chunk8 payload) else none
  else none

/-- Standard reader model: full decode of a version 1-6 level-L byte-mode
symbol - version from the size, mask from format copy 1, zig-zag read with
unmasking, de-interleave, byte-mode parse.  Returns the payload bytes. -/
def decodeQR (matrix : List (List Nat)) : Option (List Nat) :=
  let size := matrix.length
  let version := (size - 17) / 4
  match decodeFormat matrix with
  | none => none
  | some mask =>
    let bits := readDataBits matrix version size mask
    let data := stdDataCodewords version (chunk8 bits)
    parseByteMode (data.flatMap (natBitsMSB 8))

/-- Number of cells of the size x size grid whose reserved flag is unset
(the row-major grid cells, filtered on an unset flag). -/
def countNonReserved (res : List (List Nat)) (size : Nat) : Nat :=
  (((List.range size).flatMap fun r => (List.range size).map fun c => (r, c)).filter
    fun p => mget res p.1 p.2 = 0).length

/-- Specification shape of the pad-codeword area: k pad bytes alternating
0xEC, 0x11 (starting at parity `idx`), each expanded MSB first. -/
def specPad : Nat → Nat → List Nat
  | 0, _ => []
  | k + 1, idx => natBitsMSB 8 (if idx = 0 then 0xec else 0x11) ++ specPad k ((idx + 1) % 2)

/-- Scale a polynomial (coefficient list) by a field element. -/
def scalePoly (c : Nat) (p : List Nat) : List Nat := p.map fun a => gfMul a c

/-- Left-pad a coefficient list with zeros to length n (big-endian alignment). -/
def padLeft (n : Nat) (l : List Nat) : List Nat := List.replicate (n - l.length) 0 ++ l

/-- Add two big-endian polynomials, the second no longer than the first
(coefficient-wise XOR, which is addition and subtraction in GF(2^8)). -/
def xorAlign (a b : List Nat) : List Nat :=
  List.zipWith (fun x y => x ^^^ y) a (padLeft a.length b)

/-- Multiply big-endian polynomials over GF(2^8):
`(a x^n + p) * q = (a q) x^n + p q`. -/
def mulBE : List Nat → List Nat → List Nat
  | [], _ => []
  | a :: p, q => xorAlign (scalePoly a q ++ List.replicate p.length 0) (mulBE p q)

/-- The linear factors `x - alpha^i` for i in [0, n) (in GF(2^8) subtraction
is addition, so the factor is the coefficient list [1, alpha^i]). -/
def linFactors (n : Nat) : List (List Nat) :=
  (List.range n).map fun i => [1, GF_EXP i]

/-- Product of a list of polynomials. -/
def polyProd (fs : List (List Nat)) : List Nat := fs.foldl mulBE [1]

/-- The quotient coefficients produced by the `rsEncode` division loop:
at each step the cancelled leading coefficient is `byte ^ result[0]`. -/
def rsQuotGo (gen : List Nat) (r : List Nat) : List Nat → List Nat
  | [] => []
  | b :: rest => (b ^^^ r.headD 0) :: rsQuotGo gen (rsEncodeStep gen r b) rest

/-- The quotient of the Reed-Solomon division of `data * x^numEcc` by the
generator polynomial, as computed implicitly by `rsEncode`. -/
def rsQuot (data : List Nat) (numEcc : Nat) : List Nat :=
  rsQuotGo (rsGeneratorPoly numEcc) (List.replicate numEcc 0) data

/-- UTF-16 code units of a Unicode scalar value (surrogate pair above BMP). -/
def utf16Units (c : Nat) : List Nat :=
  if c < 0x10000 then [c]
  else [0xD800 + (c - 0x10000) / 0x400, 0xDC00 + (c - 0x10000) % 0x400]

/-- Standard UTF-8 encoding of a Unicode scalar value (RFC 3629). -/
def utf8Bytes (c : Nat) : List Nat :=
  if c < 0x80 then [c]
  else if c < 0x800 then [0xC0 + c / 64, 0x80 + c % 64]
  else if c < 0x10000 then [0xE0 + c / 4096, 0x80 + c / 64 % 64, 0x80 + c % 64]
  else [0xF0 + c / 262144, 0x80 + c / 4096 % 64, 0x80 + c / 64 % 64, 0x80 + c % 64]

/-- A size x size matrix: the shape every phase of `createQRCode` preserves. -/
def WellFormedMat (m : List (List Nat)) (size : Nat) : Prop :=
  m.length = size ∧ ∀ row ∈ m, row.length = size

/-! ### Grid infrastructure lemmas -/

theorem getD_set {α : Type} (l : List α) (i j : Nat) (a d : α) :
    (l.set i a).getD j d = if i = j ∧ j < l.length then a else l.getD j d := by
  induction l generalizing i j with
  | nil => simp
  | cons x xs ih =>
    cases i with
    | zero => cases j <;> simp
    | succ i2 =>
      cases j with
      | zero => simp
      | succ j2 =>
        simp only [List.set_cons_succ, List.getD_cons_succ, ih i2 j2, List.length_cons]
        have hiff : (i2 = j2 ∧ j2 < xs.length) ↔ (i2 + 1 = j2 + 1 ∧ j2 + 1 < xs.length + 1) := by
          omega
        rw [if_congr hiff rfl rfl]

theorem mset_length (m : List (List Nat)) (r c v : Nat) : (mset m r c v).length = m.length := by
  simp [mset]

theorem wf_row_len {m : List (List Nat)} {s : Nat} (hw : WellFormedMat m s) {r : Nat}
    (hr : r < s) : (m.getD r []).length = s := by
  obtain ⟨hl, hrows⟩ := hw
  have hrlen : r < m.length := by omega
  have hget : m.getD r [] = m[r] := by
    simp [List.getD, List.getElem?_eq_getElem hrlen]
  rw [hget]
  exact hrows _ (List.getElem_mem hrlen)

theorem mset_wf {m : List (List Nat)} {s : Nat} (hw : WellFormedMat m s) (r c v : Nat) :
    WellFormedMat (mset m r c v) s := by
  by_cases hr : r < m.length
  · obtain ⟨hl, hrows⟩ := hw
    refine ⟨by simp [mset, hl], fun row hrow => ?_⟩
    rcases List.mem_or_eq_of_mem_set hrow with h | h
    · exact hrows _ h
    · subst h
      rw [List.length_set]
      exact wf_row_len ⟨hl, hrows⟩ (by omega)
  · unfold mset
    rw [List.set_eq_of_length_le (by omega)]
    exact hw

theorem mget_mset_ne (m : List (List Nat)) {r c r2 c2 : Nat} (h : (r2, c2) ≠ (r, c)) (v : Nat) :
    mget (mset m r c v) r2 c2 = mget m r2 c2 := by
  unfold mget mset
  rw [getD_set]
  by_cases hcond : r = r2 ∧ r2 < m.length
  · obtain ⟨he, hlt⟩ := hcond
    have hc2 : c ≠ c2 := by
      intro hcc
      exact h (by rw [he, hcc])
    rw [if_pos ⟨he, hlt⟩, getD_set, if_neg (fun hy => hc2 hy.1), he]
  · rw [if_neg hcond]

theorem mget_mset_eq {m : List (List Nat)} {s r c : Nat} (hw : WellFormedMat m s)
    (hr : r < s) (hc : c < s) (v : Nat) : mget (mset m r c v) r c = v := by
  have hml : m.length = s := hw.1
  have hrowlen : (m.getD r []).length = s := wf_row_len hw hr
  unfold mget mset
  rw [getD_set, if_pos ⟨rfl, by omega⟩, getD_set, if_pos ⟨rfl, by omega⟩]

theorem writeSeq_wf {s : Nat} (ps : List (Nat × Nat)) :
    ∀ (m : List (List Nat)) (bits : List Nat), WellFormedMat m s →
      WellFormedMat (writeSeq m ps bits) s := by
  induction ps with
  | nil => intro m bits hw; exact hw
  | cons p ps ih =>
    intro m bits hw
    exact ih _ _ (mset_wf hw _ _ _)

theorem mget_writeSeq_notMem (ps : List (Nat × Nat)) :
    ∀ (m : List (List Nat)) (bits : List Nat) (r c : Nat), (r, c) ∉ ps →
      mget (writeSeq m ps bits) r c = mget m r c := by
  induction ps with
  | nil => intro m bits r c _; rfl
  | cons p ps ih =>
    intro m bits r c hmem
    have hne : (r, c) ≠ (p.1, p.2) := by
      intro hx
      exact hmem (by rw [hx, Prod.mk.eta]; exact List.mem_cons_self _ _)
    rw [writeSeq, ih _ _ _ _ (fun hx => hmem (List.mem_cons_of_mem _ hx))]
    exact mget_mset_ne m hne _

theorem writeSeq_read {s : Nat} (ps : List (Nat × Nat)) :
    ∀ (m : List (List Nat)) (bits : List Nat), ps.Nodup →
      (∀ p ∈ ps, p.1 < s ∧ p.2 < s) → WellFormedMat m s → bits.length ≤ ps.length →
      ps.map (fun p => mget (writeSeq m ps bits) p.1 p.2) =
        bits ++ List.replicate (ps.length - bits.length) 0 := by
  induction ps with
  | nil =>
    intro m bits _ _ _ hlen
    simp only [List.length_nil, Nat.le_zero, List.length_eq_zero] at hlen
    simp [hlen]
  | cons p ps ih =>
    intro m bits hnd hb hw hlen
    have hpnotin : p ∉ ps := (List.nodup_cons.mp hnd).1
    have hndtail : ps.Nodup := (List.nodup_cons.mp hnd).2
    have hpb := hb p (List.mem_cons_self _ _)
    have hw1 : WellFormedMat (mset m p.1 p.2 (bits.headD 0)) s := mset_wf hw _ _ _
    have hhead : mget (writeSeq (mset m p.1 p.2 (bits.headD 0)) ps bits.tail) p.1 p.2 =
        bits.headD 0 := by
      rw [mget_writeSeq_notMem ps _ _ _ _ hpnotin]
      exact mget_mset_eq hw hpb.1 hpb.2 _
    have htail := ih (mset m p.1 p.2 (bits.headD 0)) bits.tail hndtail
      (fun q hq => hb q (List.mem_cons_of_mem _ hq)) hw1
      (by
        cases bits with
        | nil => simp
        | cons b bs => simp at hlen ⊢; omega)
    rw [writeSeq, List.map_cons, hhead, htail]
    cases bits with
    | nil => simp [List.replicate_succ]
    | cons b bs => simp

theorem mem_gridPositions {s : Nat} {p : Nat × Nat} :
    p ∈ gridPositions s ↔ p.1 < s ∧ p.2 < s := by
  cases p with
  | mk r c =>
    simp [gridPositions, List.mem_flatMap]

theorem gridPositions_eq_product (s : Nat) :
    gridPositions s = List.range s ×ˢ List.range s := rfl

theorem gridPositions_nodup (s : Nat) : (gridPositions s).Nodup := by
  rw [gridPositions_eq_product]
  exact (List.nodup_range s).product (List.nodup_range s)

theorem amStep_wf {s : Nat} {m : List (List Nat)} (hw : WellFormedMat m s)
    (reserved : List (List Nat)) (mask : Nat) (p : Nat × Nat) :
    WellFormedMat (amStep reserved mask m p) s := by
  unfold amStep
  split
  · exact hw
  · split
    · exact mset_wf hw _ _ _
    · exact hw

theorem mget_amStep_ne {r c : Nat} {p : Nat × Nat} (h : (r, c) ≠ (p.1, p.2))
    (reserved : List (List Nat)) (mask : Nat) (m : List (List Nat)) :
    mget (amStep reserved mask m p) r c = mget m r c := by
  unfold amStep
  split
  · rfl
  · split
    · exact mget_mset_ne m h _
    · rfl

theorem mget_amStep_self {s : Nat} {m : List (List Nat)} (hw : WellFormedMat m s)
    {p : Nat × Nat} (hp1 : p.1 < s) (hp2 : p.2 < s)
    (reserved : List (List Nat)) (mask : Nat) :
    mget (amStep reserved mask m p) p.1 p.2 =
      if mget reserved p.1 p.2 = 0 ∧ maskInvert mask p.1 p.2 = true
      then mget m p.1 p.2 ^^^ 1 else mget m p.1 p.2 := by
  unfold amStep
  by_cases h1 : mget reserved p.1 p.2 = 0
  · by_cases h2 : maskInvert mask p.1 p.2 = true
    · simp [h1, h2, mget_mset_eq hw hp1 hp2]
    · simp [h1, h2]
  · simp [h1]

theorem amFold_wf {s : Nat} (reserved : List (List Nat)) (mask : Nat) (ps : List (Nat × Nat)) :
    ∀ (m : List (List Nat)), WellFormedMat m s →
      WellFormedMat (ps.foldl (amStep reserved mask) m) s := by
  induction ps with
  | nil => intro m hw; exact hw
  | cons p ps ih => intro m hw; exact ih _ (amStep_wf hw _ _ _)

theorem amFold_mget {s : Nat} (reserved : List (List Nat)) (mask : Nat) (ps : List (Nat × Nat)) :
    ∀ (m : List (List Nat)), ps.Nodup → (∀ p ∈ ps, p.1 < s ∧ p.2 < s) → WellFormedMat m s →
      ∀ r c, mget (ps.foldl (amStep reserved mask) m) r c =
        if (r, c) ∈ ps ∧ mget reserved r c = 0 ∧ maskInvert mask r c = true
        then mget m r c ^^^ 1 else mget m r c := by
  induction ps with
  | nil => intro m _ _ _ r c; simp
  | cons p ps ih =>
    intro m hnd hb hw r c
    have hpnotin : p ∉ ps := (List.nodup_cons.mp hnd).1
    have hpb := hb p (List.mem_cons_self _ _)
    rw [List.foldl_cons, ih _ (List.nodup_cons.mp hnd).2
      (fun q hq => hb q (List.mem_cons_of_mem _ hq)) (amStep_wf hw _ _ _)]
    by_cases hqp : (r, c) = (p.1, p.2)
    · have hrc : (r, c) = p := by rw [hqp, Prod.mk.eta]
      have hnotin2 : ((r, c) : Nat × Nat) ∉ ps := by rw [hrc]; exact hpnotin
      rw [if_neg (fun hx => hnotin2 hx.1)]
      have hr1 : r = p.1 := congrArg Prod.fst hqp
      have hc1 : c = p.2 := congrArg Prod.snd hqp
      rw [hr1, hc1, mget_amStep_self hw hpb.1 hpb.2]
      have hmem : ((p.1, p.2) : Nat × Nat) ∈ p :: ps := by
        rw [Prod.mk.eta]; exact List.mem_cons_self _ _
      by_cases hg : mget reserved p.1 p.2 = 0 ∧ maskInvert mask p.1 p.2 = true
      · rw [if_pos hg, if_pos ⟨hmem, hg⟩]
      · rw [if_neg hg, if_neg (fun hx => hg hx.2)]
    · rw [mget_amStep_ne hqp]
      have hmemiff : ((r, c) ∈ p :: ps) ↔ ((r, c) ∈ ps) := by
        constructor
        · intro hx
          rcases List.mem_cons.mp hx with hx2 | hx2
          · exact absurd (by rw [hx2, Prod.mk.eta]) hqp
          · exact hx2
        · exact List.mem_cons_of_mem _
      exact if_congr (and_congr_left' hmemiff.symm) rfl rfl

theorem applyMask_wf {s : Nat} {matrix : List (List Nat)} (hw : WellFormedMat matrix s)
    (reserved : List (List Nat)) (mask : Nat) :
    WellFormedMat (applyMask matrix reserved mask s) s :=
  amFold_wf reserved mask _ _ hw

theorem applyMask_mget {s : Nat} {matrix : List (List Nat)} (hw : WellFormedMat matrix s)
    (reserved : List (List Nat)) (mask r c : Nat) :
    mget (applyMask matrix reserved mask s) r c =
      if r < s ∧ c < s ∧ mget reserved r c = 0 ∧ maskInvert mask r c = true
      then mget matrix r c ^^^ 1 else mget matrix r c := by
  unfold applyMask
  rw [amFold_mget reserved mask _ _ (gridPositions_nodup s)
    (fun q hq => mem_gridPositions.mp hq) hw]
  have hiff : ((r, c) ∈ gridPositions s ∧ mget reserved r c = 0 ∧ maskInvert mask r c = true) ↔
      (r < s ∧ c < s ∧ mget reserved r c = 0 ∧ maskInvert mask r c = true) := by
    rw [mem_gridPositions]
    tauto
  rw [if_congr hiff rfl rfl]

/-! ### Zig-zag traversal lemmas -/

theorem travPass_mem {size right : Nat} {up : Bool} {p : Nat × Nat}
    (h : p ∈ travPass size right up) : p.1 < size ∧ (p.2 = right ∨ p.2 = right - 1) := by
  unfold travPass at h
  rcases List.mem_flatMap.mp h with ⟨i, hi, hp⟩
  have hilt : i < size := List.mem_range.mp hi
  rcases List.mem_cons.mp hp with hp2 | hp2
  · subst hp2
    constructor
    · by_cases hu : up <;> simp [hu] <;> omega
    · left; rfl
  · rcases List.mem_cons.mp hp2 with hp3 | hp3
    · subst hp3
      constructor
      · by_cases hu : up <;> simp [hu] <;> omega
      · right; rfl
    · simp at hp3

theorem travPass_nodup {size right : Nat} {up : Bool} (hr : 1 ≤ right) :
    (travPass size right up).Nodup := by
  unfold travPass
  rw [List.nodup_flatMap]
  constructor
  · intro i _
    refine List.nodup_cons.mpr ⟨?_, by simp⟩
    intro hx
    have hx2 := List.mem_singleton.mp hx
    have : right = right - 1 := congrArg Prod.snd hx2
    omega
  · refine List.Pairwise.imp_of_mem ?_ (List.nodup_range size)
    intro a b hma hmb hab
    have ha : a < size := List.mem_range.mp hma
    have hb : b < size := List.mem_range.mp hmb
    simp only [Function.onFun, List.disjoint_left]
    intro x hxa hxb
    have hrowa : x.1 = (if up then size - 1 - a else a) := by
      rcases List.mem_cons.mp hxa with h | h
      · rw [h]
      · rw [List.mem_singleton.mp h]
    have hrowb : x.1 = (if up then size - 1 - b else b) := by
      rcases List.mem_cons.mp hxb with h | h
      · rw [h]
      · rw [List.mem_singleton.mp h]
    by_cases hu : up <;> simp [hu] at hrowa hrowb <;> omega

theorem travGoF_irrel (size : Nat) : ∀ (f1 f2 right : Nat) (up : Bool), right ≤ f1 →
    right ≤ f2 → travGoF size f1 right up = travGoF size f2 right up := by
  intro f1
  induction f1 with
  | zero =>
    intro f2 right up h1 _
    have h0 : right = 0 := by omega
    subst h0
    cases f2 <;> rfl
  | succ f1 ih =>
    intro f2 right up h1 h2
    cases f2 with
    | zero =>
      have h0 : right = 0 := by omega
      subst h0
      rfl
    | succ f2 =>
      show (if right < 1 then [] else
          travPass size (if right = 6 then 5 else right) up ++
            travGoF size f1 ((if right = 6 then 5 else right) - 2) (!up)) =
        (if right < 1 then [] else
          travPass size (if right = 6 then 5 else right) up ++
            travGoF size f2 ((if right = 6 then 5 else right) - 2) (!up))
      by_cases hr : right < 1
      · rw [if_pos hr, if_pos hr]
      · rw [if_neg hr, if_neg hr]
        congr 1
        apply ih
        · by_cases h6 : right = 6
          · rw [if_pos h6]
            omega
          · rw [if_neg h6]
            omega
        · by_cases h6 : right = 6
          · rw [if_pos h6]
            omega
          · rw [if_neg h6]
            omega

theorem travGo_eq (size right : Nat) (up : Bool) :
    travGo size right up = if right < 1 then [] else
      let r := if right = 6 then 5 else right
      travPass size r up ++ travGo size (r - 2) (!up) := by
  cases right with
  | zero => rfl
  | succ w =>
    rw [if_neg (show ¬(w + 1 < 1) by omega)]
    show (if w + 1 < 1 then [] else
        travPass size (if w + 1 = 6 then 5 else w + 1) up ++
          travGoF size w ((if w + 1 = 6 then 5 else w + 1) - 2) (!up)) =
      travPass size (if w + 1 = 6 then 5 else w + 1) up ++
        travGo size ((if w + 1 = 6 then 5 else w + 1) - 2) (!up)
    rw [if_neg (show ¬(w + 1 < 1) by omega)]
    congr 1
    show travGoF size w ((if w + 1 = 6 then 5 else w + 1) - 2) (!up) =
      travGoF size ((if w + 1 = 6 then 5 else w + 1) - 2)
        ((if w + 1 = 6 then 5 else w + 1) - 2) (!up)
    apply travGoF_irrel
    · by_cases h6 : w + 1 = 6
      · rw [if_pos h6]
        omega
      · rw [if_neg h6]
        omega
    · exact le_rfl

theorem travGo_mem (size : Nat) :
    ∀ right, ∀ up : Bool, ∀ p : Nat × Nat, p ∈ travGo size right up →
      p.1 < size ∧ p.2 ≤ right ∧ 1 ≤ right := by
  intro right
  induction right using Nat.strong_induction_on with
  | _ right ih =>
    intro up p hp
    rw [travGo_eq] at hp
    split at hp
    · simp at hp
    · rcases List.mem_append.mp hp with h | h
      · have := travPass_mem h
        by_cases h6 : right = 6 <;> simp [h6] at this ⊢ <;> omega
      · by_cases h6 : right = 6
        · simp only [h6] at h
          have := ih 3 (by omega) _ _ h
          omega
        · simp only [if_neg h6] at h
          have := ih (right - 2) (by omega) _ _ h
          omega

theorem travGo_nodup (size : Nat) :
    ∀ right, ∀ up : Bool, (travGo size right up).Nodup := by
  intro right
  induction right using Nat.strong_induction_on with
  | _ right ih =>
    intro up
    rw [travGo_eq]
    split
    · exact List.nodup_nil
    · rename_i h1
      by_cases h6 : right = 6
      · subst h6
        have he : (if (6 : Nat) = 6 then (5 : Nat) else 6) = 5 := by norm_num
        rw [he]
        refine List.Nodup.append (travPass_nodup (by omega)) (ih (5 - 2) (by omega) _) ?_
        intro x hxa hxb
        have h2 := travPass_mem hxa
        have h3 := travGo_mem size (5 - 2) _ _ hxb
        rcases h2.2 with hc | hc <;> omega
      · rw [if_neg h6]
        refine List.Nodup.append (travPass_nodup (by omega)) (ih (right - 2) (by omega) _) ?_
        intro x hxa hxb
        have h2 := travPass_mem hxa
        have h3 := travGo_mem size (right - 2) _ _ hxb
        rcases h2.2 with hc | hc <;> omega

theorem traversal_nodup (size : Nat) : (traversal size).Nodup := travGo_nodup size _ _

theorem traversal_mem {size : Nat} {p : Nat × Nat} (h : p ∈ traversal size) :
    p.1 < size ∧ p.2 < size := by
  have h2 := travGo_mem size (size - 1) _ _ h
  omega

/-! ### Well-formedness of the pattern phases -/

theorem foldl_preserve {σ β : Type} (P : σ → Prop) (step : σ → β → σ)
    (hstep : ∀ st b, P st → P (step st b)) :
    ∀ (l : List β) (st : σ), P st → P (l.foldl step st) := by
  intro l
  induction l with
  | nil => intro st h; exact h
  | cons x xs ih => intro st h; exact ih _ (hstep _ _ h)

/-- Well-formedness of a matrix-reserved pair. -/
def WfMR (mr : MR) (s : Nat) : Prop := WellFormedMat mr.1 s ∧ WellFormedMat mr.2 s

theorem createEmptyMatrix_wf (s : Nat) : WellFormedMat (createEmptyMatrix s) s := by
  constructor
  · simp [createEmptyMatrix]
  · intro row hrow
    rw [List.eq_of_mem_replicate hrow]
    simp

theorem stampFinderAt_wf {s : Nat} {mr : MR} (hw : WfMR mr s) (row col : Nat) :
    WfMR (stampFinderAt mr row col) s := by
  unfold stampFinderAt
  refine foldl_preserve (fun mr2 => WfMR mr2 s) _ ?_ _ _ hw
  intro st r hst
  refine foldl_preserve (fun mr2 => WfMR mr2 s) _ ?_ _ _ hst
  intro st2 c hst2
  exact ⟨mset_wf hst2.1 _ _ _, mset_wf hst2.2 _ _ _⟩

theorem wfPairSet {s : Nat} {mr : MR} (hw : WfMR mr s) {a b c d e f : Nat} :
    WfMR (mset mr.1 a b c, mset mr.2 d e f) s :=
  ⟨mset_wf hw.1 _ _ _, mset_wf hw.2 _ _ _⟩

theorem sepStepAt_wf {s : Nat} {mr : MR} (hw : WfMR mr s) (size row col i : Nat) :
    WfMR (sepStepAt size row col mr i) s := by
  unfold sepStepAt
  dsimp only
  repeat' split
  all_goals first
    | exact hw
    | exact wfPairSet hw
    | exact wfPairSet (wfPairSet hw)

theorem addFinderPatterns_wf {s : Nat} {mr : MR} (hw : WfMR mr s) (size : Nat) :
    WfMR (addFinderPatterns mr size) s := by
  unfold addFinderPatterns
  refine foldl_preserve (fun mr2 => WfMR mr2 s) _ ?_ _ _ hw
  intro st pos hst
  refine foldl_preserve (fun mr2 => WfMR mr2 s) _ ?_ _ _ (stampFinderAt_wf hst _ _)
  intro st2 i hst2
  exact sepStepAt_wf hst2 _ _ _ _

theorem addAlignmentPatterns_wf {s : Nat} {mr : MR} (hw : WfMR mr s) (version size : Nat) :
    WfMR (addAlignmentPatterns mr version size) s := by
  unfold addAlignmentPatterns
  split
  · exact hw
  · split
    · exact hw
    · refine foldl_preserve (fun mr2 => WfMR mr2 s) _ ?_ _ _ hw
      intro st row hst
      refine foldl_preserve (fun mr2 => WfMR mr2 s) _ ?_ _ _ hst
      intro st2 col hst2
      split
      · exact hst2
      · refine foldl_preserve (fun mr2 => WfMR mr2 s) _ ?_ _ _ hst2
        intro st3 dr hst3
        refine foldl_preserve (fun mr2 => WfMR mr2 s) _ ?_ _ _ hst3
        intro st4 dc hst4
        exact wfPairSet hst4

theorem addTimingPatterns_wf {s : Nat} {mr : MR} (hw : WfMR mr s) (size : Nat) :
    WfMR (addTimingPatterns mr size) s := by
  unfold addTimingPatterns
  refine foldl_preserve (fun mr2 => WfMR mr2 s) _ ?_ _ _ hw
  intro st i hst
  exact ⟨mset_wf (mset_wf hst.1 _ _ _) _ _ _, mset_wf (mset_wf hst.2 _ _ _) _ _ _⟩

theorem addDarkModule_wf {s : Nat} {mr : MR} (hw : WfMR mr s) (version : Nat) :
    WfMR (addDarkModule mr version) s :=
  wfPairSet hw

theorem reserveFormatAreas_wf {s : Nat} {res : List (List Nat)} (hw : WellFormedMat res s)
    (size : Nat) : WellFormedMat (reserveFormatAreas res size) s := by
  unfold reserveFormatAreas
  refine foldl_preserve (fun m => WellFormedMat m s) _ ?_ _ _ ?_
  · intro st i hst
    exact mset_wf hst _ _ _
  · refine foldl_preserve (fun m => WellFormedMat m s) _ ?_ _ _ ?_
    · intro st i hst
      exact mset_wf hst _ _ _
    · refine foldl_preserve (fun m => WellFormedMat m s) _ ?_ _ _ hw
      intro st i hst
      exact mset_wf (mset_wf hst _ _ _) _ _ _

theorem patternsMR_eq (version : Nat) :
    patternsMR version =
      ((addDarkModule (addTimingPatterns (addAlignmentPatterns (addFinderPatterns (createEmptyMatrix (version * 4 + 17), createEmptyMatrix (version * 4 + 17)) (version * 4 + 17)) version (version * 4 + 17)) (version * 4 + 17)) version).1, reserveFormatAreas (addDarkModule (addTimingPatterns (addAlignmentPatterns (addFinderPatterns (createEmptyMatrix (version * 4 + 17), createEmptyMatrix (version * 4 + 17)) (version * 4 + 17)) version (version * 4 + 17)) (version * 4 + 17)) version).2 (version * 4 + 17)) := rfl

theorem wfPairMk {s : Nat} {a b : List (List Nat)} (ha : WellFormedMat a s)
    (hb : WellFormedMat b s) : WfMR (a, b) s := ⟨ha, hb⟩

theorem patternsMR_wf (version : Nat) : WfMR (patternsMR version) (version * 4 + 17) := by
  have h0 : WfMR (createEmptyMatrix (version * 4 + 17), createEmptyMatrix (version * 4 + 17))
      (version * 4 + 17) :=
    wfPairMk (createEmptyMatrix_wf _) (createEmptyMatrix_wf _)
  have h4 := addDarkModule_wf (addTimingPatterns_wf
    (addAlignmentPatterns_wf (addFinderPatterns_wf h0 (version * 4 + 17))
      version (version * 4 + 17)) (version * 4 + 17)) version
  rw [patternsMR_eq]
  exact wfPairMk h4.1 (reserveFormatAreas_wf h4.2 (version * 4 + 17))

theorem placeDataBits_wf {s : Nat} {matrix : List (List Nat)} (hw : WellFormedMat matrix s)
    (reserved : List (List Nat)) (codewords : List Nat) :
    WellFormedMat (placeDataBits matrix reserved codewords s) s :=
  writeSeq_wf _ _ _ hw

theorem addFormatInfo_wf {s : Nat} {matrix : List (List Nat)} (hw : WellFormedMat matrix s)
    (mask : Nat) : WellFormedMat (addFormatInfo matrix mask s) s := by
  unfold addFormatInfo
  exact writeSeq_wf _ _ _ (writeSeq_wf _ _ _ (writeSeq_wf _ _ _ (writeSeq_wf _ _ _ hw)))

/-! ### Point lemmas for data placement and format writing -/

theorem mget_mset_self (m : List (List Nat)) (r c v : Nat) :
    mget (mset m r c v) r c =
      if r < m.length ∧ c < (m.getD r []).length then v else mget m r c := by
  unfold mget mset
  rw [getD_set]
  by_cases h1 : r < m.length
  · rw [if_pos ⟨rfl, h1⟩, getD_set]
    by_cases h2 : c < (m.getD r []).length
    · rw [if_pos ⟨rfl, h2⟩, if_pos ⟨h1, h2⟩]
    · rw [if_neg (fun hx => h2 hx.2), if_neg (fun hx => h2 hx.2)]
  · rw [if_neg (fun hx => h1 hx.2), if_neg (fun hx => h1 hx.1)]

theorem wf_inbounds_iff {m : List (List Nat)} {s : Nat} (hw : WellFormedMat m s) (r c : Nat) :
    (r < m.length ∧ c < (m.getD r []).length) ↔ (r < s ∧ c < s) := by
  have hl : m.length = s := hw.1
  constructor
  · intro h
    have hr : r < s := by omega
    refine ⟨hr, ?_⟩
    rw [wf_row_len hw hr] at h
    exact h.2
  · intro h
    refine ⟨by omega, ?_⟩
    rw [wf_row_len hw h.1]
    exact h.2

theorem mget_mset_congr {s : Nat} {m1 m2 : List (List Nat)} (h1 : WellFormedMat m1 s)
    (h2 : WellFormedMat m2 s) (a b v r c : Nat) (hrc : mget m1 r c = mget m2 r c) :
    mget (mset m1 a b v) r c = mget (mset m2 a b v) r c := by
  by_cases hp : (r, c) = (a, b)
  · have hr : r = a := congrArg Prod.fst hp
    have hc : c = b := congrArg Prod.snd hp
    subst hr
    subst hc
    rw [mget_mset_self, mget_mset_self,
      if_congr (wf_inbounds_iff h1 r c) rfl rfl, if_congr (wf_inbounds_iff h2 r c) rfl rfl]
    by_cases h : r < s ∧ c < s
    · rw [if_pos h, if_pos h]
    · rw [if_neg h, if_neg h]
      exact hrc
  · rw [mget_mset_ne _ hp, mget_mset_ne _ hp]
    exact hrc

theorem mget_writeSeq_congr {s : Nat} (ps : List (Nat × Nat)) :
    ∀ (m1 m2 : List (List Nat)) (bits : List Nat) (r c : Nat),
      WellFormedMat m1 s → WellFormedMat m2 s → mget m1 r c = mget m2 r c →
      mget (writeSeq m1 ps bits) r c = mget (writeSeq m2 ps bits) r c := by
  induction ps with
  | nil => intro m1 m2 bits r c _ _ h; exact h
  | cons p ps ih =>
    intro m1 m2 bits r c h1 h2 h
    rw [writeSeq, writeSeq]
    exact ih _ _ _ _ _ (mset_wf h1 _ _ _) (mset_wf h2 _ _ _)
      (mget_mset_congr h1 h2 _ _ _ _ _ h)

theorem placeDataBits_mget_reserved {matrix reserved : List (List Nat)}
    {codewords : List Nat} {size r c : Nat} (hres : mget reserved r c ≠ 0) :
    mget (placeDataBits matrix reserved codewords size) r c = mget matrix r c := by
  unfold placeDataBits
  apply mget_writeSeq_notMem
  intro hmem
  have h2 := (List.mem_filter.mp hmem).2
  simp only [decide_eq_true_eq] at h2
  exact hres h2

theorem addFormatInfo_mget_congr {s : Nat} {m1 m2 : List (List Nat)}
    (h1 : WellFormedMat m1 s) (h2 : WellFormedMat m2 s) (mask r c : Nat)
    (h : mget m1 r c = mget m2 r c) :
    mget (addFormatInfo m1 mask s) r c = mget (addFormatInfo m2 mask s) r c := by
  unfold addFormatInfo
  have w1 := writeSeq_wf (s := s) topLeftH
  have w2 := writeSeq_wf (s := s) topLeftV
  have w3 := writeSeq_wf (s := s) (topRightH s)
  exact mget_writeSeq_congr _ _ _ _ _ _
    (w3 _ _ (w2 _ _ (w1 _ _ h1))) (w3 _ _ (w2 _ _ (w1 _ _ h2)))
    (mget_writeSeq_congr _ _ _ _ _ _
      (w2 _ _ (w1 _ _ h1)) (w2 _ _ (w1 _ _ h2))
      (mget_writeSeq_congr _ _ _ _ _ _ (w1 _ _ h1) (w1 _ _ h2)
        (mget_writeSeq_congr _ _ _ _ _ _ h1 h2 h)))

/-- C7: for any matrix and any mask id, `applyMask` never changes a cell whose
reserved flag is set, and `placeDataBits` never writes to a reserved cell;
consequently, in the placement-masking-format pipeline of `createQRCode`,
every reserved cell of the returned matrix carries exactly the value the
pattern/format-drawing phases stamp (the third conjunct: running placement
and masking before `addFormatInfo` leaves every reserved cell as if
`addFormatInfo` had been applied to the pattern matrix directly). -/
theorem c7_reserved_cells_invariant {s : Nat} (matrix reserved : List (List Nat))
    (hw : WellFormedMat matrix s) (mask fmtMask : Nat) (codewords : List Nat) (r c : Nat)
    (hres : mget reserved r c ≠ 0) :
    mget (applyMask matrix reserved mask s) r c = mget matrix r c ∧
    mget (placeDataBits matrix reserved codewords s) r c = mget matrix r c ∧
    mget (addFormatInfo (applyMask (placeDataBits matrix reserved codewords s) reserved mask s)
        fmtMask s) r c =
      mget (addFormatInfo matrix fmtMask s) r c := by
  refine ⟨?_, ?_, ?_⟩
  · rw [applyMask_mget hw, if_neg (fun hx => hres hx.2.2.1)]
  · exact placeDataBits_mget_reserved hres
  · apply addFormatInfo_mget_congr (applyMask_wf (placeDataBits_wf hw _ _) _ _) hw
    rw [applyMask_mget (placeDataBits_wf hw _ _), if_neg (fun hx => hres hx.2.2.1)]
    exact placeDataBits_mget_reserved hres

/-- Witness for C7 at a concrete matrix, reserved grid and cell. -/
theorem c7_reserved_cells_invariant_witness :
    WellFormedMat [[5]] 1 ∧ mget [[1]] 0 0 ≠ 0 ∧
    (mget (applyMask [[5]] [[1]] 0 1) 0 0 = mget [[5]] 0 0 ∧
     mget (placeDataBits [[5]] [[1]] [] 1) 0 0 = mget [[5]] 0 0 ∧
     mget (addFormatInfo (applyMask (placeDataBits [[5]] [[1]] [] 1) [[1]] 0 1) 0 1) 0 0 =
       mget (addFormatInfo [[5]] 0 1) 0 0) := by
  have hw : WellFormedMat [[5]] 1 := ⟨rfl, fun row h => by rw [List.mem_singleton.mp h]; rfl⟩
  have hres : mget [[1]] 0 0 ≠ 0 := by decide
  exact ⟨hw, hres, c7_reserved_cells_invariant [[5]] [[1]] hw 0 0 [] 0 0 hres⟩

/-! ### C3: version selection -/

theorem getMinVersion_eq (n : Nat) : getMinVersion n =
    if n ≤ 17 then some 1 else if n ≤ 32 then some 2 else if n ≤ 53 then some 3
    else if n ≤ 78 then some 4 else if n ≤ 106 then some 5 else if n ≤ 134 then some 6
    else none := by
  unfold getMinVersion
  rw [show List.range' 1 6 = [1, 2, 3, 4, 5, 6] from rfl]
  by_cases c1 : n ≤ 17 <;> by_cases c2 : n ≤ 32 <;> by_cases c3 : n ≤ 53 <;>
    by_cases c4 : n ≤ 78 <;> by_cases c5 : n ≤ 106 <;> by_cases c6 : n ≤ 134 <;>
    first
      | (simp [List.find?, capacities, c1, c2, c3, c4, c5, c6])
      | omega

/-- C3: for 1 <= n <= 134, `getMinVersion` returns the smallest version in
1..6 whose byte-mode capacity (17, 32, 53, 78, 106, 134) is at least n; for
n >= 135 it returns none (`PayloadTooLarge`); in particular 134 bytes select
version 6, 135 bytes are rejected, and 1 byte selects version 1. -/
theorem c3_version_selection (n : Nat) :
    (1 ≤ n → n ≤ 134 →
      ∃ v, getMinVersion n = some v ∧ 1 ≤ v ∧ v ≤ 6 ∧ n ≤ capacities.getD v 0 ∧
        ∀ w, 1 ≤ w → w ≤ 6 → n ≤ capacities.getD w 0 → v ≤ w) ∧
    (135 ≤ n → getMinVersion n = none) ∧
    getMinVersion 134 = some 6 ∧ getMinVersion 135 = none ∧ getMinVersion 1 = some 1 := by
  refine ⟨?_, ?_, by rw [getMinVersion_eq]; decide, by rw [getMinVersion_eq]; decide,
    by rw [getMinVersion_eq]; decide⟩
  · intro h1 h2
    rw [getMinVersion_eq]
    by_cases c1 : n ≤ 17
    · refine ⟨1, by simp [c1], by omega, by omega, by simp [capacities]; omega, fun w hw1 hw6 hcap => by omega⟩
    · by_cases c2 : n ≤ 32
      · refine ⟨2, by simp [c1, c2], by omega, by omega, by simp [capacities]; omega, fun w hw1 hw6 hcap => ?_⟩
        interval_cases w <;> simp [capacities] at hcap <;> omega
      · by_cases c3 : n ≤ 53
        · refine ⟨3, by simp [c1, c2, c3], by omega, by omega, by simp [capacities]; omega, fun w hw1 hw6 hcap => ?_⟩
          interval_cases w <;> simp [capacities] at hcap <;> omega
        · by_cases c4 : n ≤ 78
          · refine ⟨4, by simp [c1, c2, c3, c4], by omega, by omega, by simp [capacities]; omega, fun w hw1 hw6 hcap => ?_⟩
            interval_cases w <;> simp [capacities] at hcap <;> omega
          · by_cases c5 : n ≤ 106
            · refine ⟨5, by simp [c1, c2, c3, c4, c5], by omega, by omega, by simp [capacities]; omega, fun w hw1 hw6 hcap => ?_⟩
              interval_cases w <;> simp [capacities] at hcap <;> omega
            · refine ⟨6, by simp [c1, c2, c3, c4, c5, h2], by omega, by omega, by simp [capacities]; omega, fun w hw1 hw6 hcap => ?_⟩
              interval_cases w <;> simp [capacities] at hcap <;> omega
  · intro h135
    rw [getMinVersion_eq, if_neg (by omega), if_neg (by omega), if_neg (by omega),
      if_neg (by omega), if_neg (by omega), if_neg (by omega)]

/-- Witness for C3 at n = 100 (selects version 5). -/
theorem c3_version_selection_witness :
    1 ≤ 100 ∧ 100 ≤ 134 ∧
    (∃ v, getMinVersion 100 = some v ∧ 1 ≤ v ∧ v ≤ 6 ∧ 100 ≤ capacities.getD v 0 ∧
      ∀ w, 1 ≤ w → w ≤ 6 → 100 ≤ capacities.getD w 0 → v ≤ w) :=
  ⟨by decide, by decide, (c3_version_selection 100).1 (by decide) (by decide)⟩

/-! ### C10: byte-mode encoding is CESU-8 -/

theorem and_63_eq_mod (u : Nat) : u &&& 63 = u % 64 := by
  apply Nat.eq_of_testBit_eq
  intro i
  rw [show (63 : Nat) = 2 ^ 6 - 1 from rfl, show (64 : Nat) = 2 ^ 6 from rfl,
    Nat.testBit_and, Nat.testBit_two_pow_sub_one, Nat.testBit_mod_two_pow]
  exact Bool.and_comm _ _

theorem shiftRight_6_eq_div (u : Nat) : u >>> 6 = u / 64 := by
  rw [Nat.shiftRight_eq_div_pow]

theorem shiftRight_12_eq_div (u : Nat) : u >>> 12 = u / 4096 := by
  rw [Nat.shiftRight_eq_div_pow]

theorem or_192_eq_add {x : Nat} (h : x < 64) : 192 ||| x = 192 + x := by
  have hall : ∀ y < 64, 192 ||| y = 192 + y := by decide
  exact hall x h

theorem or_128_eq_add {x : Nat} (h : x < 64) : 128 ||| x = 128 + x := by
  have hall : ∀ y < 64, 128 ||| y = 128 + y := by decide
  exact hall x h

theorem or_224_eq_add {x : Nat} (h : x < 16) : 224 ||| x = 224 + x := by
  have hall : ∀ y < 16, 224 ||| y = 224 + y := by decide
  exact hall x h

theorem encodeByteMode_cons (u : Nat) (rest : List Nat) :
    encodeByteMode (u :: rest) = encodeByteMode [u] ++ encodeByteMode rest := by
  unfold encodeByteMode
  rw [List.flatMap_cons, List.flatMap_cons, List.flatMap_nil, List.append_nil]

theorem encodeByteMode_unit_utf8 {u : Nat} (h : u < 65536) :
    encodeByteMode [u] = utf8Bytes u := by
  unfold encodeByteMode utf8Bytes
  rw [List.flatMap_cons, List.flatMap_nil, List.append_nil]
  by_cases h1 : u < 128
  · rw [if_pos h1, if_pos h1]
  · rw [if_neg h1, if_neg h1]
    by_cases h2 : u < 2048
    · rw [if_pos h2, if_pos h2]
      rw [shiftRight_6_eq_div, and_63_eq_mod,
        or_192_eq_add (by omega), or_128_eq_add (by omega)]
    · rw [if_neg h2, if_neg h2, if_pos h]
      rw [shiftRight_12_eq_div, shiftRight_6_eq_div, and_63_eq_mod, and_63_eq_mod,
        or_224_eq_add (by omega), or_128_eq_add (by omega), or_128_eq_add (by omega)]

theorem encodeByteMode_unit_len3 {u : Nat} (h1 : 2048 ≤ u) :
    (encodeByteMode [u]).length = 3 := by
  unfold encodeByteMode
  rw [List.flatMap_cons, List.flatMap_nil, List.append_nil,
    if_neg (by omega), if_neg (by omega)]
  rfl

/-- C10: `encodeByteMode` encodes each UTF-16 code unit independently
(1 byte below 0x80, 2 bytes below 0x800, 3 bytes otherwise, including each
surrogate half); on strings without surrogates the output is exactly
standard UTF-8, while every character above the BMP costs 6 bytes
(CESU-8) instead of the 4-byte UTF-8 form, inflating the byte length used
for version selection. -/
theorem c10_encodeByteMode_cesu8 :
    (∀ u rest, encodeByteMode (u :: rest) = encodeByteMode [u] ++ encodeByteMode rest) ∧
    (∀ u, u < 128 → encodeByteMode [u] = [u]) ∧
    (∀ u, 128 ≤ u → u < 2048 → (encodeByteMode [u]).length = 2 ∧
      encodeByteMode [u] = utf8Bytes u) ∧
    (∀ u, 2048 ≤ u → u < 65536 → (encodeByteMode [u]).length = 3 ∧
      encodeByteMode [u] = utf8Bytes u) ∧
    (∀ chars : List Nat, (∀ c ∈ chars, c < 65536) →
      encodeByteMode (chars.flatMap utf16Units) = chars.flatMap utf8Bytes) ∧
    (∀ c, 65536 ≤ c → c ≤ 0x10FFFF →
      (encodeByteMode (utf16Units c)).length = 6 ∧ (utf8Bytes c).length = 4 ∧
      encodeByteMode (utf16Units c) ≠ utf8Bytes c) := by
  refine ⟨encodeByteMode_cons, ?_, ?_, ?_, ?_, ?_⟩
  · intro u h
    unfold encodeByteMode
    rw [List.flatMap_cons, List.flatMap_nil, List.append_nil, if_pos h]
  · intro u h1 h2
    constructor
    · unfold encodeByteMode
      rw [List.flatMap_cons, List.flatMap_nil, List.append_nil,
        if_neg (by omega), if_pos h2]
      rfl
    · exact encodeByteMode_unit_utf8 (by omega)
  · intro u h1 h2
    exact ⟨encodeByteMode_unit_len3 h1, encodeByteMode_unit_utf8 h2⟩
  · intro chars
    induction chars with
    | nil => intro _; rfl
    | cons c cs ih =>
      intro hall
      have hc : c < 65536 := hall c (List.mem_cons_self _ _)
      rw [List.flatMap_cons, List.flatMap_cons]
      rw [show utf16Units c = [c] from by unfold utf16Units; rw [if_pos hc]]
      rw [List.singleton_append, encodeByteMode_cons,
        encodeByteMode_unit_utf8 hc, ih (fun x hx => hall x (List.mem_cons_of_mem _ hx))]
  · intro c h1 h2
    have hu : utf16Units c = [55296 + (c - 65536) / 1024, 56320 + (c - 65536) % 1024] := by
      unfold utf16Units
      rw [if_neg (by omega)]
    have hdiv : (c - 65536) / 1024 < 1024 := by omega
    have hmod : (c - 65536) % 1024 < 1024 := Nat.mod_lt _ (by omega)
    have hlen : (encodeByteMode (utf16Units c)).length = 6 := by
      rw [hu, encodeByteMode_cons, List.length_append,
        encodeByteMode_unit_len3 (by omega), encodeByteMode_unit_len3 (by omega)]
    have hlen4 : (utf8Bytes c).length = 4 := by
      unfold utf8Bytes
      rw [if_neg (by omega), if_neg (by omega), if_neg (by omega)]
      rfl
    refine ⟨hlen, hlen4, fun he => ?_⟩
    rw [he, hlen4] at hlen
    omega

/-- Witness for C10: the BMP string "He" encodes as plain UTF-8, and the
non-BMP scalar 0x1F600 costs 6 bytes instead of 4. -/
theorem c10_encodeByteMode_cesu8_witness :
    (∀ c ∈ [72, 101], c < 65536) ∧
    encodeByteMode (([72, 101] : List Nat).flatMap utf16Units) =
      ([72, 101] : List Nat).flatMap utf8Bytes ∧
    (65536 ≤ 128512 ∧ 128512 ≤ 0x10FFFF) ∧
    (encodeByteMode (utf16Units 128512)).length = 6 ∧ (utf8Bytes 128512).length = 4 :=
  ⟨by decide,
   c10_encodeByteMode_cesu8.2.2.2.2.1 [72, 101] (by decide),
   ⟨by decide, by decide⟩,
   (c10_encodeByteMode_cesu8.2.2.2.2.2 128512 (by decide) (by decide)).1,
   (c10_encodeByteMode_cesu8.2.2.2.2.2 128512 (by decide) (by decide)).2.1⟩

/-! ### Bit-list infrastructure -/

theorem two_mul_or_one (a : Nat) : 2 * a ||| 1 = 2 * a + 1 := by
  apply Nat.eq_of_testBit_eq
  intro i
  rw [Nat.testBit_or]
  cases i with
  | zero =>
    rw [Nat.testBit_zero, Nat.testBit_zero, Nat.testBit_zero]
    have h1 : (2 * a + 1) % 2 = 1 := by omega
    have h2 : (2 * a) % 2 = 0 := by omega
    have h3 : (1 : Nat) % 2 = 1 := rfl
    simp [h1, h2, h3]
  | succ j =>
    rw [Nat.testBit_succ, Nat.testBit_succ, Nat.testBit_succ]
    have h1 : 2 * a / 2 = a := by omega
    have h2 : (2 * a + 1) / 2 = a := by omega
    have h3 : (1 : Nat) / 2 = 0 := by norm_num
    rw [h1, h2, h3, Nat.zero_testBit]
    simp

theorem natBitsMSB_length (w v : Nat) : (natBitsMSB w v).length = w := by
  simp [natBitsMSB]

theorem natBitsMSB_bits_lt (w v : Nat) : ∀ b ∈ natBitsMSB w v, b < 2 := by
  intro b hb
  rcases List.mem_map.mp hb with ⟨k, _, rfl⟩
  rw [Nat.and_one_is_mod]
  omega

theorem natBitsMSB_succ (w v : Nat) :
    natBitsMSB (w + 1) v = (v >>> w &&& 1) :: natBitsMSB w v := by
  unfold natBitsMSB
  rw [List.range_succ_eq_map, List.map_cons, List.map_map]
  have hw0 : w + 1 - 1 - 0 = w := by omega
  rw [hw0]
  congr 1
  apply List.map_congr_left
  intro k hk
  have h2 : w + 1 - 1 - (k + 1) = w - 1 - k := by omega
  have h3 : w - (k + 1) = w - 1 - k := by omega
  simp [Function.comp, h2, h3]

theorem foldl_bits_acc (l : List Nat) :
    ∀ a : Nat, l.foldl (fun acc b => acc * 2 + b) a = a * 2 ^ l.length + bitsToNat l := by
  induction l with
  | nil => intro a; simp [bitsToNat]
  | cons x xs ih =>
    intro a
    rw [List.foldl_cons, ih (a * 2 + x)]
    rw [show bitsToNat (x :: xs) = List.foldl (fun acc b => acc * 2 + b) (0 * 2 + x) xs from rfl,
      ih (0 * 2 + x)]
    simp [List.length_cons, pow_succ]
    ring

theorem bitsToNat_cons (b : Nat) (l : List Nat) :
    bitsToNat (b :: l) = b * 2 ^ l.length + bitsToNat l := by
  rw [show bitsToNat (b :: l) = List.foldl (fun acc b => acc * 2 + b) (0 * 2 + b) l from rfl,
    foldl_bits_acc]
  simp

theorem bitsToNat_natBitsMSB (w v : Nat) : bitsToNat (natBitsMSB w v) = v % 2 ^ w := by
  induction w with
  | zero => simp [natBitsMSB, bitsToNat, Nat.mod_one]
  | succ w ih =>
    rw [natBitsMSB_succ, bitsToNat_cons, natBitsMSB_length, ih,
      Nat.and_one_is_mod, Nat.shiftRight_eq_div_pow, Nat.mod_pow_succ]
    ring

theorem bitsToNat_natBitsMSB_of_lt {w v : Nat} (h : v < 2 ^ w) :
    bitsToNat (natBitsMSB w v) = v := by
  rw [bitsToNat_natBitsMSB, Nat.mod_eq_of_lt h]

theorem bitsToNat_lt {bits : List Nat} (h : ∀ b ∈ bits, b < 2) :
    bitsToNat bits < 2 ^ bits.length := by
  induction bits with
  | nil => simp [bitsToNat]
  | cons b rest ih =>
    rw [bitsToNat_cons, List.length_cons, pow_succ]
    have hb : b < 2 := h b (List.mem_cons_self _ _)
    have hr := ih (fun x hx => h x (List.mem_cons_of_mem _ hx))
    have hpos : 0 < 2 ^ rest.length := Nat.pos_pow_of_pos _ (by omega)
    nlinarith

theorem natBitsMSB_bitsToNat : ∀ {w : Nat} {bits : List Nat}, bits.length = w →
    (∀ b ∈ bits, b < 2) → natBitsMSB w (bitsToNat bits) = bits := by
  intro w
  induction w with
  | zero =>
    intro bits hlen _
    rw [List.length_eq_zero.mp hlen]
    rfl
  | succ w ih =>
    intro bits hlen hb
    cases bits with
    | nil => simp at hlen
    | cons b rest =>
      have hrl : rest.length = w := by simpa using hlen
      have hb0 : b < 2 := hb b (List.mem_cons_self _ _)
      have hbr : ∀ x ∈ rest, x < 2 := fun x hx => hb x (List.mem_cons_of_mem _ hx)
      have hr : bitsToNat rest < 2 ^ w := hrl ▸ bitsToNat_lt hbr
      rw [bitsToNat_cons, hrl, natBitsMSB_succ]
      have hM : 0 < 2 ^ w := Nat.pos_pow_of_pos _ (by omega)
      have hhead : (b * 2 ^ w + bitsToNat rest) >>> w &&& 1 = b := by
        rw [Nat.and_one_is_mod, Nat.shiftRight_eq_div_pow]
        have hdiv : (b * 2 ^ w + bitsToNat rest) / 2 ^ w = b := by
          rw [Nat.mul_comm b (2 ^ w), Nat.mul_add_div hM, Nat.div_eq_of_lt hr]
          omega
        rw [hdiv, Nat.mod_eq_of_lt hb0]
      have htail : natBitsMSB w (b * 2 ^ w + bitsToNat rest) = natBitsMSB w (bitsToNat rest) := by
        unfold natBitsMSB
        apply List.map_congr_left
        intro k hk
        have hkw : k < w := List.mem_range.mp hk
        rw [Nat.and_one_is_mod, Nat.and_one_is_mod,
          Nat.shiftRight_eq_div_pow, Nat.shiftRight_eq_div_pow]
        have hj : 0 < 2 ^ (w - 1 - k) := Nat.pos_pow_of_pos _ (by omega)
        have hsplit2 : b * 2 ^ w = 2 ^ (w - 1 - k) * (b * 2 ^ (w - (w - 1 - k))) := by
          rw [Nat.mul_comm (2 ^ (w - 1 - k)) _, Nat.mul_assoc, ← pow_add]
          congr 2
          omega
        have hdiv2 : (b * 2 ^ w + bitsToNat rest) / 2 ^ (w - 1 - k) =
            b * 2 ^ (w - (w - 1 - k)) + bitsToNat rest / 2 ^ (w - 1 - k) := by
          rw [hsplit2, Nat.mul_add_div hj]
        rw [hdiv2]
        have heven : 2 ^ (w - (w - 1 - k)) = 2 * 2 ^ (w - (w - 1 - k) - 1) := by
          rw [← pow_succ']
          congr 1
          omega
        rw [heven, show b * (2 * 2 ^ (w - (w - 1 - k) - 1)) =
          2 * (b * 2 ^ (w - (w - 1 - k) - 1)) from by ring]
        omega
      rw [hhead, htail, ih hrl hbr]

theorem bitsToByte_eq_bitsToNat {bits : List Nat} (h : ∀ b ∈ bits, b < 2) :
    bitsToByte bits = bitsToNat bits := by
  have hgen : ∀ (l : List Nat), (∀ b ∈ l, b < 2) → ∀ acc : Nat,
      l.foldl (fun cw b => (cw <<< 1) ||| b) acc = l.foldl (fun acc b => acc * 2 + b) acc := by
    intro l
    induction l with
    | nil => intro _ acc; rfl
    | cons b rest ih =>
      intro hl acc
      rw [List.foldl_cons, List.foldl_cons, ih (fun x hx => hl x (List.mem_cons_of_mem _ hx))]
      congr 1
      have hb : b < 2 := hl b (List.mem_cons_self _ _)
      rw [Nat.shiftLeft_eq, pow_one]
      interval_cases b
      · simp
      · rw [Nat.mul_comm, two_mul_or_one]
  exact hgen bits h 0

theorem chunk8F_irrel : ∀ (f1 f2 : Nat) (bits : List Nat), bits.length ≤ f1 →
    bits.length ≤ f2 → chunk8F f1 bits = chunk8F f2 bits := by
  intro f1
  induction f1 with
  | zero =>
    intro f2 bits h1 _
    rw [List.length_eq_zero.mp (Nat.le_zero.mp h1)]
    cases f2 <;> rfl
  | succ f1 ih =>
    intro f2 bits h1 h2
    cases bits with
    | nil => cases f2 <;> rfl
    | cons b rest =>
      cases f2 with
      | zero => simp at h2
      | succ f2 =>
        show bitsToNat _ :: chunk8F f1 ((b :: rest).drop 8) =
          bitsToNat _ :: chunk8F f2 ((b :: rest).drop 8)
        rw [ih f2 _ (by simp at h1 ⊢ <;> omega) (by simp at h2 ⊢ <;> omega)]

theorem chunk8_nil : chunk8 [] = [] := rfl

theorem chunk8_cons (b : Nat) (rest : List Nat) :
    chunk8 (b :: rest) = bitsToNat ((b :: rest).take 8) :: chunk8 ((b :: rest).drop 8) := by
  show chunk8F (b :: rest).length (b :: rest) = _
  rw [List.length_cons, chunk8F]
  unfold chunk8
  rw [chunk8F_irrel rest.length ((b :: rest).drop 8).length _ (by simp <;> omega) le_rfl]

theorem chunk8_append8 {l1 : List Nat} (h : l1.length = 8) (l2 : List Nat) :
    chunk8 (l1 ++ l2) = bitsToNat l1 :: chunk8 l2 := by
  cases l1 with
  | nil => simp at h
  | cons b rest =>
    rw [List.cons_append, chunk8_cons, ← List.cons_append,
      List.take_left' h, List.drop_left' h]

theorem chunk8_flatMap {cws : List Nat} (h : ∀ c ∈ cws, c < 256) :
    chunk8 (cws.flatMap (natBitsMSB 8)) = cws := by
  induction cws with
  | nil => simp [chunk8_nil]
  | cons c rest ih =>
    have hc : c < 2 ^ 8 := by
      have h2 : (2 : Nat) ^ 8 = 256 := by norm_num
      rw [h2]
      exact h c (List.mem_cons_self _ _)
    rw [List.flatMap_cons, chunk8_append8 (natBitsMSB_length 8 c),
      bitsToNat_natBitsMSB, Nat.mod_eq_of_lt hc,
      ih (fun x hx => h x (List.mem_cons_of_mem _ hx))]

theorem bitsToCodewordsF_irrel : ∀ (f1 f2 : Nat) (bits : List Nat), bits.length ≤ f1 →
    bits.length ≤ f2 → bitsToCodewordsF f1 bits = bitsToCodewordsF f2 bits := by
  intro f1
  induction f1 with
  | zero =>
    intro f2 bits h1 _
    rw [List.length_eq_zero.mp (Nat.le_zero.mp h1)]
    cases f2 <;> rfl
  | succ f1 ih =>
    intro f2 bits h1 h2
    cases bits with
    | nil => cases f2 <;> rfl
    | cons b rest =>
      cases f2 with
      | zero => simp at h2
      | succ f2 =>
        show bitsToByte _ :: bitsToCodewordsF f1 ((b :: rest).drop 8) =
          bitsToByte _ :: bitsToCodewordsF f2 ((b :: rest).drop 8)
        rw [ih f2 _ (by simp at h1 ⊢ <;> omega) (by simp at h2 ⊢ <;> omega)]

theorem bitsToCodewords_nil : bitsToCodewords [] = [] := rfl

theorem bitsToCodewords_cons (b : Nat) (rest : List Nat) :
    bitsToCodewords (b :: rest) =
      bitsToByte ((b :: rest).take 8) :: bitsToCodewords ((b :: rest).drop 8) := by
  show bitsToCodewordsF (b :: rest).length (b :: rest) = _
  rw [List.length_cons, bitsToCodewordsF]
  unfold bitsToCodewords
  rw [bitsToCodewordsF_irrel rest.length ((b :: rest).drop 8).length _
    (by simp <;> omega) le_rfl]

theorem bitsToCodewords_append8 {l1 : List Nat} (h : l1.length = 8) (l2 : List Nat) :
    bitsToCodewords (l1 ++ l2) = bitsToByte l1 :: bitsToCodewords l2 := by
  cases l1 with
  | nil => simp at h
  | cons b rest =>
    rw [List.cons_append, bitsToCodewords_cons, ← List.cons_append,
      List.take_left' h, List.drop_left' h]

theorem flatMap_bitsToCodewords : ∀ (n : Nat) (bits : List Nat), bits.length ≤ n →
    (∀ b ∈ bits, b < 2) → bits.length % 8 = 0 →
    (bitsToCodewords bits).flatMap (natBitsMSB 8) = bits := by
  intro n
  induction n with
  | zero =>
    intro bits hlen _ _
    rw [List.length_eq_zero.mp (Nat.le_zero.mp hlen), bitsToCodewords_nil]
    rfl
  | succ n ih =>
    intro bits hlen hb h8
    cases bits with
    | nil =>
      rw [bitsToCodewords_nil]
      rfl
    | cons b rest =>
      have hge : 8 ≤ (b :: rest).length := by
        rw [List.length_cons] at h8 ⊢
        omega
      have htake : ((b :: rest).take 8).length = 8 := by
        rw [List.length_take]
        omega
      have hsplit : b :: rest = (b :: rest).take 8 ++ (b :: rest).drop 8 :=
        (List.take_append_drop 8 _).symm
      conv_lhs => rw [hsplit]
      rw [bitsToCodewords_append8 htake, List.flatMap_cons]
      conv_rhs => rw [hsplit]
      congr 1
      · rw [bitsToByte_eq_bitsToNat (fun x hx => hb x (List.mem_of_mem_take hx)),
          natBitsMSB_bitsToNat htake (fun x hx => hb x (List.mem_of_mem_take hx))]
      · apply ih
        · rw [List.length_drop, List.length_cons]
          rw [List.length_cons] at hlen
          omega
        · intro x hx
          exact hb x (List.mem_of_mem_drop hx)
        · rw [List.length_drop, List.length_cons]
          rw [List.length_cons] at h8
          omega

theorem bitsToCodewords_lt : ∀ (n : Nat) (bits : List Nat), bits.length ≤ n →
    (∀ b ∈ bits, b < 2) → ∀ c ∈ bitsToCodewords bits, c < 256 := by
  intro n
  induction n with
  | zero =>
    intro bits hlen _ c hc
    rw [List.length_eq_zero.mp (Nat.le_zero.mp hlen), bitsToCodewords_nil] at hc
    simp at hc
  | succ n ih =>
    intro bits hlen hb c hc
    cases bits with
    | nil =>
      rw [bitsToCodewords_nil] at hc
      simp at hc
    | cons b rest =>
      rw [bitsToCodewords_cons] at hc
      rcases List.mem_cons.mp hc with hc1 | hc2
      · subst hc1
        have hball : ∀ x ∈ (b :: rest).take 8, x < 2 :=
          fun x hx => hb x (List.mem_of_mem_take hx)
        have hlt := bitsToNat_lt hball
        have hlen8 : ((b :: rest).take 8).length ≤ 8 := by
          rw [List.length_take]
          omega
        have h256 : (2 : Nat) ^ 8 = 256 := by norm_num
        rw [bitsToByte_eq_bitsToNat hball, ← h256]
        calc bitsToNat ((b :: rest).take 8) < 2 ^ ((b :: rest).take 8).length := hlt
          _ ≤ 2 ^ 8 := Nat.pow_le_pow_right (by omega) hlen8
      · refine ih _ ?_ (fun x hx => hb x (List.mem_of_mem_drop hx)) c hc2
        rw [List.length_drop, List.length_cons]
        rw [List.length_cons] at hlen
        omega

theorem bitsToCodewords_length : ∀ (n : Nat) (bits : List Nat), bits.length ≤ n →
    bits.length % 8 = 0 → (bitsToCodewords bits).length = bits.length / 8 := by
  intro n
  induction n with
  | zero =>
    intro bits hlen _
    rw [List.length_eq_zero.mp (Nat.le_zero.mp hlen), bitsToCodewords_nil]
    rfl
  | succ n ih =>
    intro bits hlen h8
    cases bits with
    | nil =>
      rw [bitsToCodewords_nil]
      rfl
    | cons b rest =>
      have hge : 8 ≤ (b :: rest).length := by
        rw [List.length_cons] at h8 ⊢
        omega
      rw [bitsToCodewords_cons, List.length_cons,
        ih _ (by rw [List.length_drop, List.length_cons]; rw [List.length_cons] at hlen; omega)
          (by rw [List.length_drop, List.length_cons]; rw [List.length_cons] at h8; omega),
        List.length_drop, List.length_cons]
      rw [List.length_cons] at h8
      omega

theorem flatMap_natBitsMSB_length (l : List Nat) (w : Nat) :
    (l.flatMap (natBitsMSB w)).length = w * l.length := by
  induction l with
  | nil => simp
  | cons a rest ih =>
    rw [List.flatMap_cons, List.length_append, natBitsMSB_length, ih, List.length_cons]
    ring

theorem specPad_length : ∀ (k idx : Nat), (specPad k idx).length = 8 * k := by
  intro k
  induction k with
  | zero => intro idx; rfl
  | succ k ih =>
    intro idx
    rw [specPad, List.length_append, natBitsMSB_length, ih]
    ring

theorem termLoop_all : ∀ (k : Nat) (bits : List Nat) (maxBits : Nat),
    bits.length + k ≤ maxBits →
    termLoop k bits maxBits = bits ++ List.replicate k 0 := by
  intro k
  induction k with
  | zero =>
    intro bits maxBits _
    simp [termLoop]
  | succ k ih =>
    intro bits maxBits h
    rw [termLoop, if_pos (by omega)]
    rw [ih _ _ (by rw [List.length_append]; simp; omega)]
    simp [List.replicate_succ]

theorem padToByteF_irrel : ∀ (f1 f2 : Nat) (bits : List Nat) (maxBits : Nat),
    maxBits - bits.length ≤ f1 → maxBits - bits.length ≤ f2 →
    padToByteF f1 bits maxBits = padToByteF f2 bits maxBits := by
  intro f1
  induction f1 with
  | zero =>
    intro f2 bits maxBits h1 _
    cases f2 with
    | zero => rfl
    | succ f2 =>
      show bits = padToByteF (f2 + 1) bits maxBits
      rw [padToByteF, if_neg (by omega)]
  | succ f1 ih =>
    intro f2 bits maxBits h1 h2
    cases f2 with
    | zero =>
      rw [show padToByteF 0 bits maxBits = bits from rfl]
      show (if bits.length % 8 ≠ 0 ∧ bits.length < maxBits then
        padToByteF f1 (bits ++ [0]) maxBits else bits) = bits
      rw [if_neg (by omega)]
    | succ f2 =>
      rw [padToByteF, padToByteF]
      by_cases hc : bits.length % 8 ≠ 0 ∧ bits.length < maxBits
      · rw [if_pos hc, if_pos hc]
        exact ih f2 _ _ (by simp; omega) (by simp; omega)
      · rw [if_neg hc, if_neg hc]

theorem padToByte_unfold (bits : List Nat) (maxBits : Nat) :
    padToByte bits maxBits =
      if bits.length % 8 ≠ 0 ∧ bits.length < maxBits then padToByte (bits ++ [0]) maxBits
      else bits := by
  unfold padToByte
  by_cases hc : bits.length % 8 ≠ 0 ∧ bits.length < maxBits
  · rw [if_pos hc]
    cases hf : maxBits - bits.length with
    | zero => exact absurd hc.2 (by omega)
    | succ f =>
      rw [padToByteF, if_pos hc]
      exact padToByteF_irrel f (maxBits - (bits ++ [0]).length) _ _ (by simp; omega) le_rfl
  · rw [if_neg hc]
    cases hf : maxBits - bits.length with
    | zero => rfl
    | succ f => rw [padToByteF, if_neg hc]

theorem padToByte_eq {bits : List Nat} {maxBits : Nat} (h : bits.length % 8 = 0) :
    padToByte bits maxBits = bits := by
  rw [padToByte_unfold, if_neg fun hc => hc.1 h]

theorem padLoopF_irrel : ∀ (f1 f2 : Nat) (bits : List Nat) (maxBits idx : Nat),
    maxBits - bits.length ≤ f1 → maxBits - bits.length ≤ f2 →
    padLoopF f1 bits maxBits idx = padLoopF f2 bits maxBits idx := by
  intro f1
  induction f1 with
  | zero =>
    intro f2 bits maxBits idx h1 _
    cases f2 with
    | zero => rfl
    | succ f2 =>
      show bits = padLoopF (f2 + 1) bits maxBits idx
      rw [padLoopF, if_neg (by omega)]
  | succ f1 ih =>
    intro f2 bits maxBits idx h1 h2
    cases f2 with
    | zero =>
      rw [show padLoopF 0 bits maxBits idx = bits from rfl]
      show (if bits.length < maxBits then
        padLoopF f1 (bits ++ natBitsMSB 8 (if idx = 0 then 0xec else 0x11)) maxBits
          ((idx + 1) % 2) else bits) = bits
      rw [if_neg (by omega)]
    | succ f2 =>
      rw [padLoopF, padLoopF]
      by_cases hc : bits.length < maxBits
      · rw [if_pos hc, if_pos hc]
        exact ih f2 _ _ _
          (by rw [List.length_append, natBitsMSB_length]; omega)
          (by rw [List.length_append, natBitsMSB_length]; omega)
      · rw [if_neg hc, if_neg hc]

theorem padLoop_unfold (bits : List Nat) (maxBits idx : Nat) :
    padLoop bits maxBits idx =
      if bits.length < maxBits then
        padLoop (bits ++ natBitsMSB 8 (if idx = 0 then 0xec else 0x11)) maxBits
          ((idx + 1) % 2)
      else bits := by
  unfold padLoop
  by_cases hc : bits.length < maxBits
  · rw [if_pos hc]
    cases hf : maxBits - bits.length with
    | zero => omega
    | succ f =>
      rw [padLoopF, if_pos hc]
      exact padLoopF_irrel f (maxBits - (bits ++ natBitsMSB 8
          (if idx = 0 then 0xec else 0x11)).length) _ _ _
        (by rw [List.length_append, natBitsMSB_length]; omega) le_rfl
  · rw [if_neg hc]
    cases hf : maxBits - bits.length with
    | zero => rfl
    | succ f => rw [padLoopF, if_neg hc]

theorem padLoop_eq : ∀ (k : Nat) (bits : List Nat) (maxBits idx : Nat),
    bits.length + 8 * k = maxBits →
    padLoop bits maxBits idx = bits ++ specPad k idx := by
  intro k
  induction k with
  | zero =>
    intro bits maxBits idx hlen
    rw [padLoop_unfold, if_neg (by omega), specPad]
    simp
  | succ k ih =>
    intro bits maxBits idx hlen
    rw [padLoop_unfold, if_pos (by omega)]
    rw [ih _ _ _ (by rw [List.length_append, natBitsMSB_length]; omega)]
    rw [specPad, List.append_assoc]

theorem buildBits_eq {version : Nat} {dataBytes : List Nat} {tdc : Nat}
    (hv : version < 10) (hn : dataBytes.length + 2 ≤ tdc) :
    buildBits version dataBytes tdc =
      [0, 1, 0, 0] ++ natBitsMSB 8 dataBytes.length ++ dataBytes.flatMap (natBitsMSB 8) ++
        [0, 0, 0, 0] ++ specPad (tdc - 2 - dataBytes.length) 0 := by
  unfold buildBits
  rw [if_pos hv]
  dsimp only
  have hlen0 : ([0, 1, 0, 0] ++ natBitsMSB 8 dataBytes.length ++
      dataBytes.flatMap (natBitsMSB 8)).length = 12 + 8 * dataBytes.length := by
    rw [List.length_append, List.length_append, natBitsMSB_length,
      flatMap_natBitsMSB_length]
    simp
  rw [termLoop_all 4 _ _ (by rw [hlen0]; omega)]
  have hlen1 : (([0, 1, 0, 0] ++ natBitsMSB 8 dataBytes.length ++
      dataBytes.flatMap (natBitsMSB 8)) ++ List.replicate 4 0).length =
      16 + 8 * dataBytes.length := by
    rw [List.length_append, hlen0, List.length_replicate]
    omega
  rw [padToByte_eq (by rw [hlen1]; omega)]
  rw [padLoop_eq (tdc - 2 - dataBytes.length) _ _ _ (by rw [hlen1]; omega)]
  have hrep : (List.replicate 4 0 : List Nat) = [0, 0, 0, 0] := by decide
  rw [hrep, List.append_assoc]

theorem buildBits_length {version : Nat} {dataBytes : List Nat} {tdc : Nat}
    (hv : version < 10) (hn : dataBytes.length + 2 ≤ tdc) :
    (buildBits version dataBytes tdc).length = 8 * tdc := by
  rw [buildBits_eq hv hn]
  simp only [List.length_append, natBitsMSB_length, flatMap_natBitsMSB_length,
    specPad_length]
  simp
  omega

theorem c4_core (dataBytes : List Nat) (version tdc : Nat) (hv10 : version < 10)
    (hcap : dataBytes.length + 2 ≤ tdc) :
    buildBits version dataBytes tdc =
      [0, 1, 0, 0] ++ natBitsMSB 8 dataBytes.length ++ dataBytes.flatMap (natBitsMSB 8) ++
        [0, 0, 0, 0] ++ specPad (tdc - 2 - dataBytes.length) 0 ∧
    (buildBits version dataBytes tdc).length = 8 * tdc ∧
    (bitsToCodewords (buildBits version dataBytes tdc)).length = tdc := by
  refine ⟨buildBits_eq hv10 hcap, buildBits_length hv10 hcap, ?_⟩
  have hblen := buildBits_length hv10 hcap
  rw [bitsToCodewords_length (buildBits version dataBytes tdc).length _ le_rfl
    (by rw [hblen]; omega), hblen]
  omega

/-- C4: for every accepted input (`getMinVersion` succeeds, so the byte count
fits the selected version's capacity), the bit stream built by `createQRCode`
is exactly the mode indicator 0100, the 8-bit big-endian count, the data
bytes MSB-first, four zero terminator bits (the terminator is never truncated
because capacity = totalDataCodewords - 2), no extra byte-boundary bits, and
the alternating pad bytes 0xEC/0x11; its length is exactly
8 * totalDataCodewords, and the codeword list has totalDataCodewords entries,
with totalDataCodewords = 19, 34, 55, 80, 108, 136 for versions 1-6. -/
theorem c4_bitstream_layout (dataBytes : List Nat) (version : Nat) (vInfo : VersionInfo)
    (hv : getMinVersion dataBytes.length = some version)
    (hvi : VERSION_INFO.getD version none = some vInfo) :
    buildBits version dataBytes (vInfo.ecL.getD 1 0) =
      [0, 1, 0, 0] ++ natBitsMSB 8 dataBytes.length ++ dataBytes.flatMap (natBitsMSB 8) ++
        [0, 0, 0, 0] ++ specPad (vInfo.ecL.getD 1 0 - 2 - dataBytes.length) 0 ∧
    (buildBits version dataBytes (vInfo.ecL.getD 1 0)).length = 8 * vInfo.ecL.getD 1 0 ∧
    (bitsToCodewords (buildBits version dataBytes (vInfo.ecL.getD 1 0))).length =
      vInfo.ecL.getD 1 0 ∧
    vInfo.ecL.getD 1 0 = [0, 19, 34, 55, 80, 108, 136].getD version 0 := by
  have hv2 : (List.range' 1 6).find?
      (fun v => decide (dataBytes.length ≤ capacities.getD v 0)) = some version := hv
  have hmem := List.mem_of_find?_eq_some hv2
  have hple := List.find?_some hv2
  simp only [decide_eq_true_eq] at hple
  rw [List.mem_range'_1] at hmem
  have h1le : 1 ≤ version := hmem.1
  have hlt7 : version < 7 := hmem.2
  interval_cases version
  · obtain rfl : vInfo = ⟨26, [26, 19, 7, 1, 19, 0, 0]⟩ := (Option.some.inj hvi).symm
    have hcap : dataBytes.length + 2 ≤ 19 := by
      norm_num [capacities, List.getD] at hple
      omega
    obtain ⟨h1, h2, h3⟩ := c4_core dataBytes 1 19 (by omega) hcap
    exact ⟨h1, h2, h3, rfl⟩
  · obtain rfl : vInfo = ⟨44, [44, 34, 10, 1, 34, 0, 0]⟩ := (Option.some.inj hvi).symm
    have hcap : dataBytes.length + 2 ≤ 34 := by
      norm_num [capacities, List.getD] at hple
      omega
    obtain ⟨h1, h2, h3⟩ := c4_core dataBytes 2 34 (by omega) hcap
    exact ⟨h1, h2, h3, rfl⟩
  · obtain rfl : vInfo = ⟨70, [70, 55, 15, 1, 55, 0, 0]⟩ := (Option.some.inj hvi).symm
    have hcap : dataBytes.length + 2 ≤ 55 := by
      norm_num [capacities, List.getD] at hple
      omega
    obtain ⟨h1, h2, h3⟩ := c4_core dataBytes 3 55 (by omega) hcap
    exact ⟨h1, h2, h3, rfl⟩
  · obtain rfl : vInfo = ⟨100, [100, 80, 20, 1, 80, 0, 0]⟩ := (Option.some.inj hvi).symm
    have hcap : dataBytes.length + 2 ≤ 80 := by
      norm_num [capacities, List.getD] at hple
      omega
    obtain ⟨h1, h2, h3⟩ := c4_core dataBytes 4 80 (by omega) hcap
    exact ⟨h1, h2, h3, rfl⟩
  · obtain rfl : vInfo = ⟨134, [134, 108, 26, 1, 108, 0, 0]⟩ := (Option.some.inj hvi).symm
    have hcap : dataBytes.length + 2 ≤ 108 := by
      norm_num [capacities, List.getD] at hple
      omega
    obtain ⟨h1, h2, h3⟩ := c4_core dataBytes 5 108 (by omega) hcap
    exact ⟨h1, h2, h3, rfl⟩
  · obtain rfl : vInfo = ⟨172, [172, 136, 18, 2, 68, 0, 0]⟩ := (Option.some.inj hvi).symm
    have hcap : dataBytes.length + 2 ≤ 136 := by
      norm_num [capacities, List.getD] at hple
      omega
    obtain ⟨h1, h2, h3⟩ := c4_core dataBytes 6 136 (by omega) hcap
    exact ⟨h1, h2, h3, rfl⟩

theorem c4_bitstream_layout_witness :
    getMinVersion ([72, 105] : List Nat).length = some 1 ∧
    (buildBits 1 [72, 105]
      ((VersionInfo.mk 26 [26, 19, 7, 1, 19, 0, 0]).ecL.getD 1 0)).length =
      8 * (VersionInfo.mk 26 [26, 19, 7, 1, 19, 0, 0]).ecL.getD 1 0 :=
  ⟨by decide,
   (c4_bitstream_layout [72, 105] 1 ⟨26, [26, 19, 7, 1, 19, 0, 0]⟩ (by decide) rfl).2.1⟩

theorem createQRCode_error_long {data : List Nat}
    (h : 134 < (encodeByteMode data).length) :
    createQRCode data = .error "Data too long for QR code" := by
  unfold createQRCode
  dsimp only
  rw [getMinVersion_eq, if_neg (by omega), if_neg (by omega), if_neg (by omega),
    if_neg (by omega), if_neg (by omega), if_neg (by omega)]

theorem createQRCode_ok {data : List Nat} (h : (encodeByteMode data).length ≤ 134) :
    ∃ matrix, createQRCode data = .ok matrix := by
  unfold createQRCode
  dsimp only
  rw [getMinVersion_eq]
  by_cases c1 : (encodeByteMode data).length ≤ 17
  · rw [if_pos c1]
    exact ⟨_, rfl⟩
  rw [if_neg c1]
  by_cases c2 : (encodeByteMode data).length ≤ 32
  · rw [if_pos c2]
    exact ⟨_, rfl⟩
  rw [if_neg c2]
  by_cases c3 : (encodeByteMode data).length ≤ 53
  · rw [if_pos c3]
    exact ⟨_, rfl⟩
  rw [if_neg c3]
  by_cases c4 : (encodeByteMode data).length ≤ 78
  · rw [if_pos c4]
    exact ⟨_, rfl⟩
  rw [if_neg c4]
  by_cases c5 : (encodeByteMode data).length ≤ 106
  · rw [if_pos c5]
    exact ⟨_, rfl⟩
  rw [if_neg c5, if_pos (by omega)]
  exact ⟨_, rfl⟩

/-- C2: `generateQR` fails exactly when the trimmed text is empty (with the
InvalidInput message, before any encoding) or its byte-mode encoding exceeds
134 bytes (with the PayloadTooLarge message, before any matrix is built);
in every other case `createQRCode` yields a complete matrix and `generateQR`
returns the complete SVG string assembled from it.  Null/undefined inputs
are excluded by typing in this model. -/
theorem c2_error_characterization (text : List Nat) (dark : Bool) :
    (jsTrim text = [] → generateQR text dark = .error "QR text cannot be empty") ∧
    (jsTrim text ≠ [] → 134 < (encodeByteMode (jsTrim text)).length →
      generateQR text dark = .error "Data too long for QR code") ∧
    (jsTrim text ≠ [] → (encodeByteMode (jsTrim text)).length ≤ 134 →
      ∃ matrix, createQRCode (jsTrim text) = .ok matrix ∧
        generateQR text dark = .ok (String.join ([svgOpen (matrix.length * 8 + 64),
          bgRect (lightColorOf dark)] ++
          (moduleRectCoords matrix 8 32).map
            (fun p => moduleRect p.1 p.2 8 (darkColorOf dark)) ++ ["</svg>"]))) ∧
    ((∃ e, generateQR text dark = .error e) ↔
      jsTrim text = [] ∨ 134 < (encodeByteMode (jsTrim text)).length) := by
  have hA : jsTrim text = [] → generateQR text dark = .error "QR text cannot be empty" := by
    intro hempty
    unfold generateQR
    dsimp only
    rw [hempty]
    rfl
  have hB : jsTrim text ≠ [] → 134 < (encodeByteMode (jsTrim text)).length →
      generateQR text dark = .error "Data too long for QR code" := by
    intro hne hlong
    unfold generateQR
    dsimp only
    rw [if_neg (fun hc => hne (List.length_eq_zero.mp hc)), createQRCode_error_long hlong]
  have hC : jsTrim text ≠ [] → (encodeByteMode (jsTrim text)).length ≤ 134 →
      ∃ matrix, createQRCode (jsTrim text) = .ok matrix ∧
        generateQR text dark = .ok (String.join ([svgOpen (matrix.length * 8 + 64),
          bgRect (lightColorOf dark)] ++
          (moduleRectCoords matrix 8 32).map
            (fun p => moduleRect p.1 p.2 8 (darkColorOf dark)) ++ ["</svg>"])) := by
    intro hne hle
    obtain ⟨M, hM⟩ := createQRCode_ok hle
    refine ⟨M, hM, ?_⟩
    unfold generateQR
    dsimp only
    rw [if_neg (fun hc => hne (List.length_eq_zero.mp hc)), hM]
  refine ⟨hA, hB, hC, ?_, ?_⟩
  · rintro ⟨e, he⟩
    by_cases hempty : jsTrim text = []
    · exact Or.inl hempty
    by_cases hlong : 134 < (encodeByteMode (jsTrim text)).length
    · exact Or.inr hlong
    obtain ⟨M, _, hok⟩ := hC hempty (by omega)
    rw [hok] at he
    exact absurd he (by simp)
  · rintro (hempty | hlong)
    · exact ⟨_, hA hempty⟩
    · by_cases hempty : jsTrim text = []
      · exact ⟨_, hA hempty⟩
      · exact ⟨_, hB hempty hlong⟩

theorem c2_error_characterization_witness :
    (jsTrim ([32] : List Nat) = [] ∧ (∃ e, generateQR [32] false = Except.error e)) ∧
    (jsTrim ([9, 65, 9] : List Nat) = [65] ∧
      ¬∃ e, generateQR [9, 65, 9] false = Except.error e) :=
  ⟨⟨by decide, ((c2_error_characterization [32] false).2.2.2).mpr (Or.inl (by decide))⟩,
   ⟨by decide, fun he =>
      (by decide : ¬(jsTrim ([9, 65, 9] : List Nat) = [] ∨
        134 < (encodeByteMode (jsTrim [9, 65, 9])).length))
      (((c2_error_characterization [9, 65, 9] false).2.2.2).mp he)⟩⟩

/-- C9 counterexample: the color-exchange reading fails, because the
dark-mode background is the transparent "#00000000" while the light-mode
foreground is "#000" - the two fill strings are not exchanged. -/
theorem c9_color_swap_counterexample : ¬ svgColorSwapClaim [65] := by
  intro h
  exact absurd h.2.2 (by decide)

/-- C9 (amended): for every input the two calls emit module rectangles at
identical coordinates (the matrix does not depend on the dark flag), and the
dark-mode foreground "#fff" does equal the light-mode background; but the
dark-mode background is the transparent "#00000000", not the light-mode
foreground "#000", so the two color strings are not simply exchanged. -/
theorem c9_rect_coords_and_colors (text : List Nat) :
    (svgRectData text true).map (List.map Prod.fst) =
      (svgRectData text false).map (List.map Prod.fst) ∧
    darkColorOf true = lightColorOf false ∧
    darkColorOf true = "#fff" ∧ lightColorOf true = "#00000000" ∧
    darkColorOf false = "#000" ∧ lightColorOf false = "#fff" ∧
    lightColorOf true ≠ darkColorOf false := by
  refine ⟨?_, rfl, rfl, rfl, rfl, rfl, by decide⟩
  unfold svgRectData
  cases hc : createQRCode (jsTrim text) with
  | error e => rfl
  | ok M => simp [List.map_map]

theorem maskFold_argmin (g : Nat → Nat) : ∀ n : Nat, 1 ≤ n →
    ∃ p, p < n ∧
      (List.range n).foldl (fun best mask =>
        match best with
        | none => some (mask, g mask)
        | some bs => if g mask < bs.2 then some (mask, g mask) else some bs) none =
        some (p, g p) ∧
      (∀ m < n, g p ≤ g m) ∧ (∀ m < p, g p < g m) := by
  intro n
  induction n with
  | zero => omega
  | succ n ih =>
    intro _
    rcases Nat.eq_zero_or_pos n with hn0 | hn1
    · subst hn0
      refine ⟨0, by omega, rfl, ?_, ?_⟩
      · intro m hm
        have hm0 : m = 0 := by omega
        subst hm0
        exact le_rfl
      · intro m hm
        omega
    · obtain ⟨p, hp, hfold, hmin, hstrict⟩ := ih hn1
      rw [List.range_succ, List.foldl_append, hfold]
      simp only [List.foldl_cons, List.foldl_nil]
      by_cases hlt : g n < g p
      · rw [if_pos hlt]
        refine ⟨n, by omega, rfl, ?_, ?_⟩
        · intro m hm
          rcases Nat.lt_succ_iff_lt_or_eq.mp hm with h | h
          · exact le_of_lt (lt_of_lt_of_le hlt (hmin m h))
          · subst h
            exact le_rfl
        · intro m hm
          exact lt_of_lt_of_le hlt (hmin m hm)
      · rw [if_neg hlt]
        push_neg at hlt
        refine ⟨p, by omega, rfl, ?_, hstrict⟩
        intro m hm
        rcases Nat.lt_succ_iff_lt_or_eq.mp hm with h | h
        · exact hmin m h
        · subst h
          exact hlt

/-- C6: exactly one mask id is selected (`selectMask` is a total function
with value below 8), its penalty is minimal among all eight masked matrices,
and it is strictly below the penalty of every smaller mask id (ties break
toward the lowest id, since the loop uses a strict comparison). -/
theorem c6_mask_selection (matrix reserved : List (List Nat)) (size : Nat) :
    selectMask matrix reserved size < 8 ∧
    (∀ m < 8,
      evaluatePenalty (applyMask matrix reserved (selectMask matrix reserved size) size) size ≤
        evaluatePenalty (applyMask matrix reserved m size) size) ∧
    (∀ m < selectMask matrix reserved size,
      evaluatePenalty (applyMask matrix reserved (selectMask matrix reserved size) size) size <
        evaluatePenalty (applyMask matrix reserved m size) size) := by
  obtain ⟨p, hp, hfold, hmin, hstrict⟩ :=
    maskFold_argmin (fun m => evaluatePenalty (applyMask matrix reserved m size) size) 8
      (by omega)
  have hml : maskLoop matrix reserved size =
      some (p, evaluatePenalty (applyMask matrix reserved p size) size) := hfold
  have hsel : selectMask matrix reserved size = p := by
    unfold selectMask
    rw [hml]
    rfl
  rw [hsel]
  exact ⟨hp, hmin, hstrict⟩

/-- C8 counterexample: an 18-byte input is accepted and selects version 2
(25x25, 44 total codewords), but the matrix has 359 non-reserved cells at
data-placement time, not 8 * 44 = 352: the seven remainder cells exceed the
bitstream, and the defensive branch does write a 0 there (shown on the last
zig-zag cell even when every bit of a 352-bit stream is 1). -/
theorem c8_cell_count_counterexample :
    getMinVersion (encodeByteMode (List.replicate 18 65)).length = some 2 ∧
    (VERSION_INFO.getD 2 none).map VersionInfo.totalCodewords = some 44 ∧
    countNonReserved (patternsMR 2).2 25 = 359 ∧
    ((traversal 25).filter fun p => mget (patternsMR 2).2 p.1 p.2 = 0).length = 359 ∧
    359 ≠ 8 * 44 ∧
    mget (placeDataBits (patternsMR 2).1 (patternsMR 2).2 (List.replicate 352 1) 25)
      (((traversal 25).filter fun p => mget (patternsMR 2).2 p.1 p.2 = 0).getD 358 (0, 0)).1
      (((traversal 25).filter fun p => mget (patternsMR 2).2 p.1 p.2 = 0).getD 358 (0, 0)).2
      = 0 := by
  refine ⟨by decide, by decide, ?_, ?_, by decide, ?_⟩ <;>
    (set_option maxRecDepth 1000000 in decide)

set_option maxRecDepth 1000000 in
/-- C8 (amended): for every accepted input the non-reserved cell count at
data-placement time is 8 * totalCodewords for version 1, and
8 * totalCodewords + 7 for versions 2-6 (the seven remainder bits), and the
zig-zag traversal visits exactly that many cells; so the defensive
write-0-when-exhausted branch is taken exactly on the 0 (version 1) or 7
(versions 2-6) remainder cells. -/
theorem c8_cell_count (data : List Nat) (version : Nat) (vInfo : VersionInfo)
    (hv : getMinVersion (encodeByteMode data).length = some version)
    (hvi : VERSION_INFO.getD version none = some vInfo) :
    countNonReserved (patternsMR version).2 (4 * version + 17) =
      8 * vInfo.totalCodewords + (if version = 1 then 0 else 7) ∧
    ((traversal (4 * version + 17)).filter fun p =>
        mget (patternsMR version).2 p.1 p.2 = 0).length =
      8 * vInfo.totalCodewords + (if version = 1 then 0 else 7) := by
  have hv2 : (List.range' 1 6).find?
      (fun v => decide ((encodeByteMode data).length ≤ capacities.getD v 0)) = some version := hv
  have hmem := List.mem_of_find?_eq_some hv2
  rw [List.mem_range'_1] at hmem
  have h1le : 1 ≤ version := hmem.1
  have hlt7 : version < 7 := hmem.2
  interval_cases version
  · obtain rfl : vInfo = ⟨26, [26, 19, 7, 1, 19, 0, 0]⟩ := (Option.some.inj hvi).symm
    exact ⟨by decide, by decide⟩
  · obtain rfl : vInfo = ⟨44, [44, 34, 10, 1, 34, 0, 0]⟩ := (Option.some.inj hvi).symm
    exact ⟨by decide, by decide⟩
  · obtain rfl : vInfo = ⟨70, [70, 55, 15, 1, 55, 0, 0]⟩ := (Option.some.inj hvi).symm
    exact ⟨by decide, by decide⟩
  · obtain rfl : vInfo = ⟨100, [100, 80, 20, 1, 80, 0, 0]⟩ := (Option.some.inj hvi).symm
    exact ⟨by decide, by decide⟩
  · obtain rfl : vInfo = ⟨134, [134, 108, 26, 1, 108, 0, 0]⟩ := (Option.some.inj hvi).symm
    exact ⟨by decide, by decide⟩
  · obtain rfl : vInfo = ⟨172, [172, 136, 18, 2, 68, 0, 0]⟩ := (Option.some.inj hvi).symm
    exact ⟨by decide, by decide⟩

theorem c8_cell_count_witness :
    countNonReserved (patternsMR 2).2 (4 * 2 + 17) =
      8 * (VersionInfo.mk 44 [44, 34, 10, 1, 34, 0, 0]).totalCodewords +
        (if 2 = 1 then 0 else 7) :=
  (c8_cell_count (List.replicate 18 65) 2 ⟨44, [44, 34, 10, 1, 34, 0, 0]⟩
    (by decide) rfl).1

set_option maxRecDepth 100000 in
theorem gfTable_entries : ∀ x ∈ gfTable, x < 256 := by decide

set_option maxRecDepth 100000 in
theorem gfTable_getD_lt (j : Nat) : gfTable.getD j 0 < 256 := by
  by_cases h : j < gfTable.length
  · rw [List.getD_eq_getElem?_getD, List.getElem?_eq_getElem h]
    exact gfTable_entries _ (List.getElem_mem h)
  · rw [List.getD_eq_getElem?_getD, List.getElem?_eq_none (by omega)]
    simp

set_option maxRecDepth 100000 in
theorem GF_EXP_lt (i : Nat) : GF_EXP i < 256 := by
  unfold GF_EXP
  split
  · exact gfTable_getD_lt i
  · exact gfTable_getD_lt (i - 255)

theorem gfMul_lt (a b : Nat) : gfMul a b < 256 := by
  unfold gfMul
  split
  · omega
  · exact GF_EXP_lt _

set_option maxRecDepth 400000 in
theorem gfMul_one_table : ((List.range 256).all fun y => decide (gfMul 1 y = y)) = true := by
  decide

theorem gfMul_one (c : Nat) (h : c < 256) : gfMul 1 c = c :=
  of_decide_eq_true (List.all_eq_true.mp gfMul_one_table _ (List.mem_range.mpr h))

theorem gfMul_comm (a b : Nat) : gfMul a b = gfMul b a := by
  unfold gfMul
  exact if_congr (Iff.intro Or.symm Or.symm) rfl (by rw [Nat.add_comm])

theorem zipXor_comm (a b : List Nat) :
    List.zipWith (fun x y => x ^^^ y) a b = List.zipWith (fun x y => x ^^^ y) b a :=
  List.zipWith_comm_of_comm _ (fun x y => Nat.xor_comm x y) a b

theorem zipXor_assoc : ∀ (a b c : List Nat),
    List.zipWith (fun x y => x ^^^ y) (List.zipWith (fun x y => x ^^^ y) a b) c =
      List.zipWith (fun x y => x ^^^ y) a (List.zipWith (fun x y => x ^^^ y) b c) := by
  intro a
  induction a with
  | nil => intro b c; rfl
  | cons x a ih =>
    intro b c
    cases b with
    | nil => rfl
    | cons y b =>
      cases c with
      | nil => rfl
      | cons z c =>
        simp only [List.zipWith_cons_cons, ih, Nat.xor_assoc]

theorem zipXor_self : ∀ (a : List Nat),
    List.zipWith (fun x y => x ^^^ y) a a = List.replicate a.length 0 := by
  intro a
  induction a with
  | nil => rfl
  | cons x a ih =>
    simp only [List.zipWith_cons_cons, ih, Nat.xor_self, List.length_cons,
      List.replicate_succ]

theorem zipXor_zeros_left : ∀ (k : Nat) (l : List Nat),
    List.zipWith (fun x y => x ^^^ y) (List.replicate k 0) l = l.take k := by
  intro k
  induction k with
  | zero => intro l; rfl
  | succ k ih =>
    intro l
    cases l with
    | nil => rfl
    | cons x l =>
      simp only [List.replicate_succ, List.zipWith_cons_cons, ih, Nat.zero_xor,
        List.take_succ_cons]

theorem zipXor_zeros_left_eq {k : Nat} {l : List Nat} (h : l.length = k) :
    List.zipWith (fun x y => x ^^^ y) (List.replicate k 0) l = l := by
  rw [zipXor_zeros_left, ← h, List.take_length]

theorem zipXor_zeros_right (k : Nat) (l : List Nat) :
    List.zipWith (fun x y => x ^^^ y) l (List.replicate k 0) = l.take k := by
  rw [zipXor_comm, zipXor_zeros_left]

theorem zipXor_mem_lt : ∀ (a b : List Nat), (∀ x ∈ a, x < 256) → (∀ y ∈ b, y < 256) →
    ∀ z ∈ List.zipWith (fun x y => x ^^^ y) a b, z < 256 := by
  intro a
  induction a with
  | nil => intro b _ _ z hz; simp at hz
  | cons x a ih =>
    intro b ha hb z hz
    cases b with
    | nil => simp at hz
    | cons y b =>
      rw [List.zipWith_cons_cons] at hz
      rcases List.mem_cons.mp hz with h | h
      · subst h
        have h8 : (256 : Nat) = 2 ^ 8 := by norm_num
        rw [h8]
        exact Nat.xor_lt_two_pow (by rw [← h8]; exact ha x (List.mem_cons_self _ _))
          (by rw [← h8]; exact hb y (List.mem_cons_self _ _))
      · exact ih b (fun u hu => ha u (List.mem_cons_of_mem _ hu))
          (fun u hu => hb u (List.mem_cons_of_mem _ hu)) z h

theorem padLeft_length (n : Nat) (l : List Nat) :
    (padLeft n l).length = max n l.length := by
  simp [padLeft]
  omega

theorem padLeft_eq_self {n : Nat} {l : List Nat} (h : l.length = n) :
    padLeft n l = l := by
  simp [padLeft, h]

theorem padLeft_succ {n : Nat} {l : List Nat} (h : l.length ≤ n) :
    padLeft (n + 1) l = 0 :: padLeft n l := by
  unfold padLeft
  rw [show n + 1 - l.length = (n - l.length) + 1 from by omega, List.replicate_succ,
    List.cons_append]

theorem xorAlign_eq {a b : List Nat} :
    xorAlign a b = List.zipWith (fun x y => x ^^^ y) a (padLeft a.length b) := rfl

theorem scalePoly_length (c : Nat) (p : List Nat) : (scalePoly c p).length = p.length := by
  simp [scalePoly]

theorem xorAlign_length (a b : List Nat) : (xorAlign a b).length = a.length := by
  rw [xorAlign_eq, List.length_zipWith, padLeft_length]
  omega

theorem mulBE_length_cons (a : Nat) (p q : List Nat) :
    (mulBE (a :: p) q).length = q.length + p.length := by
  rw [mulBE, xorAlign_length, List.length_append, scalePoly_length, List.length_replicate]

theorem rsGenStep_props {poly : List Nat} {k : Nat} (e : Nat) (hlen : poly.length = k + 1)
    (hhead : poly.headD 0 = 1) (hmem : ∀ x ∈ poly, x < 256) :
    (rsGenStep poly e).length = k + 2 ∧ (rsGenStep poly e).headD 0 = 1 ∧
      ∀ x ∈ rsGenStep poly e, x < 256 := by
  cases poly with
  | nil => simp at hlen
  | cons p0 pt =>
    have hp0 : p0 = 1 := hhead
    refine ⟨?_, ?_, ?_⟩
    · rw [rsGenStep, List.length_zipWith]
      simp at hlen ⊢
      omega
    · rw [rsGenStep, List.cons_append, List.map_cons, List.zipWith_cons_cons]
      simp [hp0]
    · refine zipXor_mem_lt _ _ ?_ ?_
      · intro x hx
        rcases List.mem_append.mp hx with h | h
        · exact hmem x h
        · rw [List.mem_singleton.mp h]
          omega
      · intro y hy
        rcases List.mem_cons.mp hy with h | h
        · omega
        · rcases List.mem_map.mp h with ⟨u, _, rfl⟩
          exact gfMul_lt u e

theorem rsGeneratorPoly_props (n : Nat) :
    (rsGeneratorPoly n).length = n + 1 ∧ (rsGeneratorPoly n).headD 0 = 1 ∧
      ∀ x ∈ rsGeneratorPoly n, x < 256 := by
  induction n with
  | zero =>
    refine ⟨rfl, rfl, ?_⟩
    intro x hx
    rw [List.mem_singleton.mp hx]
    omega
  | succ n ih =>
    have hstep : rsGeneratorPoly (n + 1) = rsGenStep (rsGeneratorPoly n) (GF_EXP n) := by
      unfold rsGeneratorPoly
      rw [List.range_succ, List.foldl_append, List.foldl_cons, List.foldl_nil]
    rw [hstep]
    exact rsGenStep_props (GF_EXP n) ih.1 ih.2.1 ih.2.2

theorem mulBE_linFactor : ∀ (poly : List Nat) (e : Nat), poly ≠ [] →
    (∀ x ∈ poly, x < 256) → mulBE poly [1, e] = rsGenStep poly e := by
  intro poly
  induction poly with
  | nil => intro e h _; exact absurd rfl h
  | cons a p ih =>
    intro e _ hmem
    have ha : a < 256 := hmem a (List.mem_cons_self _ _)
    cases p with
    | nil =>
      have h1 : mulBE [a] [1, e] = [gfMul 1 a ^^^ 0, gfMul e a ^^^ 0] := by
        rw [mulBE, mulBE]
        rfl
      have h2 : rsGenStep [a] e = [a ^^^ 0, 0 ^^^ gfMul a e] := rfl
      rw [h1, h2]
      simp [gfMul_one a ha, gfMul_comm e a]
    | cons b q =>
      have hlenStep : (rsGenStep (b :: q) e).length = (b :: q).length + 1 := by
        rw [rsGenStep, List.length_zipWith]
        simp
      have hmul : mulBE (a :: b :: q) [1, e] =
          xorAlign (scalePoly a [1, e] ++ List.replicate (b :: q).length 0)
            (mulBE (b :: q) [1, e]) := by
        rw [mulBE]
      rw [hmul, ih e (by simp) (fun x hx => hmem x (List.mem_cons_of_mem _ hx)),
        xorAlign_eq]
      have hlenA : (scalePoly a [1, e] ++ List.replicate (b :: q).length 0).length =
          ((b :: q).length + 1) + 1 := by
        rw [List.length_append, scalePoly_length, List.length_replicate]
        simp
        omega
      rw [hlenA, padLeft_succ (le_of_eq hlenStep), padLeft_eq_self hlenStep]
      have hscale : scalePoly a [1, e] ++ List.replicate (b :: q).length 0 =
          gfMul 1 a :: (gfMul e a :: List.replicate (b :: q).length 0) := rfl
      rw [hscale, gfMul_one a ha, gfMul_comm e a]
      have hL : List.zipWith (fun x y => x ^^^ y)
          (a :: (gfMul a e :: List.replicate (b :: q).length 0))
          (0 :: rsGenStep (b :: q) e) =
          (a ^^^ 0) :: List.zipWith (fun x y => x ^^^ y)
            (gfMul a e :: List.replicate (b :: q).length 0) (rsGenStep (b :: q) e) := rfl
      rw [hL, Nat.xor_zero]
      have hR : rsGenStep (a :: b :: q) e =
          (a ^^^ 0) :: List.zipWith (fun x y => x ^^^ y) ((b :: q) ++ [0])
            (gfMul a e :: List.map (fun p => gfMul p e) (b :: q)) := rfl
      rw [hR, Nat.xor_zero]
      congr 1
      have hS : rsGenStep (b :: q) e = List.zipWith (fun x y => x ^^^ y) ((b :: q) ++ [0])
          (0 :: List.map (fun p => gfMul p e) (b :: q)) := rfl
      rw [hS]
      have hstep1 : List.zipWith (fun x y => x ^^^ y)
          (gfMul a e :: List.replicate (b :: q).length 0)
          (0 :: List.map (fun p => gfMul p e) (b :: q)) =
          (gfMul a e ^^^ 0) :: List.zipWith (fun x y => x ^^^ y)
            (List.replicate (b :: q).length 0)
            (List.map (fun p => gfMul p e) (b :: q)) := rfl
      have hinner : List.zipWith (fun x y => x ^^^ y)
          (gfMul a e :: List.replicate (b :: q).length 0)
          (0 :: List.map (fun p => gfMul p e) (b :: q)) =
          gfMul a e :: List.map (fun p => gfMul p e) (b :: q) := by
        rw [hstep1, Nat.xor_zero, zipXor_zeros_left_eq (by simp)]
      rw [zipXor_comm ((b :: q) ++ [0]) (0 :: List.map (fun p => gfMul p e) (b :: q)),
        ← zipXor_assoc, hinner, zipXor_comm]

theorem rsGeneratorPoly_eq_polyProd (n : Nat) :
    rsGeneratorPoly n = polyProd (linFactors n) := by
  induction n with
  | zero => rfl
  | succ n ih =>
    have hstep : rsGeneratorPoly (n + 1) = rsGenStep (rsGeneratorPoly n) (GF_EXP n) := by
      unfold rsGeneratorPoly
      rw [List.range_succ, List.foldl_append, List.foldl_cons, List.foldl_nil]
    have hfac : linFactors (n + 1) = linFactors n ++ [[1, GF_EXP n]] := by
      unfold linFactors
      rw [List.range_succ, List.map_append, List.map_cons, List.map_nil]
    obtain ⟨hlen, _, hmem⟩ := rsGeneratorPoly_props n
    rw [hstep, hfac]
    unfold polyProd
    rw [List.foldl_append, List.foldl_cons, List.foldl_nil]
    rw [show List.foldl mulBE [1] (linFactors n) = polyProd (linFactors n) from rfl, ← ih]
    exact (mulBE_linFactor (rsGeneratorPoly n) (GF_EXP n)
      (by intro hnil; rw [hnil] at hlen; simp at hlen) hmem).symm

theorem rsEncodeStep_length {gen r : List Nat} {n : Nat} (b : Nat)
    (hr : r.length = n) (hg : gen.length = n + 1) :
    (rsEncodeStep gen r b).length = n := by
  unfold rsEncodeStep
  dsimp only
  rw [List.length_zipWith, List.length_append, List.length_tail, List.length_map,
    List.length_drop, hr, hg]
  cases n <;> simp

theorem rsEncodeStep_mem {gen r : List Nat} {b : Nat}
    (hb : b < 256) (hr : ∀ x ∈ r, x < 256) :
    ∀ x ∈ rsEncodeStep gen r b, x < 256 := by
  unfold rsEncodeStep
  dsimp only
  refine zipXor_mem_lt _ _ ?_ ?_
  · intro x hx
    rcases List.mem_append.mp hx with h | h
    · exact hr x (List.mem_of_mem_tail h)
    · rw [List.mem_singleton.mp h]
      omega
  · intro y hy
    rcases List.mem_map.mp hy with ⟨u, _, rfl⟩
    exact gfMul_lt u _

theorem rsFold_props {gen : List Nat} {n : Nat} (hg : gen.length = n + 1) :
    ∀ (data r : List Nat), r.length = n → (∀ b ∈ data, b < 256) →
    (∀ x ∈ r, x < 256) →
    (data.foldl (rsEncodeStep gen) r).length = n ∧
      ∀ x ∈ data.foldl (rsEncodeStep gen) r, x < 256 := by
  intro data
  induction data with
  | nil =>
    intro r hr _ hrm
    exact ⟨hr, hrm⟩
  | cons b rest ih =>
    intro r hr hd hrm
    rw [List.foldl_cons]
    exact ih _ (rsEncodeStep_length b hr hg)
      (fun x hx => hd x (List.mem_cons_of_mem _ hx))
      (rsEncodeStep_mem (hd b (List.mem_cons_self _ _)) hrm)

theorem rsQuotGo_length (gen : List Nat) : ∀ (data r : List Nat),
    (rsQuotGo gen r data).length = data.length := by
  intro data
  induction data with
  | nil => intro r; rfl
  | cons b rest ih =>
    intro r
    rw [rsQuotGo, List.length_cons, List.length_cons, ih]

theorem rsDivGo {gen : List Nat} {n : Nat} (hn : 1 ≤ n) (hglen : gen.length = n + 1)
    (hghead : gen.headD 0 = 1) :
    ∀ (data r : List Nat), r.length = n → (∀ b ∈ data, b < 256) →
    (∀ x ∈ r, x < 256) →
    List.zipWith (fun x y => x ^^^ y)
        (padLeft (data.length + n) (mulBE (rsQuotGo gen r data) gen))
        (List.replicate data.length 0 ++ data.foldl (rsEncodeStep gen) r) =
      List.zipWith (fun x y => x ^^^ y) (data ++ List.replicate n 0)
        (r ++ List.replicate data.length 0) := by
  intro data
  induction data with
  | nil =>
    intro r hr _ _
    have h0 : rsQuotGo gen r [] = [] := rfl
    have h1 : List.foldl (rsEncodeStep gen) r [] = r := rfl
    have h2 : mulBE [] gen = [] := rfl
    rw [h0, h1, h2]
    simp only [List.length_nil, List.replicate_zero, List.nil_append, List.append_nil,
      Nat.zero_add]
    have h3 : padLeft n [] = List.replicate n 0 := by
      simp [padLeft]
    rw [h3]
  | cons b rest ih =>
    intro r hr hd hrm
    cases r with
    | nil =>
      rw [List.length_nil] at hr
      omega
    | cons r0 rt =>
      cases gen with
      | nil => simp at hglen
      | cons g0 gtail =>
        have hg0 : g0 = 1 := hghead
        subst hg0
        have hgt : gtail.length = n := by
          rw [List.length_cons] at hglen
          omega
        have hb : b < 256 := hd b (List.mem_cons_self _ _)
        have hr0 : r0 < 256 := hrm r0 (List.mem_cons_self _ _)
        have hcoef : b ^^^ r0 < 256 := by
          have h8 : (256 : Nat) = 2 ^ 8 := by norm_num
          rw [h8] at hb hr0 ⊢
          exact Nat.xor_lt_two_pow hb hr0
        have hh : (r0 :: rt).headD 0 = r0 := rfl
        have hrt : rt.length = n - 1 := by
          rw [List.length_cons] at hr
          omega
        have hstep_len : (rsEncodeStep (1 :: gtail) (r0 :: rt) b).length = n :=
          rsEncodeStep_length b hr hglen
        have hstep_mem : ∀ x ∈ rsEncodeStep (1 :: gtail) (r0 :: rt) b, x < 256 :=
          rsEncodeStep_mem hb hrm
        rw [rsQuotGo, List.foldl_cons, mulBE, rsQuotGo_length, hh]
        rw [List.length_cons]
        rw [xorAlign_eq]
        have hlenA : (scalePoly (b ^^^ r0) (1 :: gtail) ++
            List.replicate rest.length 0).length = (rest.length + n) + 1 := by
          rw [List.length_append, scalePoly_length, List.length_replicate,
            List.length_cons, hgt]
          omega
        have hQlen : (rsQuotGo (1 :: gtail)
            (rsEncodeStep (1 :: gtail) (r0 :: rt) b) rest).length = rest.length :=
          rsQuotGo_length _ _ _
        have hmul_le2 : (mulBE (rsQuotGo (1 :: gtail)
            (rsEncodeStep (1 :: gtail) (r0 :: rt) b) rest) (1 :: gtail)).length ≤
            rest.length + n := by
          cases hq : rsQuotGo (1 :: gtail) (rsEncodeStep (1 :: gtail) (r0 :: rt) b) rest with
          | nil =>
            rw [show mulBE [] (1 :: gtail) = [] from rfl]
            simp
          | cons qa qp =>
            rw [mulBE_length_cons, List.length_cons, hgt]
            have hq2 := congrArg List.length hq
            rw [hQlen, List.length_cons] at hq2
            omega
        rw [hlenA, padLeft_succ hmul_le2]
        have hzlen : (List.zipWith (fun x y => x ^^^ y)
            (scalePoly (b ^^^ r0) (1 :: gtail) ++ List.replicate rest.length 0)
            (0 :: padLeft (rest.length + n) (mulBE (rsQuotGo (1 :: gtail)
              (rsEncodeStep (1 :: gtail) (r0 :: rt) b) rest) (1 :: gtail)))).length =
            (rest.length + n) + 1 := by
          rw [List.length_zipWith, hlenA, List.length_cons, padLeft_length]
          omega
        rw [show rest.length + 1 + n = (rest.length + n) + 1 from by omega]
        rw [padLeft_eq_self hzlen]
        have hscale : scalePoly (b ^^^ r0) (1 :: gtail) ++ List.replicate rest.length 0 =
            gfMul 1 (b ^^^ r0) ::
              (gtail.map (fun a => gfMul a (b ^^^ r0)) ++ List.replicate rest.length 0) := rfl
        rw [hscale, gfMul_one _ hcoef]
        rw [List.replicate_succ, List.cons_append, List.zipWith_cons_cons,
          List.zipWith_cons_cons, Nat.xor_zero, Nat.xor_zero]
        rw [List.cons_append, List.cons_append, List.zipWith_cons_cons]
        congr 1
        rw [zipXor_assoc]
        rw [ih (rsEncodeStep (1 :: gtail) (r0 :: rt) b) hstep_len
          (fun x hx => hd x (List.mem_cons_of_mem _ hx)) hstep_mem]
        rw [zipXor_comm (gtail.map (fun a => gfMul a (b ^^^ r0)) ++
          List.replicate rest.length 0) _, zipXor_assoc]
        congr 1
        have hr'eq : rsEncodeStep (1 :: gtail) (r0 :: rt) b =
            List.zipWith (fun x y => x ^^^ y) (rt ++ [0])
              (gtail.map (fun a => gfMul a (b ^^^ r0))) := rfl
        rw [List.zipWith_append _ _ _ _ _ (by rw [hstep_len, List.length_map, hgt])]
        rw [zipXor_zeros_left_eq (by rw [List.length_replicate])]
        have hcancel : List.zipWith (fun x y => x ^^^ y)
            (List.zipWith (fun x y => x ^^^ y) (rt ++ [0])
              (List.map (fun a => gfMul a (b ^^^ r0)) gtail))
            (List.map (fun a => gfMul a (b ^^^ r0)) gtail) = rt ++ [0] := by
          rw [zipXor_assoc, zipXor_self, List.length_map, hgt, zipXor_zeros_right]
          rw [List.take_of_length_le
            (by rw [List.length_append, List.length_singleton, hrt]; omega)]
        rw [hr'eq, hcancel, List.append_assoc, List.singleton_append]

/-- C5: for every data codeword list (entries in 0..255) and every count
n >= 1, `rsEncode` returns exactly n codewords (each in 0..255); the
generator polynomial is the monic degree-n product of the linear factors
(x - alpha^i) for i in [0, n) over GF(2^8) with primitive polynomial 0x11D
(subtraction is XOR, so each factor is [1, alpha^i]); and the output is the
remainder of dividing data(x) * x^n by the generator:
quotient * generator + remainder = data * x^n coefficient-wise, with the
remainder's n coefficients sitting in the bottom n positions (degree < n). -/
theorem c5_rsEncode_remainder (data : List Nat) (n : Nat) (hn : 1 ≤ n)
    (hdata : ∀ b ∈ data, b < 256) :
    (rsEncode data n).length = n ∧
    (∀ c ∈ rsEncode data n, c < 256) ∧
    rsGeneratorPoly n = polyProd (linFactors n) ∧
    (rsGeneratorPoly n).length = n + 1 ∧
    (rsGeneratorPoly n).headD 0 = 1 ∧
    List.zipWith (fun x y => x ^^^ y)
        (padLeft (data.length + n) (mulBE (rsQuot data n) (rsGeneratorPoly n)))
        (List.replicate data.length 0 ++ rsEncode data n) =
      data ++ List.replicate n 0 := by
  obtain ⟨hglen, hghead, hgmem⟩ := rsGeneratorPoly_props n
  have hzm : ∀ x ∈ (List.replicate n 0 : List Nat), x < 256 := by
    intro x hx
    rw [List.eq_of_mem_replicate hx]
    omega
  have hfold := rsFold_props hglen data (List.replicate n 0) (List.length_replicate n 0)
    hdata hzm
  have hdiv := rsDivGo hn hglen hghead data (List.replicate n 0)
    (List.length_replicate n 0) hdata hzm
  have hrhs : List.zipWith (fun x y => x ^^^ y) (data ++ List.replicate n 0)
      (List.replicate n 0 ++ List.replicate data.length 0) = data ++ List.replicate n 0 := by
    rw [← List.replicate_add, zipXor_zeros_right, List.take_of_length_le]
    rw [List.length_append, List.length_replicate]
    omega
  exact ⟨hfold.1, hfold.2, rsGeneratorPoly_eq_polyProd n, hglen, hghead,
    hdiv.trans hrhs⟩

theorem c5_rsEncode_remainder_witness :
    1 ≤ 2 ∧ (rsEncode [32, 91] 2).length = 2 :=
  ⟨by omega, (c5_rsEncode_remainder [32, 91] 2 (by omega) (by decide)).1⟩

theorem encodeByteMode_ascii {s : List Nat} (h : ∀ u ∈ s, u < 128) :
    encodeByteMode s = s := by
  induction s with
  | nil => rfl
  | cons u rest ih =>
    have hu : u < 128 := h u (List.mem_cons_self _ _)
    have h1 : encodeByteMode [u] = [u] := by
      show (if u < 128 then [u]
        else if u < 2048 then [0xc0 ||| (u >>> 6), 0x80 ||| (u &&& 0x3f)]
        else [0xe0 ||| (u >>> 12), 0x80 ||| ((u >>> 6) &&& 0x3f),
          0x80 ||| (u &&& 0x3f)]) ++ [] = [u]
      rw [if_pos hu, List.append_nil]
    rw [encodeByteMode_cons, h1, ih (fun x hx => h x (List.mem_cons_of_mem _ hx))]
    rfl

theorem jsTrim_mem {t : List Nat} {x : Nat} (h : x ∈ jsTrim t) : x ∈ t := by
  unfold jsTrim at h
  rw [List.mem_reverse] at h
  have h2 := (List.dropWhile_sublist _).mem h
  rw [List.mem_reverse] at h2
  exact (List.dropWhile_sublist _).mem h2

theorem specPad_bits_lt : ∀ (k idx : Nat), ∀ b ∈ specPad k idx, b < 2 := by
  intro k
  induction k with
  | zero => intro idx b hb; simp [specPad] at hb
  | succ k ih =>
    intro idx b hb
    rw [specPad] at hb
    rcases List.mem_append.mp hb with h | h
    · exact natBitsMSB_bits_lt _ _ b h
    · exact ih _ b h

theorem flatMap_natBitsMSB_bits_lt (l : List Nat) (w : Nat) :
    ∀ b ∈ l.flatMap (natBitsMSB w), b < 2 := by
  intro b hb
  rcases List.mem_flatMap.mp hb with ⟨x, _, hx⟩
  exact natBitsMSB_bits_lt _ _ b hx

theorem buildBits_bits_lt {version : Nat} {dataBytes : List Nat} {tdc : Nat}
    (hv : version < 10) (hn : dataBytes.length + 2 ≤ tdc) :
    ∀ b ∈ buildBits version dataBytes tdc, b < 2 := by
  rw [buildBits_eq hv hn]
  intro b hb
  rcases List.mem_append.mp hb with h | h
  · rcases List.mem_append.mp h with h | h
    · rcases List.mem_append.mp h with h | h
      · rcases List.mem_append.mp h with h | h
        · simp only [List.mem_cons, List.not_mem_nil, or_false] at h
          rcases h with h | h | h | h <;> omega
        · exact natBitsMSB_bits_lt _ _ b h
      · exact flatMap_natBitsMSB_bits_lt _ _ b h
    · simp only [List.mem_cons, List.not_mem_nil, or_false] at h
      rcases h with h | h | h | h <;> omega
  · exact specPad_bits_lt _ _ b h

theorem chunk8_flatMap_append {cws : List Nat} (t : List Nat) (h : ∀ c ∈ cws, c < 256) :
    chunk8 (cws.flatMap (natBitsMSB 8) ++ t) = cws ++ chunk8 t := by
  induction cws with
  | nil => rfl
  | cons c rest ih =>
    have hc : c < 2 ^ 8 := by
      have h2 : (2 : Nat) ^ 8 = 256 := by norm_num
      rw [h2]
      exact h c (List.mem_cons_self _ _)
    rw [List.flatMap_cons, List.append_assoc, chunk8_append8 (natBitsMSB_length 8 c),
      bitsToNat_natBitsMSB, Nat.mod_eq_of_lt hc,
      ih (fun x hx => h x (List.mem_cons_of_mem _ hx))]
    rfl

theorem range_map_getD : ∀ (l : List Nat) (k : Nat), l.length = k →
    (List.range k).map (fun i => l.getD i 0) = l := by
  intro l
  induction l with
  | nil =>
    intro k hk
    rw [← hk]
    rfl
  | cons x xs ih =>
    intro k hk
    rw [← hk, List.length_cons, List.range_succ_eq_map, List.map_cons, List.map_map]
    congr 1
    rw [show ((fun i => (x :: xs).getD i 0) ∘ Nat.succ) = fun i => xs.getD i 0 from rfl]
    exact ih xs.length rfl

theorem flatMap_singleton_eq_map (l : List Nat) (f : Nat → Nat) :
    l.flatMap (fun x => [f x]) = l.map f := by
  induction l with
  | nil => rfl
  | cons x xs ih => simp [List.flatMap_cons, ih]

theorem range_flatMap_if_singleton (f : Nat → Nat) :
    ∀ (n m : Nat), n ≤ m →
      (List.range n).flatMap (fun i => if i < m then [f i] else []) =
        (List.range n).map f := by
  intro n
  induction n with
  | zero => intro m _; rfl
  | succ n ih =>
    intro m hm
    rw [List.range_succ, List.flatMap_append, List.map_append,
      ih m (by omega)]
    simp only [List.flatMap_cons, List.flatMap_nil, List.append_nil, List.map_cons,
      List.map_nil]
    rw [if_pos (by omega)]

theorem interleaveData_single (l : List Nat) : interleaveData [l] = l := by
  unfold interleaveData
  have hmax : ([l].map List.length).foldl max 0 = l.length := by
    simp
  rw [hmax]
  have hinner : (fun i => [l].flatMap fun block =>
      if i < block.length then [block.getD i 0] else []) =
      fun i => if i < l.length then [l.getD i 0] else [] := by
    funext i
    simp only [List.flatMap_cons, List.flatMap_nil, List.append_nil]
  rw [hinner, range_flatMap_if_singleton _ _ _ le_rfl, range_map_getD l _ rfl]

theorem interleaveEC_single {e : List Nat} {k : Nat} (h : e.length = k) :
    interleaveEC [e] k = e := by
  unfold interleaveEC
  have hinner : (fun i => [e].map fun ec => ec.getD i 0) =
      fun i => [e.getD i 0] := by
    funext i
    rfl
  rw [hinner, flatMap_singleton_eq_map, range_map_getD e k h]

theorem evens_cons_cons (x y : Nat) (l : List Nat) : evens (x :: y :: l) = x :: evens l := rfl

theorem odds_cons_cons (x y : Nat) (l : List Nat) : odds (x :: y :: l) = y :: odds l := by
  cases l with
  | nil => rfl
  | cons z rest => rfl

theorem interleaveData_pair_cons (x y : Nat) (xs ys : List Nat) (h : xs.length = ys.length) :
    interleaveData [x :: xs, y :: ys] = x :: y :: interleaveData [xs, ys] := by
  unfold interleaveData
  dsimp only
  have hm1 : ([x :: xs, y :: ys].map List.length).foldl max 0 = xs.length + 1 := by
    simp [h]
  have hm2 : ([xs, ys].map List.length).foldl max 0 = xs.length := by
    simp [h]
  rw [hm1, hm2, List.range_succ_eq_map, List.flatMap_cons, List.flatMap_map]
  congr 1
  simp

theorem interleaveData_pair : ∀ (b1 b2 : List Nat), b1.length = b2.length →
    evens (interleaveData [b1, b2]) = b1 ∧ odds (interleaveData [b1, b2]) = b2 ∧
    (interleaveData [b1, b2]).length = b1.length + b2.length := by
  intro b1
  induction b1 with
  | nil =>
    intro b2 h
    have h2 : b2 = [] := List.length_eq_zero.mp (by rw [List.length_nil] at h; omega)
    subst h2
    exact ⟨rfl, rfl, rfl⟩
  | cons x xs ih =>
    intro b2 h
    cases b2 with
    | nil => simp at h
    | cons y ys =>
      have hl : xs.length = ys.length := by
        rw [List.length_cons, List.length_cons] at h
        omega
      rw [interleaveData_pair_cons x y xs ys hl, evens_cons_cons, odds_cons_cons]
      obtain ⟨h1, h2, h3⟩ := ih ys hl
      refine ⟨by rw [h1], by rw [h2], ?_⟩
      rw [List.length_cons, List.length_cons, List.length_cons, List.length_cons, h3]
      omega

theorem mem_interleaveData {blocks : List (List Nat)} {x : Nat}
    (hx : x ∈ interleaveData blocks) : ∃ bl ∈ blocks, x ∈ bl := by
  unfold interleaveData at hx
  rcases List.mem_flatMap.mp hx with ⟨i, _, hx2⟩
  rcases List.mem_flatMap.mp hx2 with ⟨bl, hbl, hx3⟩
  refine ⟨bl, hbl, ?_⟩
  by_cases hc : i < bl.length
  · rw [if_pos hc] at hx3
    rw [List.mem_singleton.mp hx3, List.getD_eq_getElem?_getD,
      List.getElem?_eq_getElem hc]
    exact List.getElem_mem hc
  · rw [if_neg hc] at hx3
    simp at hx3

theorem mem_interleaveEC {ecBlocks : List (List Nat)} {k x : Nat}
    (hx : x ∈ interleaveEC ecBlocks k) : x = 0 ∨ ∃ e ∈ ecBlocks, x ∈ e := by
  unfold interleaveEC at hx
  rcases List.mem_flatMap.mp hx with ⟨i, _, hx2⟩
  rcases List.mem_map.mp hx2 with ⟨e, he, rfl⟩
  by_cases hc : i < e.length
  · right
    refine ⟨e, he, ?_⟩
    rw [List.getD_eq_getElem?_getD, List.getElem?_eq_getElem hc]
    exact List.getElem_mem hc
  · left
    rw [List.getD_eq_getElem?_getD, List.getElem?_eq_none (by omega)]
    rfl

theorem mem_splitBlocks {dc : List Nat} {nb dpb : Nat} {bl : List Nat}
    (hbl : bl ∈ splitBlocks dc nb dpb) : ∀ x ∈ bl, x ∈ dc := by
  unfold splitBlocks at hbl
  rcases List.mem_map.mp hbl with ⟨b, _, rfl⟩
  intro x hx
  exact List.mem_of_mem_drop (List.mem_of_mem_take hx)

theorem selectMask_lt (matrix reserved : List (List Nat)) (size : Nat) :
    selectMask matrix reserved size < 8 := by
  obtain ⟨p, hp, hfold, _, _⟩ :=
    maskFold_argmin (fun m => evaluatePenalty (applyMask matrix reserved m size) size) 8
      (by omega)
  have hml : maskLoop matrix reserved size =
      some (p, evaluatePenalty (applyMask matrix reserved p size) size) := hfold
  unfold selectMask
  rw [hml]
  exact hp

theorem FORMAT_INFO_getD_lt (m : Nat) : FORMAT_INFO.getD m 0 < 32768 := by
  by_cases h : m < FORMAT_INFO.length
  · rw [List.getD_eq_getElem?_getD, List.getElem?_eq_getElem h]
    have hall : ∀ x ∈ FORMAT_INFO, x < 32768 := by decide
    exact hall _ (List.getElem_mem h)
  · rw [List.getD_eq_getElem?_getD, List.getElem?_eq_none (by omega)]
    simp

theorem mem_topRightH {s : Nat} {p : Nat × Nat} (hs : 21 ≤ s) (h : p ∈ topRightH s) :
    p.1 = 8 ∧ s - 8 ≤ p.2 ∧ p.2 < s := by
  unfold topRightH at h
  rcases List.mem_map.mp h with ⟨i, hi, rfl⟩
  rw [List.mem_range] at hi
  exact ⟨rfl, by omega, by omega⟩

theorem mem_bottomLeftV {s : Nat} {p : Nat × Nat} (hs : 21 ≤ s) (h : p ∈ bottomLeftV s) :
    s - 8 ≤ p.1 ∧ p.1 < s ∧ p.2 = 8 := by
  unfold bottomLeftV at h
  rcases List.mem_map.mp h with ⟨i, hi, rfl⟩
  rw [List.mem_range] at hi
  exact ⟨by omega, by omega, rfl⟩

theorem addFormatInfo_copy1 {s : Nat} {m : List (List Nat)} (hw : WellFormedMat m s)
    (mask : Nat) (hs : 21 ≤ s) :
    fmtPositions.map (fun p => mget (addFormatInfo m mask s) p.1 p.2) =
      natBitsMSB 15 (FORMAT_INFO.getD mask 0) := by
  have hHb : ∀ p ∈ topLeftH, p.1 ≤ 8 ∧ p.2 ≤ 8 := by decide
  have hVb : ∀ p ∈ topLeftV, p.1 ≤ 8 ∧ p.2 ≤ 8 := by decide
  have hHV : ∀ p ∈ topLeftH, p ∉ topLeftV := by decide
  have hnotTR : ∀ p : Nat × Nat, p.2 ≤ 8 → p ∉ topRightH s := by
    intro p hp hmem
    have := mem_topRightH hs hmem
    omega
  have hnotBL : ∀ p : Nat × Nat, p.1 ≤ 8 → p ∉ bottomLeftV s := by
    intro p hp hmem
    have := mem_bottomLeftV hs hmem
    omega
  have hBlen : (natBitsMSB 15 (FORMAT_INFO.getD mask 0)).length = 15 := natBitsMSB_length _ _
  have htk : ((natBitsMSB 15 (FORMAT_INFO.getD mask 0)).take 8).length = 8 := by
    rw [List.length_take, hBlen]
    omega
  have hdp : ((natBitsMSB 15 (FORMAT_INFO.getD mask 0)).drop 8).length = 7 := by
    rw [List.length_drop, hBlen]
  have hm1w : WellFormedMat (writeSeq m topLeftH
      ((natBitsMSB 15 (FORMAT_INFO.getD mask 0)).take 8)) s := writeSeq_wf _ _ _ hw
  unfold addFormatInfo
  dsimp only
  rw [show fmtPositions = topLeftH ++ topLeftV from rfl, List.map_append]
  have half1 : topLeftH.map (fun p => mget (writeSeq (writeSeq (writeSeq (writeSeq m
      topLeftH ((natBitsMSB 15 (FORMAT_INFO.getD mask 0)).take 8)) topLeftV
      ((natBitsMSB 15 (FORMAT_INFO.getD mask 0)).drop 8)) (topRightH s)
      ((natBitsMSB 15 (FORMAT_INFO.getD mask 0)).take 8)) (bottomLeftV s)
      ((natBitsMSB 15 (FORMAT_INFO.getD mask 0)).drop 8)) p.1 p.2) =
      (natBitsMSB 15 (FORMAT_INFO.getD mask 0)).take 8 := by
    have hstep : ∀ p ∈ topLeftH, mget (writeSeq (writeSeq (writeSeq (writeSeq m
        topLeftH ((natBitsMSB 15 (FORMAT_INFO.getD mask 0)).take 8)) topLeftV
        ((natBitsMSB 15 (FORMAT_INFO.getD mask 0)).drop 8)) (topRightH s)
        ((natBitsMSB 15 (FORMAT_INFO.getD mask 0)).take 8)) (bottomLeftV s)
        ((natBitsMSB 15 (FORMAT_INFO.getD mask 0)).drop 8)) p.1 p.2 =
        mget (writeSeq m topLeftH
          ((natBitsMSB 15 (FORMAT_INFO.getD mask 0)).take 8)) p.1 p.2 := by
      intro p hp
      have hb8 := hHb p hp
      rw [mget_writeSeq_notMem _ _ _ _ _ (by rw [Prod.mk.eta]; exact hnotBL p hb8.1),
        mget_writeSeq_notMem _ _ _ _ _ (by rw [Prod.mk.eta]; exact hnotTR p hb8.2),
        mget_writeSeq_notMem _ _ _ _ _ (by rw [Prod.mk.eta]; exact hHV p hp)]
    rw [List.map_congr_left hstep]
    have hr := writeSeq_read topLeftH m
      ((natBitsMSB 15 (FORMAT_INFO.getD mask 0)).take 8) (by decide)
      (fun p hp => ⟨by have := (hHb p hp).1; omega, by have := (hHb p hp).2; omega⟩)
      hw (by rw [htk]; decide)
    rw [hr, htk, show topLeftH.length - 8 = 0 from by decide]
    simp
  have half2 : topLeftV.map (fun p => mget (writeSeq (writeSeq (writeSeq (writeSeq m
      topLeftH ((natBitsMSB 15 (FORMAT_INFO.getD mask 0)).take 8)) topLeftV
      ((natBitsMSB 15 (FORMAT_INFO.getD mask 0)).drop 8)) (topRightH s)
      ((natBitsMSB 15 (FORMAT_INFO.getD mask 0)).take 8)) (bottomLeftV s)
      ((natBitsMSB 15 (FORMAT_INFO.getD mask 0)).drop 8)) p.1 p.2) =
      (natBitsMSB 15 (FORMAT_INFO.getD mask 0)).drop 8 := by
    have hstep : ∀ p ∈ topLeftV, mget (writeSeq (writeSeq (writeSeq (writeSeq m
        topLeftH ((natBitsMSB 15 (FORMAT_INFO.getD mask 0)).take 8)) topLeftV
        ((natBitsMSB 15 (FORMAT_INFO.getD mask 0)).drop 8)) (topRightH s)
        ((natBitsMSB 15 (FORMAT_INFO.getD mask 0)).take 8)) (bottomLeftV s)
        ((natBitsMSB 15 (FORMAT_INFO.getD mask 0)).drop 8)) p.1 p.2 =
        mget (writeSeq (writeSeq m topLeftH
          ((natBitsMSB 15 (FORMAT_INFO.getD mask 0)).take 8)) topLeftV
          ((natBitsMSB 15 (FORMAT_INFO.getD mask 0)).drop 8)) p.1 p.2 := by
      intro p hp
      have hb8 := hVb p hp
      rw [mget_writeSeq_notMem _ _ _ _ _ (by rw [Prod.mk.eta]; exact hnotBL p hb8.1),
        mget_writeSeq_notMem _ _ _ _ _ (by rw [Prod.mk.eta]; exact hnotTR p hb8.2)]
    rw [List.map_congr_left hstep]
    have hr := writeSeq_read topLeftV
      (writeSeq m topLeftH ((natBitsMSB 15 (FORMAT_INFO.getD mask 0)).take 8))
      ((natBitsMSB 15 (FORMAT_INFO.getD mask 0)).drop 8) (by decide)
      (fun p hp => ⟨by have := (hVb p hp).1; omega, by have := (hVb p hp).2; omega⟩)
      hm1w (by rw [hdp]; decide)
    rw [hr, hdp, show topLeftV.length - 7 = 0 from by decide]
    simp
  rw [half1, half2, List.take_append_drop]

theorem decodeFormat_addFormatInfo {s : Nat} {m : List (List Nat)}
    (hw : WellFormedMat m s) {mask : Nat} (hmask : mask < 8) (hs : 21 ≤ s) :
    decodeFormat (addFormatInfo m mask s) = some mask := by
  unfold decodeFormat
  dsimp only
  rw [addFormatInfo_copy1 hw mask hs, bitsToNat_natBitsMSB_of_lt (by
    have h1 := FORMAT_INFO_getD_lt mask
    have h2 : (2 : Nat) ^ 15 = 32768 := by norm_num
    omega)]
  interval_cases mask <;> decide

theorem parseByteMode_buildBits {version : Nat} {dataBytes : List Nat} {tdc : Nat}
    (hv : version < 10) (hn : dataBytes.length + 2 ≤ tdc) (hn256 : dataBytes.length < 256)
    (hdb : ∀ b ∈ dataBytes, b < 256) :
    parseByteMode (buildBits version dataBytes tdc) = some dataBytes := by
  rw [buildBits_eq hv hn]
  simp only [List.append_assoc]
  unfold parseByteMode
  dsimp only
  have hfm : (dataBytes.flatMap (natBitsMSB 8)).length = 8 * dataBytes.length :=
    flatMap_natBitsMSB_length _ _
  rw [List.take_left' (show ([0, 1, 0, 0] : List Nat).length = 4 from rfl), if_pos rfl]
  rw [List.drop_left' (show ([0, 1, 0, 0] : List Nat).length = 4 from rfl)]
  rw [List.take_left' (natBitsMSB_length 8 dataBytes.length)]
  rw [bitsToNat_natBitsMSB_of_lt (by
    have h2 : (2 : Nat) ^ 8 = 256 := by norm_num
    omega)]
  rw [show ([0, 1, 0, 0] : List Nat) ++ (natBitsMSB 8 dataBytes.length ++
      (dataBytes.flatMap (natBitsMSB 8) ++ ([0, 0, 0, 0] ++
        specPad (tdc - 2 - dataBytes.length) 0))) =
      (([0, 1, 0, 0] ++ natBitsMSB 8 dataBytes.length) ++
        (dataBytes.flatMap (natBitsMSB 8) ++ ([0, 0, 0, 0] ++
          specPad (tdc - 2 - dataBytes.length) 0))) from by
    simp only [List.append_assoc]]
  rw [List.drop_left' (by
    rw [List.length_append, natBitsMSB_length]
    rfl)]
  rw [List.take_left' hfm, if_pos hfm, chunk8_flatMap hdb]

theorem stdReserved_corner {version s r c : Nat} (h1 : r ≤ 8) (h2 : c ≤ 8) :
    stdReserved version s r c = true := by
  unfold stdReserved
  simp [h1, h2]

theorem stdReserved_topRight {version s r c : Nat} (h1 : r ≤ 8) (h2 : s - 8 ≤ c) :
    stdReserved version s r c = true := by
  unfold stdReserved
  simp [h1, h2]

theorem stdReserved_bottomLeft {version s r c : Nat} (h1 : s - 8 ≤ r) (h2 : c ≤ 8) :
    stdReserved version s r c = true := by
  unfold stdReserved
  simp [h1, h2]

theorem decode_pipeline (dataBytes interleaved : List Nat) (version tdc rem mask : Nat)
    (hmask : mask < 8) (hv10 : version < 10) (hs21 : 21 ≤ version * 4 + 17)
    (hdb : ∀ b ∈ dataBytes, b < 256) (hn2 : dataBytes.length + 2 ≤ tdc)
    (hn256 : dataBytes.length < 256)
    (hint : ∀ c ∈ interleaved, c < 256)
    (hrem : rem = 0 ∨ rem = 7)
    (hgrid : ∀ r c : Nat, r < version * 4 + 17 → c < version * 4 + 17 →
      (mget (patternsMR version).2 r c = 0 ↔
        stdReserved version (version * 4 + 17) r c = false))
    (hL : ((traversal (version * 4 + 17)).filter fun p =>
        decide (mget (patternsMR version).2 p.1 p.2 = 0)).length =
      8 * interleaved.length + rem)
    (hsdc : stdDataCodewords version (interleaved ++ List.replicate (min rem 1) 0) =
      bitsToCodewords (buildBits version dataBytes tdc)) :
    decodeQR (addFormatInfo (applyMask
        (placeDataBits (patternsMR version).1 (patternsMR version).2 interleaved
          (version * 4 + 17))
        (patternsMR version).2 mask (version * 4 + 17)) mask (version * 4 + 17)) =
      some dataBytes := by
  have hwfmr := patternsMR_wf version
  have hwf1 : WellFormedMat (placeDataBits (patternsMR version).1 (patternsMR version).2
      interleaved (version * 4 + 17)) (version * 4 + 17) :=
    placeDataBits_wf hwfmr.1 _ _
  have hwf2 : WellFormedMat (applyMask (placeDataBits (patternsMR version).1
      (patternsMR version).2 interleaved (version * 4 + 17)) (patternsMR version).2 mask
      (version * 4 + 17)) (version * 4 + 17) := applyMask_wf hwf1 _ _
  have hwfM : WellFormedMat (addFormatInfo (applyMask (placeDataBits (patternsMR version).1
      (patternsMR version).2 interleaved (version * 4 + 17)) (patternsMR version).2 mask
      (version * 4 + 17)) mask (version * 4 + 17)) (version * 4 + 17) :=
    addFormatInfo_wf hwf2 _
  have hndps : ((traversal (version * 4 + 17)).filter fun p =>
      decide (mget (patternsMR version).2 p.1 p.2 = 0)).Nodup :=
    List.Nodup.filter _ (traversal_nodup _)
  have hbps : ∀ p ∈ (traversal (version * 4 + 17)).filter fun p =>
      decide (mget (patternsMR version).2 p.1 p.2 = 0),
      p.1 < version * 4 + 17 ∧ p.2 < version * 4 + 17 :=
    fun p hp => traversal_mem (List.mem_filter.mp hp).1
  have hlenle : (interleaved.flatMap (natBitsMSB 8)).length ≤
      ((traversal (version * 4 + 17)).filter fun p =>
        decide (mget (patternsMR version).2 p.1 p.2 = 0)).length := by
    rw [hL, flatMap_natBitsMSB_length]
    omega
  have hreadback : ((traversal (version * 4 + 17)).filter fun p =>
      decide (mget (patternsMR version).2 p.1 p.2 = 0)).map
        (fun p => mget (placeDataBits (patternsMR version).1 (patternsMR version).2
          interleaved (version * 4 + 17)) p.1 p.2) =
      interleaved.flatMap (natBitsMSB 8) ++ List.replicate rem 0 := by
    have h1 := writeSeq_read ((traversal (version * 4 + 17)).filter fun p =>
        decide (mget (patternsMR version).2 p.1 p.2 = 0)) (patternsMR version).1
      (interleaved.flatMap (natBitsMSB 8)) hndps hbps hwfmr.1 hlenle
    have h2 : ((traversal (version * 4 + 17)).filter fun p =>
        decide (mget (patternsMR version).2 p.1 p.2 = 0)).length -
        (interleaved.flatMap (natBitsMSB 8)).length = rem := by
      rw [hL, flatMap_natBitsMSB_length]
      omega
    rw [h2] at h1
    exact h1
  have hps_eq : ((traversal (version * 4 + 17)).filter fun p =>
      !stdReserved version (version * 4 + 17) p.1 p.2) =
      ((traversal (version * 4 + 17)).filter fun p =>
        decide (mget (patternsMR version).2 p.1 p.2 = 0)) := by
    apply List.filter_congr
    intro p hp
    have hb := traversal_mem hp
    cases hsr : stdReserved version (version * 4 + 17) p.1 p.2 with
    | false =>
      have h0 := (hgrid p.1 p.2 hb.1 hb.2).mpr hsr
      simp [h0]
    | true =>
      have hne : ¬ mget (patternsMR version).2 p.1 p.2 = 0 := by
        intro h0
        have hf := (hgrid p.1 p.2 hb.1 hb.2).mp h0
        rw [hf] at hsr
        exact absurd hsr (by decide)
      simp [hne]
  have hread : readDataBits (addFormatInfo (applyMask (placeDataBits (patternsMR version).1
      (patternsMR version).2 interleaved (version * 4 + 17)) (patternsMR version).2 mask
      (version * 4 + 17)) mask (version * 4 + 17)) version (version * 4 + 17) mask =
      interleaved.flatMap (natBitsMSB 8) ++ List.replicate rem 0 := by
    unfold readDataBits
    rw [hps_eq, ← hreadback]
    apply List.map_congr_left
    intro p hp
    have hmemf := List.mem_filter.mp hp
    have hres0 : mget (patternsMR version).2 p.1 p.2 = 0 := of_decide_eq_true hmemf.2
    have hb := traversal_mem hmemf.1
    have hnotin : ∀ (L : List (Nat × Nat)),
        (∀ q ∈ L, q.1 < version * 4 + 17 ∧ q.2 < version * 4 + 17 ∧
          stdReserved version (version * 4 + 17) q.1 q.2 = true) → (p.1, p.2) ∉ L := by
      intro L hL2 hmem
      obtain ⟨hq1, hq2, hq3⟩ := hL2 _ hmem
      have hq3b : stdReserved version (version * 4 + 17) p.1 p.2 = true := hq3
      have hq1b : p.1 < version * 4 + 17 := hq1
      have hq2b : p.2 < version * 4 + 17 := hq2
      have hf := (hgrid p.1 p.2 hq1b hq2b).mp hres0
      exact absurd (hq3b.symm.trans hf) (by decide)
    have hHb2 : ∀ q ∈ topLeftH, q.1 ≤ 8 ∧ q.2 ≤ 8 := by decide
    have hVb2 : ∀ q ∈ topLeftV, q.1 ≤ 8 ∧ q.2 ≤ 8 := by decide
    have hn1 : (p.1, p.2) ∉ topLeftH := hnotin _ (fun q hq =>
      ⟨by have := (hHb2 q hq).1; omega, by have := (hHb2 q hq).2; omega,
        stdReserved_corner (hHb2 q hq).1 (hHb2 q hq).2⟩)
    have hn2v : (p.1, p.2) ∉ topLeftV := hnotin _ (fun q hq =>
      ⟨by have := (hVb2 q hq).1; omega, by have := (hVb2 q hq).2; omega,
        stdReserved_corner (hVb2 q hq).1 (hVb2 q hq).2⟩)
    have hn3 : (p.1, p.2) ∉ topRightH (version * 4 + 17) := hnotin _ (fun q hq => by
      obtain ⟨hq1, hq2, hq3⟩ := mem_topRightH hs21 hq
      exact ⟨by omega, hq3, stdReserved_topRight (by omega) hq2⟩)
    have hn4 : (p.1, p.2) ∉ bottomLeftV (version * 4 + 17) := hnotin _ (fun q hq => by
      obtain ⟨hq1, hq2, hq3⟩ := mem_bottomLeftV hs21 hq
      exact ⟨hq2, by omega, stdReserved_bottomLeft hq1 (by omega)⟩)
    have hMp : mget (addFormatInfo (applyMask (placeDataBits (patternsMR version).1
        (patternsMR version).2 interleaved (version * 4 + 17)) (patternsMR version).2 mask
        (version * 4 + 17)) mask (version * 4 + 17)) p.1 p.2 =
        mget (applyMask (placeDataBits (patternsMR version).1 (patternsMR version).2
          interleaved (version * 4 + 17)) (patternsMR version).2 mask (version * 4 + 17))
          p.1 p.2 := by
      unfold addFormatInfo
      dsimp only
      rw [mget_writeSeq_notMem _ _ _ _ _ hn4, mget_writeSeq_notMem _ _ _ _ _ hn3,
        mget_writeSeq_notMem _ _ _ _ _ hn2v, mget_writeSeq_notMem _ _ _ _ _ hn1]
    rw [hMp, applyMask_mget hwf1 _ mask p.1 p.2]
    by_cases hmi : maskInvert mask p.1 p.2 = true
    · rw [if_pos hmi, if_pos ⟨hb.1, hb.2, hres0, hmi⟩, Nat.xor_assoc]
      simp
    · rw [if_neg hmi, if_neg (fun hc => hmi hc.2.2.2)]
  unfold decodeQR
  dsimp only
  rw [hwfM.1, show (version * 4 + 17 - 17) / 4 = version from by omega,
    decodeFormat_addFormatInfo hwf2 hmask hs21]
  show parseByteMode ((stdDataCodewords version (chunk8 (readDataBits (addFormatInfo
      (applyMask (placeDataBits (patternsMR version).1 (patternsMR version).2 interleaved
        (version * 4 + 17)) (patternsMR version).2 mask (version * 4 + 17)) mask
      (version * 4 + 17)) version (version * 4 + 17) mask))).flatMap (natBitsMSB 8)) =
    some dataBytes
  rw [hread, chunk8_flatMap_append _ hint]
  have hcrem : chunk8 (List.replicate rem 0) = List.replicate (min rem 1) 0 := by
    rcases hrem with h | h <;> subst h <;> decide
  rw [hcrem, hsdc]
  have hbb01 := buildBits_bits_lt hv10 hn2
  have hbblen := buildBits_length hv10 hn2
  rw [flatMap_bitsToCodewords (buildBits version dataBytes tdc).length _ le_rfl hbb01
    (by rw [hbblen]; omega)]
  exact parseByteMode_buildBits hv10 hn2 hn256 hdb

theorem interleaveEC_length (ecBlocks : List (List Nat)) (k : Nat) :
    (interleaveEC ecBlocks k).length = k * ecBlocks.length := by
  unfold interleaveEC
  rw [List.length_flatMap]
  have h1 : (List.map (List.length ∘ fun i => List.map (fun ec => ec.getD i 0) ecBlocks)
      (List.range k)) = List.map (fun _ => ecBlocks.length) (List.range k) := by
    apply List.map_congr_left
    intro i _
    show (List.map (fun ec => ec.getD i 0) ecBlocks).length = ecBlocks.length
    rw [List.length_map]
  rw [h1, List.map_const', List.sum_replicate, List.length_range, smul_eq_mul]

theorem sdc_single_block {dc : List Nat} {tdc ecc version : Nat} (hdc : dc.length = tdc)
    (hec : (rsEncode dc ecc).length = ecc) (hv6 : ¬version = 6)
    (htdc : stdTotalDataCodewords version = tdc) (extra : List Nat) :
    splitBlocks dc 1 tdc = [dc] ∧
    interleaveData (splitBlocks dc 1 tdc) ++
      interleaveEC ((splitBlocks dc 1 tdc).map fun b => rsEncode b ecc) ecc =
      dc ++ rsEncode dc ecc ∧
    stdDataCodewords version ((dc ++ rsEncode dc ecc) ++ extra) = dc := by
  have hsp : splitBlocks dc 1 tdc = [dc] := by
    show [(dc.drop (0 * tdc)).take tdc] = [dc]
    rw [Nat.zero_mul, List.drop_zero, ← hdc, List.take_length]
  refine ⟨hsp, ?_, ?_⟩
  · rw [hsp, interleaveData_single, List.map_cons, List.map_nil, interleaveEC_single hec]
  · unfold stdDataCodewords
    rw [if_neg hv6, htdc, List.append_assoc, List.take_left' hdc]

theorem sdc_two_block {dc : List Nat} (hdc : dc.length = 136) (extra : List Nat) :
    splitBlocks dc 2 68 = [dc.take 68, dc.drop 68] ∧
    (interleaveData [dc.take 68, dc.drop 68]).length = 136 ∧
    stdDataCodewords 6 ((interleaveData [dc.take 68, dc.drop 68] ++
      interleaveEC ([dc.take 68, dc.drop 68].map fun b => rsEncode b 18) 18) ++ extra) =
      dc := by
  have h68a : (dc.take 68).length = 68 := by
    rw [List.length_take, hdc]
    omega
  have h68b : (dc.drop 68).length = 68 := by
    rw [List.length_drop, hdc]
  have heq : (dc.take 68).length = (dc.drop 68).length := by
    rw [h68a, h68b]
  obtain ⟨hev, hod, hlen⟩ := interleaveData_pair (dc.take 68) (dc.drop 68) heq
  have hsp : splitBlocks dc 2 68 = [dc.take 68, dc.drop 68] := by
    show [(dc.drop (0 * 68)).take 68, (dc.drop (1 * 68)).take 68] = [dc.take 68, dc.drop 68]
    rw [Nat.zero_mul, List.drop_zero, Nat.one_mul,
      List.take_of_length_le (le_of_eq h68b)]
  refine ⟨hsp, by rw [hlen, h68a, h68b], ?_⟩
  unfold stdDataCodewords
  rw [if_pos rfl, List.append_assoc, List.take_left' (by rw [hlen, h68a, h68b]),
    hev, hod, List.take_append_drop]

theorem grid_fact_ext {version size : Nat}
    (h : ((List.range size).all fun r => (List.range size).all fun c =>
      decide ((mget (patternsMR version).2 r c = 0) ↔
        (stdReserved version size r c = false))) = true) :
    ∀ r c : Nat, r < size → c < size →
      (mget (patternsMR version).2 r c = 0 ↔ stdReserved version size r c = false) := by
  intro r c hr hc
  have h1 := List.all_eq_true.mp h _ (List.mem_range.mpr hr)
  have h2 := List.all_eq_true.mp h1 _ (List.mem_range.mpr hc)
  exact of_decide_eq_true h2

set_option maxRecDepth 1000000 in
theorem grid_fact_v1 : ((List.range 21).all fun r => (List.range 21).all fun c =>
    decide ((mget (patternsMR 1).2 r c = 0) ↔ (stdReserved 1 21 r c = false))) = true := by
  decide

set_option maxRecDepth 1000000 in
theorem grid_fact_v2 : ((List.range 25).all fun r => (List.range 25).all fun c =>
    decide ((mget (patternsMR 2).2 r c = 0) ↔ (stdReserved 2 25 r c = false))) = true := by
  decide

set_option maxRecDepth 1000000 in
theorem grid_fact_v3 : ((List.range 29).all fun r => (List.range 29).all fun c =>
    decide ((mget (patternsMR 3).2 r c = 0) ↔ (stdReserved 3 29 r c = false))) = true := by
  decide

set_option maxRecDepth 1000000 in
theorem grid_fact_v4 : ((List.range 33).all fun r => (List.range 33).all fun c =>
    decide ((mget (patternsMR 4).2 r c = 0) ↔ (stdReserved 4 33 r c = false))) = true := by
  decide

set_option maxRecDepth 1000000 in
theorem grid_fact_v5 : ((List.range 37).all fun r => (List.range 37).all fun c =>
    decide ((mget (patternsMR 5).2 r c = 0) ↔ (stdReserved 5 37 r c = false))) = true := by
  decide

set_option maxRecDepth 1000000 in
theorem grid_fact_v6 : ((List.range 41).all fun r => (List.range 41).all fun c =>
    decide ((mget (patternsMR 6).2 r c = 0) ↔ (stdReserved 6 41 r c = false))) = true := by
  decide

set_option maxRecDepth 1000000 in
theorem travL_v1 : ((traversal 21).filter fun p =>
    decide (mget (patternsMR 1).2 p.1 p.2 = 0)).length = 208 := by
  decide

set_option maxRecDepth 1000000 in
theorem travL_v2 : ((traversal 25).filter fun p =>
    decide (mget (patternsMR 2).2 p.1 p.2 = 0)).length = 359 := by
  decide

set_option maxRecDepth 1000000 in
theorem travL_v3 : ((traversal 29).filter fun p =>
    decide (mget (patternsMR 3).2 p.1 p.2 = 0)).length = 567 := by
  decide

set_option maxRecDepth 1000000 in
theorem travL_v4 : ((traversal 33).filter fun p =>
    decide (mget (patternsMR 4).2 p.1 p.2 = 0)).length = 807 := by
  decide

set_option maxRecDepth 1000000 in
theorem travL_v5 : ((traversal 37).filter fun p =>
    decide (mget (patternsMR 5).2 p.1 p.2 = 0)).length = 1079 := by
  decide

set_option maxRecDepth 1000000 in
theorem travL_v6 : ((traversal 41).filter fun p =>
    decide (mget (patternsMR 6).2 p.1 p.2 = 0)).length = 1383 := by
  decide

theorem c1_branch_single (str : List Nat) (version tdc ecc rem mask : Nat)
    (hmask : mask < 8) (hv6 : ¬version = 6) (hv10 : version < 10)
    (hs21 : 21 ≤ version * 4 + 17)
    (htdc : stdTotalDataCodewords version = tdc)
    (hdb : ∀ b ∈ str, b < 256)
    (hn2 : str.length + 2 ≤ tdc) (hn256 : str.length < 256)
    (hrem : rem = 0 ∨ rem = 7)
    (hgrid : ∀ r c : Nat, r < version * 4 + 17 → c < version * 4 + 17 →
      (mget (patternsMR version).2 r c = 0 ↔
        stdReserved version (version * 4 + 17) r c = false))
    (hLnum : ((traversal (version * 4 + 17)).filter fun p =>
      decide (mget (patternsMR version).2 p.1 p.2 = 0)).length = 8 * (tdc + ecc) + rem) :
    decodeQR (addFormatInfo (applyMask (placeDataBits (patternsMR version).1
      (patternsMR version).2 (interleaveData (splitBlocks (bitsToCodewords
        (buildBits version str tdc)) 1 tdc) ++ interleaveEC ((splitBlocks (bitsToCodewords
        (buildBits version str tdc)) 1 tdc).map fun b => rsEncode b ecc) ecc)
      (version * 4 + 17)) (patternsMR version).2 mask (version * 4 + 17)) mask
      (version * 4 + 17)) = some str := by
  have hbb01 := buildBits_bits_lt hv10 hn2
  have hbblen := buildBits_length hv10 hn2
  have hdclen : (bitsToCodewords (buildBits version str tdc)).length = tdc := by
    rw [bitsToCodewords_length (buildBits version str tdc).length _ le_rfl
      (by rw [hbblen]; omega), hbblen]
    omega
  have hdclt : ∀ c ∈ bitsToCodewords (buildBits version str tdc), c < 256 :=
    bitsToCodewords_lt (buildBits version str tdc).length _ le_rfl hbb01
  have hglen := (rsGeneratorPoly_props ecc).1
  have hzm : ∀ x ∈ (List.replicate ecc 0 : List Nat), x < 256 := by
    intro x hx
    rw [List.eq_of_mem_replicate hx]
    omega
  have hrsf := rsFold_props hglen (bitsToCodewords (buildBits version str tdc))
    (List.replicate ecc 0) (List.length_replicate ecc 0) hdclt hzm
  have hec : (rsEncode (bitsToCodewords (buildBits version str tdc)) ecc).length = ecc :=
    hrsf.1
  have hecm : ∀ c ∈ rsEncode (bitsToCodewords (buildBits version str tdc)) ecc, c < 256 :=
    hrsf.2
  obtain ⟨hsp, hinter_eq, hsdc0⟩ := sdc_single_block hdclen hec hv6 htdc
    (List.replicate (min rem 1) 0)
  rw [hinter_eq]
  refine decode_pipeline str _ version tdc rem mask hmask hv10 hs21 hdb hn2 hn256 ?_
    hrem hgrid ?_ ?_
  · intro c hc
    rcases List.mem_append.mp hc with h | h
    · exact hdclt c h
    · exact hecm c h
  · rw [List.length_append, hdclen, hec]
    exact hLnum
  · exact hsdc0

theorem c1_branch_v6 (str : List Nat)
    (hdb : ∀ b ∈ str, b < 256)
    (hn2 : str.length + 2 ≤ 136) (hn256 : str.length < 256) (mask : Nat)
    (hmask : mask < 8) :
    decodeQR (addFormatInfo (applyMask (placeDataBits (patternsMR 6).1
      (patternsMR 6).2 (interleaveData (splitBlocks (bitsToCodewords
        (buildBits 6 str 136)) 2 68) ++ interleaveEC ((splitBlocks (bitsToCodewords
        (buildBits 6 str 136)) 2 68).map fun b => rsEncode b 18) 18)
      (6 * 4 + 17)) (patternsMR 6).2 mask (6 * 4 + 17)) mask
      (6 * 4 + 17)) = some str := by
  have hv10 : (6 : Nat) < 10 := by omega
  have hbb01 := buildBits_bits_lt hv10 hn2
  have hbblen := buildBits_length hv10 hn2
  have hdclen : (bitsToCodewords (buildBits 6 str 136)).length = 136 := by
    rw [bitsToCodewords_length (buildBits 6 str 136).length _ le_rfl
      (by rw [hbblen]), hbblen]
  have hdclt : ∀ c ∈ bitsToCodewords (buildBits 6 str 136), c < 256 :=
    bitsToCodewords_lt (buildBits 6 str 136).length _ le_rfl hbb01
  obtain ⟨hsp, hilen, hsdc0⟩ := sdc_two_block hdclen (List.replicate (min 7 1) 0)
  have hglen := (rsGeneratorPoly_props 18).1
  have hzm : ∀ x ∈ (List.replicate 18 0 : List Nat), x < 256 := by
    intro x hx
    rw [List.eq_of_mem_replicate hx]
    omega
  have hecfact : ∀ bl ∈ splitBlocks (bitsToCodewords (buildBits 6 str 136)) 2 68,
      (rsEncode bl 18).length = 18 ∧ ∀ x ∈ rsEncode bl 18, x < 256 := by
    intro bl hbl
    exact rsFold_props hglen bl (List.replicate 18 0) (List.length_replicate 18 0)
      (fun x hx => hdclt x (mem_splitBlocks hbl x hx)) hzm
  refine decode_pipeline str _ 6 136 7 mask hmask hv10 (by omega) hdb hn2 hn256 ?_
    (Or.inr rfl) (grid_fact_ext grid_fact_v6) ?_ ?_
  · intro c hc
    rcases List.mem_append.mp hc with h | h
    · rcases mem_interleaveData h with ⟨bl, hbl, hcbl⟩
      exact hdclt c (mem_splitBlocks hbl c hcbl)
    · rcases mem_interleaveEC h with h0 | ⟨e, he, hce⟩
      · omega
      · rcases List.mem_map.mp he with ⟨bl, hbl, rfl⟩
        exact (hecfact bl hbl).2 c hce
  · rw [hsp, List.length_append, hilen, interleaveEC_length, List.length_map]
    exact travL_v6
  · rw [hsp]
    exact hsdc0

theorem jsTrim_length_le (t : List Nat) : (jsTrim t).length ≤ t.length := by
  unfold jsTrim
  rw [List.length_reverse]
  refine le_trans (List.dropWhile_sublist _).length_le ?_
  rw [List.length_reverse]
  exact (List.dropWhile_sublist _).length_le

/-- C1 counterexample to the claim as stated: the single-space string is a
non-empty ASCII string of at most 134 bytes, yet `generateQR` produces no QR
symbol for it at all (it trims to the empty string and errors), so no standard
reader can decode the (non-existent) symbol back to it. -/
theorem c1_round_trip_counterexample :
    ([32] : List Nat) ≠ [] ∧ (∀ u ∈ ([32] : List Nat), u < 128) ∧
    ([32] : List Nat).length ≤ 134 ∧
    generateQR [32] false = Except.error "QR text cannot be empty" :=
  ⟨by decide, by decide, by decide, rfl⟩

/-- C1 (amended): for every ASCII input of at most 134 bytes whose JS-trimmed
form is non-empty, `generateQR` succeeds, `createQRCode` yields a matrix for
the trimmed text, and the standard reader model decodes that matrix back to
exactly the trimmed text (the round trip holds for the trimmed string, which
is what the encoder actually encodes). -/
theorem c1_round_trip (text : List Nat) (hascii : ∀ u ∈ text, u < 128)
    (hne : jsTrim text ≠ []) (hlen : text.length ≤ 134) :
    ∃ svg M, generateQR text false = Except.ok svg ∧
      createQRCode (jsTrim text) = Except.ok M ∧ decodeQR M = some (jsTrim text) := by
  have hlen2 : (jsTrim text).length ≤ 134 := le_trans (jsTrim_length_le text) hlen
  have hstr : encodeByteMode (jsTrim text) = jsTrim text :=
    encodeByteMode_ascii (fun u hu => hascii u (jsTrim_mem hu))
  have hdb : ∀ b ∈ jsTrim text, b < 256 := fun b hb => by
    have := hascii b (jsTrim_mem hb)
    omega
  have hn256 : (jsTrim text).length < 256 := by omega
  have hgen : ∀ M : List (List Nat), createQRCode (jsTrim text) = Except.ok M →
      ∃ svg, generateQR text false = Except.ok svg := by
    intro M hM
    unfold generateQR
    dsimp only
    rw [if_neg (fun hc => hne (List.length_eq_zero.mp hc)), hM]
    exact ⟨_, rfl⟩
  by_cases c1 : (jsTrim text).length ≤ 17
  · have hcreate : createQRCode (jsTrim text) = Except.ok (addFormatInfo (applyMask (placeDataBits (patternsMR 1).1 (patternsMR 1).2 (interleaveData (splitBlocks (bitsToCodewords (buildBits 1 (jsTrim text) 19)) 1 19) ++ interleaveEC ((splitBlocks (bitsToCodewords (buildBits 1 (jsTrim text) 19)) 1 19).map fun b => rsEncode b 7) 7) (1 * 4 + 17)) (patternsMR 1).2 (selectMask (placeDataBits (patternsMR 1).1 (patternsMR 1).2 (interleaveData (splitBlocks (bitsToCodewords (buildBits 1 (jsTrim text) 19)) 1 19) ++ interleaveEC ((splitBlocks (bitsToCodewords (buildBits 1 (jsTrim text) 19)) 1 19).map fun b => rsEncode b 7) 7) (1 * 4 + 17)) (patternsMR 1).2 (1 * 4 + 17)) (1 * 4 + 17)) (selectMask (placeDataBits (patternsMR 1).1 (patternsMR 1).2 (interleaveData (splitBlocks (bitsToCodewords (buildBits 1 (jsTrim text) 19)) 1 19) ++ interleaveEC ((splitBlocks (bitsToCodewords (buildBits 1 (jsTrim text) 19)) 1 19).map fun b => rsEncode b 7) 7) (1 * 4 + 17)) (patternsMR 1).2 (1 * 4 + 17)) (1 * 4 + 17)) := by
      unfold createQRCode
      dsimp only
      rw [hstr, getMinVersion_eq, if_pos c1]
      rfl
    obtain ⟨svg, hsvg⟩ := hgen _ hcreate
    exact ⟨svg, _, hsvg, hcreate, c1_branch_single (jsTrim text) 1 19 7 0 _
      (selectMask_lt _ _ _) (by decide) (by decide) (by decide) rfl hdb (by omega) hn256
      (Or.inl rfl) (grid_fact_ext grid_fact_v1) travL_v1⟩
  by_cases c2 : (jsTrim text).length ≤ 32
  · have hcreate : createQRCode (jsTrim text) = Except.ok (addFormatInfo (applyMask (placeDataBits (patternsMR 2).1 (patternsMR 2).2 (interleaveData (splitBlocks (bitsToCodewords (buildBits 2 (jsTrim text) 34)) 1 34) ++ interleaveEC ((splitBlocks (bitsToCodewords (buildBits 2 (jsTrim text) 34)) 1 34).map fun b => rsEncode b 10) 10) (2 * 4 + 17)) (patternsMR 2).2 (selectMask (placeDataBits (patternsMR 2).1 (patternsMR 2).2 (interleaveData (splitBlocks (bitsToCodewords (buildBits 2 (jsTrim text) 34)) 1 34) ++ interleaveEC ((splitBlocks (bitsToCodewords (buildBits 2 (jsTrim text) 34)) 1 34).map fun b => rsEncode b 10) 10) (2 * 4 + 17)) (patternsMR 2).2 (2 * 4 + 17)) (2 * 4 + 17)) (selectMask (placeDataBits (patternsMR 2).1 (patternsMR 2).2 (interleaveData (splitBlocks (bitsToCodewords (buildBits 2 (jsTrim text) 34)) 1 34) ++ interleaveEC ((splitBlocks (bitsToCodewords (buildBits 2 (jsTrim text) 34)) 1 34).map fun b => rsEncode b 10) 10) (2 * 4 + 17)) (patternsMR 2).2 (2 * 4 + 17)) (2 * 4 + 17)) := by
      unfold createQRCode
      dsimp only
      rw [hstr, getMinVersion_eq, if_neg c1, if_pos c2]
      rfl
    obtain ⟨svg, hsvg⟩ := hgen _ hcreate
    exact ⟨svg, _, hsvg, hcreate, c1_branch_single (jsTrim text) 2 34 10 7 _
      (selectMask_lt _ _ _) (by decide) (by decide) (by decide) rfl hdb (by omega) hn256
      (Or.inr rfl) (grid_fact_ext grid_fact_v2) travL_v2⟩
  by_cases c3 : (jsTrim text).length ≤ 53
  · have hcreate : createQRCode (jsTrim text) = Except.ok (addFormatInfo (applyMask (placeDataBits (patternsMR 3).1 (patternsMR 3).2 (interleaveData (splitBlocks (bitsToCodewords (buildBits 3 (jsTrim text) 55)) 1 55) ++ interleaveEC ((splitBlocks (bitsToCodewords (buildBits 3 (jsTrim text) 55)) 1 55).map fun b => rsEncode b 15) 15) (3 * 4 + 17)) (patternsMR 3).2 (selectMask (placeDataBits (patternsMR 3).1 (patternsMR 3).2 (interleaveData (splitBlocks (bitsToCodewords (buildBits 3 (jsTrim text) 55)) 1 55) ++ interleaveEC ((splitBlocks (bitsToCodewords (buildBits 3 (jsTrim text) 55)) 1 55).map fun b => rsEncode b 15) 15) (3 * 4 + 17)) (patternsMR 3).2 (3 * 4 + 17)) (3 * 4 + 17)) (selectMask (placeDataBits (patternsMR 3).1 (patternsMR 3).2 (interleaveData (splitBlocks (bitsToCodewords (buildBits 3 (jsTrim text) 55)) 1 55) ++ interleaveEC ((splitBlocks (bitsToCodewords (buildBits 3 (jsTrim text) 55)) 1 55).map fun b => rsEncode b 15) 15) (3 * 4 + 17)) (patternsMR 3).2 (3 * 4 + 17)) (3 * 4 + 17)) := by
      unfold createQRCode
      dsimp only
      rw [hstr, getMinVersion_eq, if_neg c1, if_neg c2, if_pos c3]
      rfl
    obtain ⟨svg, hsvg⟩ := hgen _ hcreate
    exact ⟨svg, _, hsvg, hcreate, c1_branch_single (jsTrim text) 3 55 15 7 _
      (selectMask_lt _ _ _) (by decide) (by decide) (by decide) rfl hdb (by omega) hn256
      (Or.inr rfl) (grid_fact_ext grid_fact_v3) travL_v3⟩
  by_cases c4 : (jsTrim text).length ≤ 78
  · have hcreate : createQRCode (jsTrim text) = Except.ok (addFormatInfo (applyMask (placeDataBits (patternsMR 4).1 (patternsMR 4).2 (interleaveData (splitBlocks (bitsToCodewords (buildBits 4 (jsTrim text) 80)) 1 80) ++ interleaveEC ((splitBlocks (bitsToCodewords (buildBits 4 (jsTrim text) 80)) 1 80).map fun b => rsEncode b 20) 20) (4 * 4 + 17)) (patternsMR 4).2 (selectMask (placeDataBits (patternsMR 4).1 (patternsMR 4).2 (interleaveData (splitBlocks (bitsToCodewords (buildBits 4 (jsTrim text) 80)) 1 80) ++ interleaveEC ((splitBlocks (bitsToCodewords (buildBits 4 (jsTrim text) 80)) 1 80).map fun b => rsEncode b 20) 20) (4 * 4 + 17)) (patternsMR 4).2 (4 * 4 + 17)) (4 * 4 + 17)) (selectMask (placeDataBits (patternsMR 4).1 (patternsMR 4).2 (interleaveData (splitBlocks (bitsToCodewords (buildBits 4 (jsTrim text) 80)) 1 80) ++ interleaveEC ((splitBlocks (bitsToCodewords (buildBits 4 (jsTrim text) 80)) 1 80).map fun b => rsEncode b 20) 20) (4 * 4 + 17)) (patternsMR 4).2 (4 * 4 + 17)) (4 * 4 + 17)) := by
      unfold createQRCode
      dsimp only
      rw [hstr, getMinVersion_eq, if_neg c1, if_neg c2, if_neg c3, if_pos c4]
      rfl
    obtain ⟨svg, hsvg⟩ := hgen _ hcreate
    exact ⟨svg, _, hsvg, hcreate, c1_branch_single (jsTrim text) 4 80 20 7 _
      (selectMask_lt _ _ _) (by decide) (by decide) (by decide) rfl hdb (by omega) hn256
      (Or.inr rfl) (grid_fact_ext grid_fact_v4) travL_v4⟩
  by_cases c5 : (jsTrim text).length ≤ 106
  · have hcreate : createQRCode (jsTrim text) = Except.ok (addFormatInfo (applyMask (placeDataBits (patternsMR 5).1 (patternsMR 5).2 (interleaveData (splitBlocks (bitsToCodewords (buildBits 5 (jsTrim text) 108)) 1 108) ++ interleaveEC ((splitBlocks (bitsToCodewords (buildBits 5 (jsTrim text) 108)) 1 108).map fun b => rsEncode b 26) 26) (5 * 4 + 17)) (patternsMR 5).2 (selectMask (placeDataBits (patternsMR 5).1 (patternsMR 5).2 (interleaveData (splitBlocks (bitsToCodewords (buildBits 5 (jsTrim text) 108)) 1 108) ++ interleaveEC ((splitBlocks (bitsToCodewords (buildBits 5 (jsTrim text) 108)) 1 108).map fun b => rsEncode b 26) 26) (5 * 4 + 17)) (patternsMR 5).2 (5 * 4 + 17)) (5 * 4 + 17)) (selectMask (placeDataBits (patternsMR 5).1 (patternsMR 5).2 (interleaveData (splitBlocks (bitsToCodewords (buildBits 5 (jsTrim text) 108)) 1 108) ++ interleaveEC ((splitBlocks (bitsToCodewords (buildBits 5 (jsTrim text) 108)) 1 108).map fun b => rsEncode b 26) 26) (5 * 4 + 17)) (patternsMR 5).2 (5 * 4 + 17)) (5 * 4 + 17)) := by
      unfold createQRCode
      dsimp only
      rw [hstr, getMinVersion_eq, if_neg c1, if_neg c2, if_neg c3, if_neg c4, if_pos c5]
      rfl
    obtain ⟨svg, hsvg⟩ := hgen _ hcreate
    exact ⟨svg, _, hsvg, hcreate, c1_branch_single (jsTrim text) 5 108 26 7 _
      (selectMask_lt _ _ _) (by decide) (by decide) (by decide) rfl hdb (by omega) hn256
      (Or.inr rfl) (grid_fact_ext grid_fact_v5) travL_v5⟩
  have hcreate : createQRCode (jsTrim text) = Except.ok (addFormatInfo (applyMask (placeDataBits (patternsMR 6).1 (patternsMR 6).2 (interleaveData (splitBlocks (bitsToCodewords (buildBits 6 (jsTrim text) 136)) 2 68) ++ interleaveEC ((splitBlocks (bitsToCodewords (buildBits 6 (jsTrim text) 136)) 2 68).map fun b => rsEncode b 18) 18) (6 * 4 + 17)) (patternsMR 6).2 (selectMask (placeDataBits (patternsMR 6).1 (patternsMR 6).2 (interleaveData (splitBlocks (bitsToCodewords (buildBits 6 (jsTrim text) 136)) 2 68) ++ interleaveEC ((splitBlocks (bitsToCodewords (buildBits 6 (jsTrim text) 136)) 2 68).map fun b => rsEncode b 18) 18) (6 * 4 + 17)) (patternsMR 6).2 (6 * 4 + 17)) (6 * 4 + 17)) (selectMask (placeDataBits (patternsMR 6).1 (patternsMR 6).2 (interleaveData (splitBlocks (bitsToCodewords (buildBits 6 (jsTrim text) 136)) 2 68) ++ interleaveEC ((splitBlocks (bitsToCodewords (buildBits 6 (jsTrim text) 136)) 2 68).map fun b => rsEncode b 18) 18) (6 * 4 + 17)) (patternsMR 6).2 (6 * 4 + 17)) (6 * 4 + 17)) := by
    unfold createQRCode
    dsimp only
    rw [hstr, getMinVersion_eq, if_neg c1, if_neg c2, if_neg c3, if_neg c4, if_neg c5,
      if_pos hlen2]
    rfl
  obtain ⟨svg, hsvg⟩ := hgen _ hcreate
  exact ⟨svg, _, hsvg, hcreate, c1_branch_v6 (jsTrim text) hdb (by omega) hn256 _
    (selectMask_lt _ _ _)⟩

theorem c1_round_trip_witness :
    (∀ u ∈ ([72, 105] : List Nat), u < 128) ∧ jsTrim [72, 105] ≠ [] ∧
    ([72, 105] : List Nat).length ≤ 134 ∧
    (∃ svg M, generateQR [72, 105] false = Except.ok svg ∧
      createQRCode (jsTrim [72, 105]) = Except.ok M ∧
      decodeQR M = some (jsTrim [72, 105])) :=
  ⟨by decide, by decide, by decide,
    c1_round_trip [72, 105] (by decide) (by decide) (by decide)⟩
